/-
Verification of the dictionary-graph tree-layout library.

The development shallowly embeds the library's source:
  * `Tree` / `buildTree`              (src/dict_graph/utils.py)
  * `LayoutTree` / `buildLayoutTree`  (src/dict_graph/layout.py, LayoutTree.__init__)
  * the Buchheim layout walks         (src/dict_graph/buchheim.py)
  * `extractTreeLayout`, `transformAxes`, `renderTree`
                                      (src/dict_graph/layout.py)

Python's mutable `LayoutTree` objects are modelled by an immutable shadow
tree (`LayoutTree` below) addressed by paths (a node is its list of child
indices from the layout root, innermost index first), together with an
explicit association-list state `St` carrying all mutable per-node fields
(x, y, mod, shift, change, thread, ancestor).

Float arithmetic is modelled exactly, by the fraction type `Q` (every
operation the layout performs is exact on the binary floats it actually
produces, as the library's own unit tests document); `np.pi`, `np.cos` and
`np.sin`, which are used only by the RADIAL branch of the axis transform,
are taken as parameters of the transform.

Recursion over trees is implemented by structural recursion on an explicit
fuel so that every definition evaluates inside the kernel.  Fuel never
changes the semantics: each recursive walk consumes one unit of fuel per
tree level, and the wrappers provide more fuel than any reachable depth
(the layout tree is pruned at `depth_limit`, so `depth_limit`-derived fuel
is always enough; word insertion recurses once per character).
-/
import Mathlib

namespace DictGraph

/-! ## Exact fractions

`Q` models Python floats by exact fractions of machine-independent
integers.  Fractions are not reduced; `Q.eq` is equality of the
represented rationals and is what value-level claims are stated with.
Denominators stay positive under every operation below except a division
by a negative fraction, which renormalizes the sign. -/

structure Q : Type where
  num : Int
  den : Int
deriving Repr, DecidableEq

/-- Build a fraction, keeping the denominator nonnegative. -/
def Q.mk' (n d : Int) : Q := if d < 0 then ⟨-n, -d⟩ else ⟨n, d⟩

def Q.ofInt (n : Int) : Q := ⟨n, 1⟩

instance (n : Nat) : OfNat Q n := ⟨⟨(n : Int), 1⟩⟩

def Q.add (a b : Q) : Q := ⟨a.num * b.den + b.num * a.den, a.den * b.den⟩
def Q.sub (a b : Q) : Q := ⟨a.num * b.den - b.num * a.den, a.den * b.den⟩
def Q.mul (a b : Q) : Q := ⟨a.num * b.num, a.den * b.den⟩
def Q.div (a b : Q) : Q := Q.mk' (a.num * b.den) (a.den * b.num)
def Q.neg (a : Q) : Q := ⟨-a.num, a.den⟩

instance : Add Q := ⟨Q.add⟩
instance : Sub Q := ⟨Q.sub⟩
instance : Mul Q := ⟨Q.mul⟩
instance : Div Q := ⟨Q.div⟩
instance : Neg Q := ⟨Q.neg⟩
instance : Inhabited Q := ⟨⟨0, 1⟩⟩

/-- The represented rationals are equal (cross multiplication; valid since
denominators are positive in every state the layout produces). -/
def Q.eq (a b : Q) : Prop := a.num * b.den = b.num * a.den

instance (a b : Q) : Decidable (Q.eq a b) := by unfold Q.eq; infer_instance

/-- Strict order on the represented rationals (`a < b`; valid for positive
denominators, which is the case throughout the layout). -/
def Q.lt (a b : Q) : Prop := a.num * b.den < b.num * a.den

instance (a b : Q) : Decidable (Q.lt a b) := by unfold Q.lt; infer_instance

/-- Python's `min` on two floats. -/
def Q.min2 (a b : Q) : Q := if Q.lt b a then b else a

/-- Python's `max` on two floats. -/
def Q.max2 (a b : Q) : Q := if Q.lt a b then b else a

/-- Pointwise `Q.eq` on coordinate pairs. -/
def Q.eq2 (a b : Q × Q) : Prop := Q.eq a.1 b.1 ∧ Q.eq a.2 b.2

instance (a b : Q × Q) : Decidable (Q.eq2 a b) := by unfold Q.eq2; infer_instance

/-- A node address in the layout shadow tree: the child index of the node
itself, followed by that of its parent, and so on up to the layout root
(whose address is `[]`). -/
abbrev Path : Type := List Nat

/-! ## Source trie (`utils.py`) -/

/-- Source tree node (`utils.Tree`): a value, insertion-ordered children and
the `is_leaf` mark (set when a word terminates at the node, NOT when the
node is childless). -/
inductive Tree : Type where
  | mk (value : String) (children : List Tree) (isLf : Bool)

def Tree.value : Tree → String
  | .mk v _ _ => v

def Tree.children : Tree → List Tree
  | .mk _ cs _ => cs

def Tree.isLf : Tree → Bool
  | .mk _ _ l => l

/-- One word inserted into the trie (the inner loop of `utils.build_tree`):
walk down `cur.children.setdefault(c, Tree(c))` for each character, then
mark the final node `is_leaf = True`.  The fuel is one unit per character.
The children of a node are a Python dict keyed by the child's value, so at
most one child matches `c` and updating every match is `setdefault`. -/
def insertWordF : Nat → Tree → List Char → Tree
  | _, .mk v cs _, [] => .mk v cs true
  | 0, t, _ :: _ => t
  | fuel + 1, .mk v cs lf, c :: rest =>
      .mk v
        (if cs.any (fun t => decide (t.value = c.toString)) then
          cs.map (fun t =>
            if t.value = c.toString then insertWordF fuel t rest else t)
        else cs ++ [insertWordF fuel (.mk c.toString [] false) rest])
        lf

def insertWord (t : Tree) (w : List Char) : Tree := insertWordF w.length t w

/-- `utils.build_tree`: fold the words into a trie rooted at `Tree("")`. -/
def buildTree (words : List String) : Tree :=
  words.foldl (fun t w => insertWord t w.toList) (.mk "" [] false)

/-! ## Layout shadow tree (`layout.LayoutTree.__init__`) -/

/-- The immutable skeleton of a `LayoutTree` node: the source node's value,
its source `is_leaf` flag (used only by extraction) and the layout
children. -/
inductive LayoutTree : Type where
  | mk (value : String) (srcLeaf : Bool) (children : List LayoutTree)

def LayoutTree.value : LayoutTree → String
  | .mk v _ _ => v

def LayoutTree.srcLeaf : LayoutTree → Bool
  | .mk _ l _ => l

def LayoutTree.children : LayoutTree → List LayoutTree
  | .mk _ _ cs => cs

/-- `LayoutTree.__init__`: one layout node per source node, with children
built only while `level < level_limit - 1` (deeper subtrees are pruned).
One unit of fuel is consumed per level actually built, so any fuel above
`level_limit - 1 - level` is enough. -/
def buildLayoutTreeF : Nat → Tree → Int → Int → LayoutTree
  | 0, t, _, _ => .mk t.value t.isLf []
  | fuel + 1, t, level, levelLimit =>
      .mk t.value t.isLf
        (if level < levelLimit - 1 then
          t.children.map (fun c => buildLayoutTreeF fuel c (level + 1) levelLimit)
        else [])

/-- Fuel sufficient for every recursion bounded by the pruning depth of a
layout tree built with limit `levelLimit` from level `-1` or above. -/
def limitFuel (levelLimit : Int) : Nat := levelLimit.toNat + 3

def buildLayoutTree (t : Tree) (level levelLimit : Int) : LayoutTree :=
  buildLayoutTreeF (limitFuel levelLimit) t level levelLimit

/-- Exact height of a layout tree, given fuel at least that height
(`heightF fuel t < fuel` certifies that the fuel sufficed). -/
def heightF : Nat → LayoutTree → Nat
  | 0, _ => 0
  | fuel + 1, .mk _ _ cs => 1 + (cs.map (heightF fuel)).foldr max 0

/-- Look a node up by its root-first index list. -/
def getDown : LayoutTree → List Nat → Option LayoutTree
  | t, [] => some t
  | t, i :: rest =>
      match t.children.get? i with
      | some c => getDown c rest
      | none => none

/-- Look a node up by its path (innermost child index first). -/
def getLT (root : LayoutTree) (p : Path) : Option LayoutTree :=
  getDown root p.reverse

/-- Number of children of the node at `p` (0 for an invalid path). -/
def cnt (root : LayoutTree) (p : Path) : Nat :=
  match getLT root p with
  | some t => t.children.length
  | none => 0

/-- `LayoutTree.left_sibling`: previous child of the same parent, if any. -/
def leftSibP : Path → Option Path
  | [] => none
  | i :: t => match i with
    | 0 => none
    | j + 1 => some (j :: t)

/-! ## Mutable per-node layout state -/

/-- The mutable fields of a `LayoutTree` node: preliminary coordinates,
modifier, deferred shift bookkeeping, and the `thread` / `ancestor`
scratch references (as paths). -/
structure NV : Type where
  x : Q
  y : Q
  mod : Q
  shift : Q
  change : Q
  thread : Option Path
  ancestor : Path
deriving Repr, DecidableEq

instance : Inhabited NV := ⟨⟨0, 0, 0, 0, 0, none, []⟩⟩

/-- The layout state: the mutable record of every node, keyed by path. -/
abbrev St : Type := List (Path × NV)

def getNV (st : St) (p : Path) : NV :=
  match st.find? (fun e => decide (e.1 = p)) with
  | some e => e.2
  | none => default

def setNV (st : St) (p : Path) (f : NV → NV) : St :=
  st.map (fun e => if e.1 = p then (e.1, f e.2) else e)

/-- The state mentions the node (true for every path of the layout tree in
any state arising from `initSt`). -/
def hasPath (st : St) (p : Path) : Prop := p ∈ st.map Prod.fst

instance (st : St) (p : Path) : Decidable (hasPath st p) := by
  unfold hasPath; infer_instance

def getX (st : St) (p : Path) : Q := (getNV st p).x
def getY (st : St) (p : Path) : Q := (getNV st p).y
def getMod (st : St) (p : Path) : Q := (getNV st p).mod
def getShift (st : St) (p : Path) : Q := (getNV st p).shift
def getChange (st : St) (p : Path) : Q := (getNV st p).change
def getThread (st : St) (p : Path) : Option Path := (getNV st p).thread
def getAnc (st : St) (p : Path) : Path := (getNV st p).ancestor

def setX (st : St) (p : Path) (v : Q) : St := setNV st p (fun nv => { nv with x := v })
def setY (st : St) (p : Path) (v : Q) : St := setNV st p (fun nv => { nv with y := v })
def setMod (st : St) (p : Path) (v : Q) : St := setNV st p (fun nv => { nv with mod := v })
def incX (st : St) (p : Path) (d : Q) : St := setNV st p (fun nv => { nv with x := nv.x + d })
def incMod (st : St) (p : Path) (d : Q) : St := setNV st p (fun nv => { nv with mod := nv.mod + d })
def incShift (st : St) (p : Path) (d : Q) : St := setNV st p (fun nv => { nv with shift := nv.shift + d })
def incChange (st : St) (p : Path) (d : Q) : St := setNV st p (fun nv => { nv with change := nv.change + d })
def setThread (st : St) (p : Path) (t : Option Path) : St := setNV st p (fun nv => { nv with thread := t })
def setAnc (st : St) (p : Path) (a : Path) : St := setNV st p (fun nv => { nv with ancestor := a })

/-- All node paths of the layout subtree rooted at path `p`, in preorder
(fuel: one unit per level). -/
def allPathsF : Nat → LayoutTree → Path → List Path
  | 0, _, _ => []
  | fuel + 1, .mk _ _ cs, p =>
      p :: (cs.enum.map (fun ic => allPathsF fuel ic.2 (ic.1 :: p))).flatten

/-- The state right after `LayoutTree.__init__`: `x = 0`, `y = level`
(`rootLevel` for the root, one more per layer), `mod = shift = change = 0`,
no `thread`, and `ancestor` pointing at the node itself. -/
def initSt (fuel : Nat) (root : LayoutTree) (rootLevel : Int) : St :=
  (allPathsF fuel root []).map (fun p =>
    (p, { x := 0, y := Q.ofInt (rootLevel + p.length), mod := 0, shift := 0,
          change := 0, thread := none, ancestor := p }))

/-! ## The Buchheim walks (`buchheim.py`) -/

/-- `LayoutTree.next_left`: next node on the left contour — the thread for a
(layout) leaf, else the first child. -/
def nextLeft (root : LayoutTree) (st : St) (p : Path) : Option Path :=
  if cnt root p = 0 then getThread st p else some (0 :: p)

/-- `LayoutTree.next_right`: next node on the right contour — the thread
for a (layout) leaf, else the last child. -/
def nextRight (root : LayoutTree) (st : St) (p : Path) : Option Path :=
  if cnt root p = 0 then getThread st p else some ((cnt root p - 1) :: p)

/-- `_ancestor(vil, v, default_ancestor)`: `vil.ancestor` if it is still a
child of `v.parent`, else the running default ancestor. -/
def ancestorOf (root : LayoutTree) (st : St) (vil v dA : Path) : Path :=
  if getAnc st vil ∈ (List.range (cnt root v.tail)).map (· :: v.tail) then
    getAnc st vil
  else dA

/-- `_shift_subtrees(wl, wr, shift_amount)`: move the subtree rooted at the
sibling `wr` right by `shift_amount` and record the deferred spread over
the `wr.sibling_index - wl.sibling_index` intermediate subtrees. -/
def shiftSubtrees (wl wr : Path) (amount : Q) (st : St) : St :=
  let subtrees : Q := Q.ofInt ((wr.headD 0 : Int) - (wl.headD 0 : Int))
  let st1 := incShift st wr amount
  let st2 := incChange st1 wr (-(amount / subtrees))
  let st3 := incChange st2 wl (amount / subtrees)
  let st4 := incX st3 wr amount
  incMod st4 wr amount

/-- The loop state of `_apportion`: the four contour pointers and the four
running modifier sums. -/
structure AS : Type where
  vil : Path
  vir : Path
  vol : Path
  vor : Path
  sil : Q
  sir : Q
  sol : Q
  sor : Q
  st : St

/-- The contour-descending `while` loop of `_apportion`.  The fuel only
bounds the number of levels the four pointers can descend (each iteration
moves one level down, so any fuel of at least the subtree height is
enough); the loop exits through its own condition. -/
def apportionLoop (root : LayoutTree) (dx : Q) (v dA : Path) :
    Nat → AS → AS
  | 0, a => a
  | fuel + 1, a =>
      match nextRight root a.st a.vil, nextLeft root a.st a.vir with
      | some vil2, some vir2 =>
          match nextLeft root a.st a.vol, nextRight root a.st a.vor with
          | some vol2, some vor2 =>
              let st1 := setAnc a.st vor2 v
              let sh := (getX st1 vil2 + a.sil) - (getX st1 vir2 + a.sir) + dx
              let next :=
                if Q.lt 0 sh then
                  let anc := ancestorOf root st1 vil2 v dA
                  (shiftSubtrees anc v sh st1, a.sir + sh, a.sor + sh)
                else (st1, a.sir, a.sor)
              apportionLoop root dx v dA fuel
                { vil := vil2, vir := vir2, vol := vol2, vor := vor2,
                  sil := a.sil + getMod next.1 vil2,
                  sir := next.2.1 + getMod next.1 vir2,
                  sol := a.sol + getMod next.1 vol2,
                  sor := next.2.2 + getMod next.1 vor2,
                  st := next.1 }
          | _, _ => a
          -- the source would dereference a missing outer-contour node here;
          -- unreachable, as the outer contours are threaded at least as
          -- deep as the inner ones
      | _, _ => a

/-- `_apportion(v, default_ancestor, dx)`: resolve contour conflicts
between the subtree just placed at `v` and its left siblings, then thread
the exhausted contour; returns the updated state and default ancestor. -/
def apportion (fuel : Nat) (root : LayoutTree) (dx : Q) (v dA : Path)
    (st : St) : St × Path :=
  match leftSibP v with
  | none => (st, dA)
  | some vl =>
      let vol : Path := 0 :: vl.tail
      let a0 : AS :=
        { vil := vl, vir := v, vol := vol, vor := v,
          sil := getMod st vl, sir := getMod st v,
          sol := getMod st vol, sor := getMod st v, st := st }
      let a := apportionLoop root dx v dA fuel a0
      if (nextRight root a.st a.vil).isSome ∧
          ¬(nextRight root a.st a.vor).isSome then
        let st1 := setThread a.st a.vor (nextRight root a.st a.vil)
        (incMod st1 a.vor (a.sil - a.sor), dA)
      else
        let st1 :=
          if (nextLeft root a.st a.vir).isSome ∧
              ¬(nextLeft root a.st a.vol).isSome then
            incMod (setThread a.st a.vol (nextLeft root a.st a.vir)) a.vol
              (a.sir - a.sol)
          else a.st
        (st1, v)

/-- One step of `_shift_tree`: the body of its right-to-left loop, with the
running `(shift, change)` accumulators. -/
def shiftTreeStep (acc : St × Q × Q) (w : Path) : St × Q × Q :=
  let st1 := incMod (incX acc.1 w acc.2.1) w acc.2.1
  let change := acc.2.2 + getChange st1 w
  (st1, acc.2.1 + getShift st1 w + change, change)

/-- `_shift_tree(root)`: execute all deferred shifts in one traversal of
the given children, from right to left (the source iterates
`root.children[::-1]`). -/
def shiftTree (ws : List Path) (st : St) : St :=
  (ws.reverse.foldl shiftTreeStep (st, 0, 0)).1

/-- The statement of spec section 4.4 on shift aggregation, written the way
the spec words it: process the children once from the rightmost to the
leftmost with running accumulators `shift` and `change` that start at 0;
each child's `x` and `mod` receive the current running shift, then `change`
accumulates the child's own change and `shift` accumulates the child's own
shift plus the updated change. -/
def shiftAggSpecGo : List Path → St → Q → Q → St
  | [], st, _, _ => st
  | w0 :: ws, st, sh, ch =>
      let w := (w0 :: ws).getLast (List.cons_ne_nil w0 ws)
      let st1 := incMod (incX st w sh) w sh
      let ch1 := ch + getChange st1 w
      shiftAggSpecGo (w0 :: ws).dropLast st1 (sh + getShift st1 w + ch1) ch1
termination_by ws _ _ _ => ws.length
decreasing_by simp

def shiftAggSpec (ws : List Path) (st : St) : St := shiftAggSpecGo ws st 0 0

/-- The body of the children loop of `_first_walk` (shared with the
statement of the first-pass claim): walk the child with the default
spacing — the recursive call `_first_walk(w)` passes no `dx` — then
apportion it against the running default ancestor, with the enclosing
call's `dx`. -/
def fwChildren (fw : LayoutTree → Path → St → St) (fuel : Nat)
    (root : LayoutTree) (dx : Q) (cs : List LayoutTree) (p : Path)
    (st : St) : St × Path :=
  cs.enum.foldl
    (fun acc ic =>
      let st1 := fw ic.2 (ic.1 :: p) acc.1
      apportion fuel root dx (ic.1 :: p) acc.2 st1)
    (st, (0 : Nat) :: p)

/-- `_first_walk(root, dx)` — bottom-up placement.  A layout leaf is placed
at `0` or next to its left sibling; an internal node recursively lays out
and apportions its children starting from the default ancestor
`root.children[0]`, shifts them, and places itself at their midpoint or
next to its left sibling, recording `mod = x - midpoint`.  Fuel: one unit
per level. -/
def firstWalkF (root : LayoutTree) : Nat → Q → LayoutTree → Path → St → St
  | 0, _, _, _, st => st
  | fuel + 1, dx, lt, p, st =>
      match lt.children with
      | [] =>
          match leftSibP p with
          | none => setX st p 0
          | some w => setX st p (getX st w + dx)
      | c :: cs =>
          let n := (c :: cs).length
          let st1 :=
            (fwChildren (fun l q s => firstWalkF root fuel 1 l q s) fuel root
              dx (c :: cs) p st).1
          let st2 := shiftTree ((List.range n).map (· :: p)) st1
          let mid := (getX st2 (0 :: p) + getX st2 ((n - 1) :: p)) * (1 / 2)
          match leftSibP p with
          | none => setX st2 p mid
          | some w =>
              setMod (setX st2 p (getX st2 w + dx)) p (getX st2 w + dx - mid)

/-- The children loop of `_second_walk`, threading the state and the
running minimum x. -/
def swChildren (sw : LayoutTree → Path → Q → Option Q → Option Q →
      St → St × Q) (cs : List LayoutTree) (p : Path) (sh sy : Q) (mx : Q)
    (st : St) : St × Q :=
  cs.enum.foldl
    (fun acc ic => sw ic.2 (ic.1 :: p) sh (some sy) (some acc.2) acc.1)
    (st, mx)

/-- `_second_walk(root, shift, start_y, dy, min_x)` — top-down resolution
of absolute coordinates: add the accumulated shift to `x`, fix `y` from
`start_y`, track the minimum `x`, and recurse with `shift + root.mod`.
Fuel: one unit per level. -/
def secondWalkF (dy : Q) : Nat → LayoutTree → Path → Q → Option Q →
    Option Q → St → St × Q
  | 0, _, _, _, _, mx, st => (st, mx.getD 0)
  | fuel + 1, lt, p, sh, sy, mx, st =>
      let st1 := setX st p (getX st p + sh)
      let sy2 := match sy with
        | some s => s
        | none => getY st1 p
      let st2 := match sy with
        | some s => setY st1 p s
        | none => st1
      let x1 := getX st2 p
      let mx1 := match mx with
        | none => x1
        | some m => if Q.lt x1 m then x1 else m
      swChildren (fun l q s y m t => secondWalkF dy fuel l q s y m t)
        lt.children p (sh + getMod st2 p) (sy2 + dy) mx1 st2

/-- The folding loop of `boundary_box` over the children. -/
def bbChildren (bb : LayoutTree → Path → Q × Q × Q × Q)
    (cs : List LayoutTree) (p : Path) (acc : Q × Q × Q × Q) :
    Q × Q × Q × Q :=
  cs.enum.foldl
    (fun acc ic =>
      let b := bb ic.2 (ic.1 :: p)
      (Q.min2 acc.1 b.1, Q.max2 acc.2.1 b.2.1, Q.min2 acc.2.2.1 b.2.2.1,
        Q.max2 acc.2.2.2 b.2.2.2))
    acc

/-- `LayoutTree.boundary_box`: a node's own point for a leaf, else the
union of the children's boxes with the node's own point, as
`(x_min, x_max, y_min, y_max)`. -/
def boundaryBoxF (st : St) : Nat → LayoutTree → Path → Q × Q × Q × Q
  | 0, _, p => (getX st p, getX st p, getY st p, getY st p)
  | fuel + 1, lt, p =>
      match lt.children with
      | [] => (getX st p, getX st p, getY st p, getY st p)
      | cs =>
          bbChildren (fun l q => boundaryBoxF st fuel l q) cs p
            (getX st p, getX st p, getY st p, getY st p)

/-- `buchheim(layout_tree)`: run the two walks in place and return the
boundary box of the computed layout. -/
def buchheim (fuel : Nat) (root : LayoutTree) (st : St) :
    St × (Q × Q × Q × Q) :=
  let st1 := firstWalkF root fuel 1 root [] st
  let r := secondWalkF 1 fuel root [] 0 none none st1
  (r.1, boundaryBoxF r.1 fuel root [])

/-! ## Extraction (`layout.extract_tree_layout`) -/

/-- The flat graph handed to the renderer: branch and leaf labels, edges in
traversal order, and positions, all keyed by the pluggable identifier. -/
structure Extracted (α : Type) : Type where
  branches : List (α × String)
  leaves : List (α × String)
  edges : List (α × α)
  positions : List (α × (Q × Q))
deriving Repr, DecidableEq

def emptyExtracted {α : Type} : Extracted α := ⟨[], [], [], []⟩

/-- Python dict assignment `m[k] = v`: overwrite in place if the key exists
(keeping its original insertion position), else append. -/
def dinsert {α β : Type} [DecidableEq α] (m : List (α × β)) (k : α) (v : β) :
    List (α × β) :=
  if m.any (fun e => decide (e.1 = k)) then
    m.map (fun e => if e.1 = k then (k, v) else e)
  else m ++ [(k, v)]

/-- The children of a queue entry, as queue entries. -/
def childEntries (e : Path × LayoutTree) : List (Path × LayoutTree) :=
  e.2.children.enum.map (fun ic => (ic.1 :: e.1, ic.2))

/-- One round of the BFS loop of `extract_tree_layout`: process every node
of the current level (classify by the source `is_leaf` flag, record its
position, emit its child edges) and collect the next level. -/
def processLevel {α : Type} [DecidableEq α] (key : Path → α) (st : St)
    (q : List (Path × LayoutTree)) (E : Extracted α) :
    Extracted α × List (Path × LayoutTree) :=
  q.foldl
    (fun acc e =>
      let curr := key e.1
      let E0 := acc.1
      let E1 :=
        if e.2.srcLeaf then { E0 with leaves := dinsert E0.leaves curr e.2.value }
        else { E0 with branches := dinsert E0.branches curr e.2.value }
      let E2 :=
        { E1 with positions := dinsert E1.positions curr (getX st e.1, getY st e.1) }
      let kids := childEntries e
      let E3 := { E2 with edges := E2.edges ++ kids.map (fun k => (curr, key k.1)) }
      (E3, acc.2 ++ kids))
    (E, [])

/-- The `while q:` loop of `extract_tree_layout`.  The fuel only bounds the
number of levels; the loop exits when the queue empties. -/
def extractGo {α : Type} [DecidableEq α] (key : Path → α) (st : St) :
    Nat → List (Path × LayoutTree) → Extracted α → Extracted α
  | 0, _, E => E
  | fuel + 1, q, E =>
      match q with
      | [] => E
      | _ =>
          let r := processLevel key st q E
          extractGo key st fuel r.2 r.1

/-- `extract_tree_layout(layout_tree, key=key)`: breadth-first flattening
of the given root(s) into branches, leaves, edges and positions.  Any fuel
exceeding the height of every given tree makes the loop run until its
queue empties. -/
def extractTreeLayout {α : Type} [DecidableEq α] (key : Path → α) (st : St)
    (fuel : Nat) (roots : List (Path × LayoutTree)) : Extracted α :=
  extractGo key st fuel roots emptyExtracted

/-! ## Axis transform and `render_tree` (`layout.py`) -/

/-- `_transform_axes(positions, rankdir)`.  The positions are assumed laid
out top-to-bottom; `TB` negates y, `LR` maps `(x, y)` to `(y, -x)`, `RL`
to `(-y, -x)`, `RADIAL` to polar coordinates, and any other value falls
through the `if/elif` chain unchanged.  `np.pi`, `np.cos` and `np.sin` are
abstracted as the parameters `piQ`, `cosQ`, `sinQ` (the only irrational
ingredients; no claim below instantiates them). -/
def transformAxes {α : Type} (piQ : Q) (cosQ sinQ : Q → Q) (rankdir : String)
    (positions : List (α × (Q × Q))) : List (α × (Q × Q)) :=
  if rankdir = "TB" then
    positions.map (fun e => (e.1, e.2.1, -e.2.2))
  else if rankdir = "LR" then
    positions.map (fun e => (e.1, e.2.2, -e.2.1))
  else if rankdir = "RL" then
    positions.map (fun e => (e.1, -e.2.2, -e.2.1))
  else if rankdir = "RADIAL" then
    match positions.map (fun e => e.2) with
    | [] => positions
    | v0 :: vs =>
        let x0 := (vs.map Prod.fst).foldl Q.min2 v0.1
        let y0 := (vs.map Prod.snd).foldl Q.min2 v0.2
        let x1 := (vs.map Prod.fst).foldl Q.max2 v0.1
        let y1 := (vs.map Prod.snd).foldl Q.max2 v0.2
        let r0 := (1 / 5 : Q) * (y1 - y0)
        let thetaUnit := 2 * piQ / ((x1 - x0) + 1)
        positions.map (fun e =>
          let r := e.2.2 - y0 + r0
          let theta := (e.2.1 - x0) * thetaUnit
          (e.1, r * cosQ theta, r * sinQ theta))
  else positions

/-- `render_tree(tree, keep_root=, depth_limit=, rankdir=, key=)`: build
the layout shadow tree (root level 0, or -1 when the root is dropped), run
the Buchheim walks, extract the flat graph from the root (or, with
`keep_root=False`, from its children), and transform the axes unless the
direction is the raw `BT`.  All fuel is derived from `depth_limit`, which
bounds the depth of the pruned layout tree. -/
def renderTree {α : Type} [DecidableEq α] (tree : Tree) (keepRoot : Bool)
    (depthLimit : Int) (rankdir : String) (key : Path → α) (piQ : Q)
    (cosQ sinQ : Q → Q) : Extracted α :=
  let fuel := limitFuel depthLimit
  let rootLevel : Int := if keepRoot then 0 else -1
  let lt := buildLayoutTree tree rootLevel depthLimit
  let st0 := initSt fuel lt rootLevel
  let st := (buchheim fuel lt st0).1
  let roots := if keepRoot then [(([] : Path), lt)] else childEntries ([], lt)
  let E := extractTreeLayout key st fuel roots
  if rankdir ≠ "BT" then
    { E with positions := transformAxes piQ cosQ sinQ rankdir E.positions }
  else E

/-! ## Derived notions used by the statements -/

/-- Position of the node with identifier `k` in the extracted graph. -/
def lookupPos {α : Type} [DecidableEq α] (E : Extracted α) (k : α) :
    Option (Q × Q) :=
  (E.positions.find? (fun e => decide (e.1 = k))).map Prod.snd

/-- Pointwise `Q.eq` on optional coordinate pairs. -/
def optEq2 : Option (Q × Q) → Option (Q × Q) → Prop
  | some a, some b => Q.eq2 a b
  | none, none => True
  | _, _ => False

instance (a b : Option (Q × Q)) : Decidable (optEq2 a b) := by
  unfold optEq2
  cases a <;> cases b <;> simp <;> infer_instance

/-- The x-coordinate of the node with identifier `k` (0 if absent; every
statement below only applies it to present identifiers). -/
def posX {α : Type} [DecidableEq α] (E : Extracted α) (k : α) : Q :=
  ((lookupPos E k).getD (0, 0)).1

/-- The queue of the next BFS level. -/
def nextQueue (q : List (Path × LayoutTree)) : List (Path × LayoutTree) :=
  (q.map childEntries).flatten

/-- The list of queue entries in the order the BFS loop of
`extract_tree_layout` processes them (level by level). -/
def bfsOrderF : Nat → List (Path × LayoutTree) → List (Path × LayoutTree)
  | 0, _ => []
  | fuel + 1, q =>
      match q with
      | [] => []
      | _ => q ++ bfsOrderF fuel (nextQueue q)

/-- All entries of the subtree of a queue entry, in depth-first order
(fuel: one unit per level). -/
def subtreeEntriesF : Nat → (Path × LayoutTree) → List (Path × LayoutTree)
  | 0, _ => []
  | fuel + 1, e => e :: ((childEntries e).map (subtreeEntriesF fuel)).flatten

/-- All live nodes reachable from the given roots, with their paths. -/
def visitedF (fuel : Nat) (roots : List (Path × LayoutTree)) :
    List (Path × LayoutTree) :=
  (roots.map (subtreeEntriesF fuel)).flatten

/-- Every node of a layout tree paired with its level, the root taken at
`lvl` (fuel: one unit per level). -/
def nodesAtF : Nat → LayoutTree → Int → List (Int × LayoutTree)
  | 0, _, _ => []
  | fuel + 1, .mk v lf cs, lvl =>
      (lvl, .mk v lf cs) :: (cs.map (fun c => nodesAtF fuel c (lvl + 1))).flatten

/-! ## The concrete scenarios referred to by the statements -/

/-- A rational-valued stand-in for `np.cos` / `np.sin`; never reached by
the runs below (none of them uses rankdir RADIAL). -/
def zeroF : Q → Q := fun _ => 0

/-- The words of the spec's concrete scenario. -/
def scenarioWords : List String := ["ab", "ac", "abcd", "abce"]

def scenarioTree : Tree := buildTree scenarioWords

/-- The scenario's layout shadow tree (`keep_root=False`, so the root is
anchored at level -1). -/
def scenarioLT : LayoutTree := buildLayoutTree scenarioTree (-1) 10

/-- The spec's concrete scenario:
`render_tree(build_tree({"ab","ac","abcd","abce"}), keep_root=False,
depth_limit=10, rankdir="TB")`, with nodes identified by their paths. -/
def scenarioRender : Extracted Path :=
  renderTree scenarioTree false 10 "TB" id 0 zeroF zeroF

/-- A trie whose two sibling subtrees are wide enough for apportionment to
push them further apart than unit spacing: `p` has the two children `a`
and `b`, each with three leaf children. -/
def wideWords : List String := ["paa", "pab", "pac", "pba", "pbb", "pbc"]

def wideTree : Tree := buildTree wideWords

/-- The wide trie rendered with the same configuration as the scenario. -/
def wideRender : Extracted Path :=
  renderTree wideTree false 10 "TB" id 0 zeroF zeroF

/-- The scenario trie rendered with `depth_limit=3, keep_root=True` (the
configuration of the library's own depth-limit unit test). -/
def shallowRender : Extracted Path :=
  renderTree scenarioTree true 3 "BT" id 0 zeroF zeroF

/-- A two-node tree extracted under the constant identifier function: the
root branch and its single leaf child collide on the identifier 0. -/
def collideRender : Extracted Nat :=
  renderTree (buildTree ["a"]) true 15 "BT" (fun _ => 0) 0 zeroF zeroF

/-- The scenario rendered with the unknown direction string `"XY"`. -/
def unknownDirRender : Extracted Path :=
  renderTree scenarioTree false 10 "XY" id 0 zeroF zeroF

/-- The scenario rendered with the raw direction `"BT"`. -/
def btRender : Extracted Path :=
  renderTree scenarioTree false 10 "BT" id 0 zeroF zeroF

/-- The wide trie's layout shadow tree. -/
def wideLT : LayoutTree := buildLayoutTree wideTree (-1) 10

/-! ## C4: sibling spacing — rational valuation, path geometry, invariants -/

/-- The rational number a fraction represents. -/
def Q.val (a : Q) : ℚ := (a.num : ℚ) / (a.den : ℚ)

/-- Positive denominator.  Every fraction the layout stores or sums has
one: the literals do, `+`, `-`, `*` multiply denominators, and the single
division (by the positive subtree count) renormalizes the sign. -/
def Q.pd (a : Q) : Prop := 0 < a.den

/-- `q` lies in the subtree rooted at `p`: addresses are innermost-first
child index lists, so the nodes of the subtree at `p` are exactly the
addresses carrying `p` as a suffix. -/
def inSub (p q : Path) : Prop := ∃ s : List Nat, q = s ++ p

/-- `q` lies in one of the first `j` child subtrees of the node at `p` —
the left forest that apportioning child `j` walks against. -/
def inForest (p : Path) (j : Nat) (q : Path) : Prop :=
  ∃ m, m < j ∧ inSub (m :: p) q

/-- All stored `x`, `mod`, `shift`, `change` fractions of the state have
positive denominators. -/
def stPD (st : St) : Prop :=
  ∀ p, (getX st p).pd ∧ (getMod st p).pd ∧ (getShift st p).pd ∧
    (getChange st p).pd

/-- Every `ancestor` field points at the node itself or at a node whose
subtree contains it (the shape of every assignment `_apportion` makes:
`vor.ancestor = v` with `vor` inside the subtree of `v`). -/
def ancSub (st : St) : Prop := ∀ q, getAnc st q = q ∨ inSub (getAnc st q) q

/-- Sum of the rational `change` values of children `m .. m+k-1` of the
node at `p`. -/
def chRun (st : St) (p : Path) (m k : Nat) : ℚ :=
  ((List.range' m k).map (fun i => (getChange st (i :: p)).val)).sum

/-- The displacement `_shift_tree` gives child `m` of the node at `p` when
children `m .. e-1` are still to be traversed (its right-to-left loop):
the sum over those children of their accumulated shift plus the running
change sum. -/
def shRun (st : St) (p : Path) (m e : Nat) : ℚ :=
  ((List.range' m (e - m)).map
    (fun i => (getShift st (i :: p)).val + chRun st p i (e - i))).sum

/-- Siblings anywhere inside the subtree at `p` sit at least their index
distance apart on the x axis — the spacing invariant of the layout. -/
def sibGaps (root : LayoutTree) (st : St) (p : Path) : Prop :=
  ∀ q, inSub p q → (getLT root q).isSome →
    ∀ i j : Nat, i < j → j < cnt root q →
      (getX st (i :: q)).val + (j - i : ℚ) ≤ (getX st (j :: q)).val

/-- Precondition of a `_first_walk` call on the subtree at `p`: the
subtree is untouched so far (no threads, no accumulated shift or change),
ancestors have their invariant shape, denominators are positive, and every
node of the tree has a record in the state. -/
structure FWPre (root : LayoutTree) (p : Path) (st : St) : Prop where
  pth : ∀ q, inSub p q → getThread st q = none
  pz : ∀ q, inSub p q → getShift st q = 0 ∧ getChange st q = 0
  panc : ancSub st
  ppd : stPD st
  pkeys : ∀ q, (getLT root q).isSome → hasPath st q

/-- Postcondition of a `_first_walk` call on the subtree at `p`, relating
the exit state `st2` to the entry state `st`: every touched field is
confined to the subtree, threads added join two strictly deeper subtree
nodes, the invariants persist, the subtree satisfies the spacing
invariant, and a node with a left sibling sits exactly `dx = 1` to its
right. -/
structure FWPost (root : LayoutTree) (p : Path) (st st2 : St) : Prop where
  fx : ∀ q, ¬ inSub p q → getX st2 q = getX st q
  fmod : ∀ q, ¬ inSub p q → getMod st2 q = getMod st q
  fshift : ∀ q, ¬ inSub p q ∨ q = p → getShift st2 q = getShift st q
  fchange : ∀ q, ¬ inSub p q ∨ q = p → getChange st2 q = getChange st q
  fth : ∀ q, ¬ inSub p q ∨ q = p → getThread st2 q = getThread st q
  fthNew : ∀ q t, getThread st2 q = some t → getThread st q = some t ∨
    (inSub p q ∧ q ≠ p ∧ inSub p t)
  fanc : ∀ q, ¬ inSub p q ∨ q = p → getAnc st2 q = getAnc st q
  fancSub : ancSub st2
  fpd : stPD st2
  fkeys : st2.map Prod.fst = st.map Prod.fst
  fy : ∀ q, getY st2 q = getY st q
  fgaps : sibGaps root st2 p
  fxv : ∀ w, leftSibP p = some w → (getX st2 p).val = (getX st w).val + 1

/-- State-side invariant of the `_apportion` contour loop for child `j` of
the node at `p`: threads are closed over the processed left forest and
over the subtree being apportioned, ancestors keep their invariant shape,
denominators stay positive, and the tree's nodes are present. -/
structure LSt (root : LayoutTree) (p : Path) (j : Nat) (st : St) : Prop where
  thF : ∀ q t, getThread st q = some t → inForest p j q → inForest p j t
  thV : ∀ q t, getThread st q = some t → inSub (j :: p) q → inSub (j :: p) t
  ancS : ancSub st
  pd : stPD st
  keysOK : ∀ q, (getLT root q).isSome → hasPath st q

/-- Effect of apportioning child `j` of the `n`-child node at `p`: `x` and
`shift` of the child move together by one common amount, the other fields
move only inside the child's subtree and the processed forest, and suffix
sums of the children's `change` values never increase. -/
structure APost (p : Path) (j n : Nat) (stA stB : St) : Prop where
  dxs : ∃ d : ℚ, (getX stB (j :: p)).val = (getX stA (j :: p)).val + d ∧
    (getShift stB (j :: p)).val = (getShift stA (j :: p)).val + d
  xf : ∀ q, q ≠ j :: p → getX stB q = getX stA q
  sf : ∀ q, q ≠ j :: p → getShift stB q = getShift stA q
  cf : ∀ q, (∀ m : Nat, m ≤ j → q ≠ m :: p) → getChange stB q = getChange stA q
  csum : ∀ m, chRun stB p m (n - m) ≤ chRun stA p m (n - m)
  mf : ∀ q, ¬ (inForest p j q ∨ inSub (j :: p) q) → getMod stB q = getMod stA q
  thKeep : ∀ q, ¬ (inForest p j q ∨ inSub (j :: p) q) →
    getThread stB q = getThread stA q
  thNew : ∀ q t, getThread stB q = some t → getThread stA q = some t ∨
    ((inForest p j q ∨ inSub (j :: p) q) ∧ (inForest p j t ∨ inSub (j :: p) t))
  af : ∀ q, ¬ inSub (j :: p) q → getAnc stB q = getAnc stA q
  yf : ∀ q, getY stB q = getY stA q
  keys : stB.map Prod.fst = stA.map Prod.fst

/-- Invariant of the `_apportion` contour loop state: the inner-left and
outer-left pointers stay in the processed forest, the inner-right and
outer-right pointers stay in the subtree of child `j`, the running
modifier sums have positive denominators, and the state invariant holds. -/
structure ALInv (root : LayoutTree) (p : Path) (j : Nat) (a : AS) : Prop where
  lst : LSt root p j a.st
  ivil : inForest p j a.vil
  ivol : inForest p j a.vol
  ivir : inSub (j :: p) a.vir
  ivor : inSub (j :: p) a.vor
  pdil : a.sil.pd
  pdir : a.sir.pd
  pdol : a.sol.pd
  pdor : a.sor.pd

/-- Invariant of the children loop of `_first_walk` at the node at `p`
(`n` children, first `j` processed): everything touched so far lies in the
processed forest, adjacent processed children sit at one unit plus the
accumulated shift, change suffix sums never increased, processed subtrees
satisfy the spacing invariant, threads are closed over the processed
forest, and the running default ancestor is a processed child (or the
first child). -/
structure FCInv (root : LayoutTree) (p : Path) (n j : Nat) (st stj : St)
    (dA : Path) : Prop where
  fx : ∀ q, ¬ inForest p j q → getX stj q = getX st q
  fmod : ∀ q, ¬ inForest p j q → getMod stj q = getMod st q
  fth : ∀ q, ¬ inForest p j q → getThread stj q = getThread st q
  fanc : ∀ q, ¬ inForest p j q → getAnc stj q = getAnc st q
  fshift : ∀ q, ¬ inForest p j q → getShift stj q = getShift st q
  fchange : ∀ q, ¬ inForest p j q → getChange stj q = getChange st q
  fy : ∀ q, getY stj q = getY st q
  g1 : ∀ k, k + 1 < j → (getX stj ((k + 1) :: p)).val =
    (getX stj (k :: p)).val + 1 + (getShift stj ((k + 1) :: p)).val
  cs0 : ∀ m, chRun stj p m (n - m) ≤ chRun st p m (n - m)
  gaps : ∀ k, k < j → sibGaps root stj (k :: p)
  thFj : ∀ q t, getThread stj q = some t → inForest p j q → inForest p j t
  ancS : ancSub stj
  pd : stPD stj
  keys : stj.map Prod.fst = st.map Prod.fst
  da : ∃ m : Nat, m < max j 1 ∧ dA = m :: p

/-- Effect of a `_second_walk` call on the subtree at `p`: the node moves
by the accumulated shift, nothing outside the subtree moves, modifiers and
shift bookkeeping are untouched, and differences between siblings anywhere
in the subtree are preserved exactly. -/
structure SWPost (root : LayoutTree) (p : Path) (shv : ℚ) (st st2 : St) :
    Prop where
  wx : ∀ q, ¬ inSub p q → getX st2 q = getX st q
  wroot : (getX st2 p).val = (getX st p).val + shv
  wmod : ∀ q, getMod st2 q = getMod st q
  wsc : ∀ q, getShift st2 q = getShift st q ∧ getChange st2 q = getChange st q
  wkeys : st2.map Prod.fst = st.map Prod.fst
  wpd : stPD st2
  wdiff : ∀ t, inSub p t → (getLT root t).isSome →
    ∀ i i2 : Nat, i < cnt root t → i2 < cnt root t →
      (getX st2 (i2 :: t)).val - (getX st2 (i :: t)).val =
      (getX st (i2 :: t)).val - (getX st (i :: t)).val

/-- The body of the `extract_tree_layout` per-node fold, named so the BFS
loop lemmas below can state facts about partial folds. -/
def pStep {α : Type} [DecidableEq α] (key : Path → α) (st : St)
    (acc : Extracted α × List (Path × LayoutTree)) (e : Path × LayoutTree) :
    Extracted α × List (Path × LayoutTree) :=
  let curr := key e.1
  let E0 := acc.1
  let E1 :=
    if e.2.srcLeaf then { E0 with leaves := dinsert E0.leaves curr e.2.value }
    else { E0 with branches := dinsert E0.branches curr e.2.value }
  let E2 :=
    { E1 with positions := dinsert E1.positions curr (getX st e.1, getY st e.1) }
  let kids := childEntries e
  let E3 := { E2 with edges := E2.edges ++ kids.map (fun k => (curr, key k.1)) }
  (E3, acc.2 ++ kids)

/-- The coordinate of a transformed position along the layout axis (the
axis siblings are spread on): the first coordinate for the vertical
directions, the (negated) second one for the horizontal directions. -/
def axisCoord (rankdir : String) (pos : Q × Q) : Q :=
  if rankdir = "LR" ∨ rankdir = "RL" then -pos.2 else pos.1

/-- The root level `render_tree` passes to `LayoutTree.__init__`. -/
def rawRootLevel (keepRoot : Bool) : Int := if keepRoot then 0 else -1

/-- The pruned layout tree `render_tree` builds. -/
def rawLT (tree : Tree) (keepRoot : Bool) (depthLimit : Int) : LayoutTree :=
  buildLayoutTree tree (rawRootLevel keepRoot) depthLimit

/-- The per-node layout state after the Buchheim walks inside
`render_tree`. -/
def rawSt (tree : Tree) (keepRoot : Bool) (depthLimit : Int) : St :=
  (buchheim (limitFuel depthLimit) (rawLT tree keepRoot depthLimit)
    (initSt (limitFuel depthLimit) (rawLT tree keepRoot depthLimit)
      (rawRootLevel keepRoot))).1

/-- The roots `render_tree` hands to extraction. -/
def rawRoots (tree : Tree) (keepRoot : Bool) (depthLimit : Int) :
    List (Path × LayoutTree) :=
  if keepRoot then [([], rawLT tree keepRoot depthLimit)]
  else childEntries ([], rawLT tree keepRoot depthLimit)

/-- The extracted graph of `render_tree` before the axis transform, with
the node paths themselves as identifiers. -/
def rawExtract (tree : Tree) (keepRoot : Bool) (depthLimit : Int) :
    Extracted Path :=
  extractTreeLayout (fun q => q) (rawSt tree keepRoot depthLimit)
    (limitFuel depthLimit) (rawRoots tree keepRoot depthLimit)

/-! # Theorems

Nodes are identified by their paths (child index lists, innermost first):
the shared prefix node `a` of the scenario is `[0]`, its children `b` and
`c` are `[0, 0]` and `[1, 0]`, the deeper `c` is `[0, 0, 0]`, and `d`, `e`
are `[0, 0, 0, 0]` and `[1, 0, 0, 0]`. -/

set_option maxRecDepth 100000 in
/-- C1 (amended): rendering the trie of {"ab","ac","abcd","abce"} with
`depth_limit=10, keep_root=False, rankdir=TB` places `a` at (1, 0), its
children `b` at (1/2, -1) and `c` at (3/2, -1), the deeper `c` at
(1/2, -2), `d` at (0, -3) and `e` at (1, -3); and within this rendering
the two children of every 2-child branch sit symmetrically around the
parent's x at offset exactly ±1/2.  (The original claim extended the ±1/2
offset to every tree; the counterexample below refutes that
generalization.) -/
theorem scenario_layout_positions :
    optEq2 (lookupPos scenarioRender [0]) (some (1, 0)) ∧
    optEq2 (lookupPos scenarioRender [0, 0]) (some (1 / 2, -1)) ∧
    optEq2 (lookupPos scenarioRender [1, 0]) (some (3 / 2, -1)) ∧
    optEq2 (lookupPos scenarioRender [0, 0, 0]) (some (1 / 2, -2)) ∧
    optEq2 (lookupPos scenarioRender [0, 0, 0, 0]) (some (0, -3)) ∧
    optEq2 (lookupPos scenarioRender [1, 0, 0, 0]) (some (1, -3)) ∧
    (∀ p ∈ allPathsF (limitFuel 10) scenarioLT [], cnt scenarioLT p = 2 →
      Q.eq (posX scenarioRender (0 :: p)) (posX scenarioRender p - 1 / 2) ∧
      Q.eq (posX scenarioRender (1 :: p)) (posX scenarioRender p + 1 / 2)) := by
  decide

set_option maxRecDepth 100000 in
/-- C1 (counterexample to the general ±1/2 offset): in the trie of
{"paa","pab","pac","pba","pbb","pbc"}, rendered with the very same
configuration, the node `p = [0]` is a 2-child branch at x = 5/2 whose
first child sits at x = 1 — an offset of 3/2, not 1/2 (apportionment had
to push the two wide sibling subtrees further apart). -/
theorem wide_trie_two_child_offset_not_half :
    cnt wideLT [0] = 2 ∧
    optEq2 (lookupPos wideRender [0]) (some (5 / 2, 0)) ∧
    optEq2 (lookupPos wideRender [0, 0]) (some (1, -1)) ∧
    ¬ Q.eq (posX wideRender [0, 0]) (posX wideRender [0] - 1 / 2) := by
  decide

/-- C5 (amended): the axis transform maps every raw `(x, y)` to `(x, -y)`
for TB, to `(x, y)` for BT (the `if/elif` chain touches neither), to
`(y, -x)` for LR — not `(-y, x)` as the spec writes — and to `(-y, -x)`
for RL. -/
theorem transformAxes_formulas {α : Type} (piQ : Q) (cosQ sinQ : Q → Q)
    (pos : List (α × (Q × Q))) :
    transformAxes piQ cosQ sinQ "TB" pos =
      pos.map (fun e => (e.1, e.2.1, -e.2.2)) ∧
    transformAxes piQ cosQ sinQ "BT" pos = pos ∧
    transformAxes piQ cosQ sinQ "LR" pos =
      pos.map (fun e => (e.1, e.2.2, -e.2.1)) ∧
    transformAxes piQ cosQ sinQ "RL" pos =
      pos.map (fun e => (e.1, -e.2.2, -e.2.1)) := by
  refine ⟨rfl, ?_, rfl, rfl⟩
  rfl

/-- C5 (counterexample): at the raw point `(1/2, 1)` the LR transform
returns `(1, -1/2)`, not the `(-y, x) = (-1, 1/2)` the spec's formula
would give. -/
theorem transformAxes_lr_not_neg_y_x :
    transformAxes 0 zeroF zeroF "LR" [((0 : Nat), ((1 / 2 : Q), (1 : Q)))] =
      [((0 : Nat), ((1 : Q), -(1 / 2 : Q)))] ∧
    ¬ Q.eq2 ((1 : Q), -(1 / 2 : Q)) ((-1 : Q), (1 / 2 : Q)) := by
  decide

end DictGraph

namespace DictGraph

set_option maxRecDepth 100000 in
/-- C6 (counterexample): with `depth_limit = 3` and `keep_root = True` the
node `b = [0, 0]` sits at level `0 + 2 = 2 = depth_limit - 1` and still
appears in the output — layout nodes are built for every level up to and
including `depth_limit - 1`; only strictly deeper nodes are pruned. -/
theorem depth_limit_minus_one_level_is_emitted :
    [0, 0] ∈ shallowRender.positions.map Prod.fst ∧
    ((0 : Int) + ([0, 0] : Path).length = 3 - 1) := by
  decide

/-- C6 (amended): starting from any level `≤ depth_limit - 1` (the library
starts at 0, or -1 without the root), every node of the built layout tree
has level at most `depth_limit - 1` — so nodes at level ≥ `depth_limit`
never appear — and a node at level `depth_limit - 1`, whose true children
were pruned, has no layout children, i.e. is a leaf for layout purposes. -/
theorem buildLayoutTree_level_bound :
    ∀ (fuel : Nat) (t : Tree) (level lim : Int), level ≤ lim - 1 →
      ∀ e ∈ nodesAtF fuel (buildLayoutTreeF fuel t level lim) level,
        e.1 ≤ lim - 1 ∧ (lim - 1 ≤ e.1 → e.2.children = []) := by
  intro fuel
  induction fuel with
  | zero => intro t level lim _ e he; simp [nodesAtF] at he
  | succ fuel ih =>
      intro t level lim hle e he
      simp only [buildLayoutTreeF, nodesAtF, List.mem_cons] at he
      rcases he with he | he
      · subst he
        refine ⟨hle, fun hge => ?_⟩
        have : ¬ level < lim - 1 := by omega
        simp [LayoutTree.children, this]
      · rw [List.mem_flatten] at he
        obtain ⟨l, hl, hel⟩ := he
        rw [List.mem_map] at hl
        obtain ⟨c, hc, rfl⟩ := hl
        by_cases hlt : level < lim - 1
        · simp only [if_pos hlt, List.mem_map] at hc
          obtain ⟨c0, _, rfl⟩ := hc
          exact ih c0 (level + 1) lim (by omega) e hel
        · simp [if_neg hlt] at hc

/-- Closed instance of `buildLayoutTree_level_bound` at the scenario trie
with `depth_limit = 3`, root level 0 (fuel 6). -/
theorem buildLayoutTree_level_bound_witness :
    (0 : Int) ≤ 3 - 1 ∧
    ∀ e ∈ nodesAtF 6 (buildLayoutTreeF 6 scenarioTree 0 3) 0,
      e.1 ≤ 3 - 1 ∧ (3 - 1 ≤ e.1 → e.2.children = []) :=
  ⟨by decide, buildLayoutTree_level_bound 6 scenarioTree 0 3 (by decide)⟩

set_option maxRecDepth 100000 in
/-- C8 (counterexample): under the constant identifier function the
two-node tree of the word "a" (a branch root and its leaf child — two
distinct live nodes) extracts to a result with the single key 0: the
collision is not detected and no error interrupts the extraction; the two
nodes are silently merged. -/
theorem id_collision_merges_silently :
    (allPathsF (limitFuel 15) (buildLayoutTree (buildTree ["a"]) 0 15) []).length = 2 ∧
    collideRender.positions.map Prod.fst = [0] := by
  decide

set_option maxRecDepth 100000 in
/-- C8 (amended): on an identifier collision the extraction returns
normally and merges the colliding nodes under the one key: each map keeps
one entry per key, the later write overwriting the earlier value in place
(the merged position is the leaf child's `(0, 1)`, not the root's
`(0, 0)`), and the collided key appears on both endpoints of the edge. -/
theorem id_collision_last_write_wins :
    collideRender.branches = [(0, "")] ∧
    collideRender.leaves = [(0, "a")] ∧
    collideRender.edges = [(0, 0)] ∧
    collideRender.positions.map Prod.fst = [0] ∧
    optEq2 (lookupPos collideRender 0) (some (0, 1)) ∧
    ¬ optEq2 (lookupPos collideRender 0) (some (0, 0)) := by
  decide

set_option maxRecDepth 100000 in
/-- C9 (counterexample): rendering with the out-of-set direction `"XY"`
does not fail — it returns exactly the result of the raw `"BT"` rendering
(the `if/elif` chain of `_transform_axes` silently falls through), with
all six scenario nodes present. -/
theorem unknown_rankdir_returns_bt_result :
    unknownDirRender = btRender ∧
    unknownDirRender.positions.map Prod.fst =
      [[0], [0, 0], [1, 0], [0, 0, 0], [0, 0, 0, 0], [1, 0, 0, 0]] := by
  exact ⟨rfl, by decide⟩

/-- C9 (amended): for every rankdir outside {TB, BT, LR, RL, RADIAL} the
render operation raises no error and returns the same result as the raw
bottom-to-top layout `BT`: the unknown direction falls through the axis
transform unchanged. -/
theorem renderTree_unknown_rankdir_is_bt {α : Type} [DecidableEq α]
    (tree : Tree) (keepRoot : Bool) (depthLimit : Int) (key : Path → α)
    (piQ : Q) (cosQ sinQ : Q → Q) (rd : String) (h1 : rd ≠ "TB")
    (h2 : rd ≠ "BT") (h3 : rd ≠ "LR") (h4 : rd ≠ "RL")
    (h5 : rd ≠ "RADIAL") :
    renderTree tree keepRoot depthLimit rd key piQ cosQ sinQ =
      renderTree tree keepRoot depthLimit "BT" key piQ cosQ sinQ := by
  unfold renderTree
  simp [transformAxes, h1, h2, h3, h4, h5]

/-- Closed instance of `renderTree_unknown_rankdir_is_bt` at the scenario
input and the direction `"XY"`. -/
theorem renderTree_unknown_rankdir_is_bt_witness :
    renderTree scenarioTree false 10 "XY" id 0 zeroF zeroF =
      renderTree scenarioTree false 10 "BT" id 0 zeroF zeroF :=
  renderTree_unknown_rankdir_is_bt scenarioTree false 10 id 0 zeroF zeroF
    "XY" (by decide) (by decide) (by decide) (by decide) (by decide)

end DictGraph

namespace DictGraph

/-! ### State lemmas -/

theorem fst_setNV_entry (p : Path) (f : NV → NV) (e : Path × NV) :
    (if e.1 = p then (e.1, f e.2) else e).1 = e.1 := by
  split <;> rfl

theorem find?_setNV (st : St) (p q : Path) (f : NV → NV) :
    (setNV st p f).find? (fun e => decide (e.1 = q)) =
      (st.find? (fun e => decide (e.1 = q))).map
        (fun e => if e.1 = p then (e.1, f e.2) else e) := by
  rw [setNV, List.find?_map]
  have hpred : ((fun e => decide (e.1 = q)) ∘
      fun (e : Path × NV) => if e.1 = p then (e.1, f e.2) else e) =
      (fun e => decide (e.1 = q)) := by
    funext e
    simp [Function.comp, fst_setNV_entry]
  rw [hpred]

theorem keys_setNV (st : St) (p : Path) (f : NV → NV) :
    (setNV st p f).map Prod.fst = st.map Prod.fst := by
  rw [setNV, List.map_map]
  exact List.map_congr_left (fun e _ => fst_setNV_entry p f e)

theorem hasPath_setNV (st : St) (p q : Path) (f : NV → NV) :
    hasPath (setNV st p f) q ↔ hasPath st q := by
  unfold hasPath
  rw [keys_setNV]

theorem getNV_setNV_ne (st : St) (p q : Path) (f : NV → NV) (h : q ≠ p) :
    getNV (setNV st p f) q = getNV st q := by
  unfold getNV
  rw [find?_setNV]
  cases hf : st.find? (fun e => decide (e.1 = q)) with
  | none => rfl
  | some e =>
      have he : e.1 = q := by
        have := List.find?_some hf
        simpa using this
      show (if e.1 = p then (e.1, f e.2) else e).2 = e.2
      have hne : e.1 ≠ p := by rw [he]; exact h
      rw [if_neg hne]

theorem getNV_setNV_self (st : St) (p : Path) (f : NV → NV)
    (hp : hasPath st p) :
    getNV (setNV st p f) p = f (getNV st p) := by
  unfold getNV
  rw [find?_setNV]
  cases hf : st.find? (fun e => decide (e.1 = p)) with
  | none =>
      exfalso
      unfold hasPath at hp
      rw [List.mem_map] at hp
      obtain ⟨e, he, hfst⟩ := hp
      have := List.find?_eq_none.mp hf e he
      simp [hfst] at this
  | some e =>
      have he : e.1 = p := by
        have := List.find?_some hf
        simpa using this
      simp [he]

end DictGraph

namespace DictGraph

/-! ### Key preservation: every walk only updates existing per-node
records, never adds or removes one. -/

theorem keys_shiftSubtrees (wl wr : Path) (a : Q) (st : St) :
    (shiftSubtrees wl wr a st).map Prod.fst = st.map Prod.fst := by
  unfold shiftSubtrees incShift incChange incX incMod
  simp only [keys_setNV]

theorem keys_shiftTreeStep (acc : St × Q × Q) (w : Path) :
    ((shiftTreeStep acc w).1).map Prod.fst = acc.1.map Prod.fst := by
  unfold shiftTreeStep incMod incX
  simp only [keys_setNV]

theorem keys_foldl_shiftTreeStep :
    ∀ (l : List Path) (acc : St × Q × Q),
      ((l.foldl shiftTreeStep acc).1).map Prod.fst = acc.1.map Prod.fst := by
  intro l
  induction l with
  | nil => intro acc; rfl
  | cons w l ih =>
      intro acc
      rw [List.foldl_cons, ih, keys_shiftTreeStep]

theorem keys_shiftTree (ws : List Path) (st : St) :
    (shiftTree ws st).map Prod.fst = st.map Prod.fst := by
  unfold shiftTree
  exact keys_foldl_shiftTreeStep ws.reverse (st, 0, 0)

theorem keys_apportionLoop (root : LayoutTree) (dx : Q) (v dA : Path) :
    ∀ (fuel : Nat) (a : AS),
      ((apportionLoop root dx v dA fuel a).st).map Prod.fst =
        a.st.map Prod.fst := by
  intro fuel
  induction fuel with
  | zero => intro a; rfl
  | succ fuel ih =>
      intro a
      unfold apportionLoop
      split
      · split
        · rw [ih]
          dsimp only
          split
          · rw [keys_shiftSubtrees]
            unfold setAnc
            simp only [keys_setNV]
          · unfold setAnc
            simp only [keys_setNV]
        · rfl
      · rfl

theorem keys_apportion (fuel : Nat) (root : LayoutTree) (dx : Q)
    (v dA : Path) (st : St) :
    ((apportion fuel root dx v dA st).1).map Prod.fst = st.map Prod.fst := by
  simp only [apportion]
  split
  · rfl
  · split
    · unfold incMod setThread
      simp only [keys_setNV, keys_apportionLoop]
    · split
      · unfold incMod setThread
        simp only [keys_setNV, keys_apportionLoop]
      · simp only [keys_apportionLoop]

theorem keys_fwChildren (fw : LayoutTree → Path → St → St)
    (hfw : ∀ l q s, (fw l q s).map Prod.fst = s.map Prod.fst) (fuel : Nat)
    (root : LayoutTree) (dx : Q) (cs : List LayoutTree) (p : Path)
    (st : St) :
    ((fwChildren fw fuel root dx cs p st).1).map Prod.fst =
      st.map Prod.fst := by
  unfold fwChildren
  suffices h : ∀ (l : List (Nat × LayoutTree)) (acc : St × Path),
      ((l.foldl (fun acc ic =>
          apportion fuel root dx (ic.1 :: p) acc.2 (fw ic.2 (ic.1 :: p) acc.1))
        acc).1).map Prod.fst = acc.1.map Prod.fst by
    exact h cs.enum (st, (0 : Nat) :: p)
  intro l
  induction l with
  | nil => intro acc; rfl
  | cons ic l ih =>
      intro acc
      rw [List.foldl_cons, ih]
      rw [keys_apportion, hfw]

theorem keys_firstWalkF (root : LayoutTree) :
    ∀ (fuel : Nat) (dx : Q) (lt : LayoutTree) (p : Path) (st : St),
      (firstWalkF root fuel dx lt p st).map Prod.fst = st.map Prod.fst := by
  intro fuel
  induction fuel with
  | zero => intro dx lt p st; rfl
  | succ fuel ih =>
      intro dx lt p st
      unfold firstWalkF
      split
      · split
        · unfold setX; simp only [keys_setNV]
        · unfold setX; simp only [keys_setNV]
      · split
        · unfold setX
          simp only [keys_setNV, keys_shiftTree]
          exact keys_fwChildren _ (fun l q s => ih 1 l q s) fuel root dx _ p st
        · unfold setMod setX
          simp only [keys_setNV, keys_shiftTree]
          exact keys_fwChildren _ (fun l q s => ih 1 l q s) fuel root dx _ p st

end DictGraph

namespace DictGraph

theorem getX_setX_self (st : St) (p : Path) (v : Q) (hp : hasPath st p) :
    getX (setX st p v) p = v := by
  unfold getX setX
  rw [getNV_setNV_self _ _ _ hp]

theorem getX_setMod_self (st : St) (p : Path) (m : Q) (hp : hasPath st p) :
    getX (setMod st p m) p = getX st p := by
  unfold getX setMod
  rw [getNV_setNV_self _ _ _ hp]

theorem getMod_setMod_self (st : St) (p : Path) (m : Q) (hp : hasPath st p) :
    getMod (setMod st p m) p = m := by
  unfold getMod setMod
  rw [getNV_setNV_self _ _ _ hp]

theorem hasPath_setX (st : St) (p q : Path) (v : Q) :
    hasPath (setX st p v) q ↔ hasPath st q := by
  unfold setX
  exact hasPath_setNV st p q _

/-- C2: the case analysis of the first pass.  For every node and every
invocation of `_first_walk` on any state: a layout leaf that is a leftmost
child (or has no parent) gets preliminary `x = 0`, a leaf with a left
sibling gets `x = left_sibling.x + dx`; an internal node — after its
children have been walked, apportioned and shift-aggregated, yielding the
intermediate state `st2` — gets `x` equal to the midpoint of its first and
last child's `x`, unless it has a left sibling, in which case
`x = left_sibling.x + dx` and `mod` is set to `x` minus that midpoint. -/
theorem first_walk_cases (root : LayoutTree) (fuel : Nat) (dx : Q)
    (lt : LayoutTree) (p : Path) (st : St) (hp : hasPath st p) :
    (lt.children = [] →
      (leftSibP p = none →
        getX (firstWalkF root (fuel + 1) dx lt p st) p = 0) ∧
      (∀ w, leftSibP p = some w →
        getX (firstWalkF root (fuel + 1) dx lt p st) p = getX st w + dx)) ∧
    (∀ c cs, lt.children = c :: cs →
      ∀ st2, st2 = shiftTree ((List.range (c :: cs).length).map (· :: p))
          (fwChildren (fun l q s => firstWalkF root fuel 1 l q s) fuel root dx
            (c :: cs) p st).1 →
        ∀ mid, mid = (getX st2 (0 :: p) +
            getX st2 (((c :: cs).length - 1) :: p)) * (1 / 2) →
          (leftSibP p = none →
            getX (firstWalkF root (fuel + 1) dx lt p st) p = mid) ∧
          (∀ w, leftSibP p = some w →
            getX (firstWalkF root (fuel + 1) dx lt p st) p = getX st2 w + dx ∧
            getMod (firstWalkF root (fuel + 1) dx lt p st) p =
              getX st2 w + dx - mid)) := by
  obtain ⟨v, lf, cs0⟩ := lt
  cases cs0 with
  | nil =>
      constructor
      · intro _
        constructor
        · intro hnone
          simp only [firstWalkF, LayoutTree.children, hnone]
          exact getX_setX_self st p 0 hp
        · intro w hw
          simp only [firstWalkF, LayoutTree.children, hw]
          exact getX_setX_self st p _ hp
      · intro c cs h
        simp [LayoutTree.children] at h
  | cons c0 cs0 =>
      constructor
      · intro h
        simp [LayoutTree.children] at h
      · intro c cs hcc st2 hst2 mid hmid
        have hc : c0 = c ∧ cs0 = cs := by
          simpa [LayoutTree.children] using hcc
        obtain ⟨rfl, rfl⟩ := hc
        have hp2 : hasPath st2 p := by
          subst hst2
          unfold hasPath
          rw [keys_shiftTree,
            keys_fwChildren _ (fun l q s => keys_firstWalkF root fuel 1 l q s)]
          exact hp
        subst hst2 hmid
        constructor
        · intro hnone
          simp only [firstWalkF, LayoutTree.children, hnone]
          exact getX_setX_self _ p _ hp2
        · intro w hw
          simp only [firstWalkF, LayoutTree.children, hw]
          have hp3 : hasPath (setX
              (shiftTree ((List.range (c0 :: cs0).length).map (· :: p))
                (fwChildren (fun l q s => firstWalkF root fuel 1 l q s) fuel
                  root dx (c0 :: cs0) p st).1) p
              (getX (shiftTree ((List.range (c0 :: cs0).length).map (· :: p))
                (fwChildren (fun l q s => firstWalkF root fuel 1 l q s) fuel
                  root dx (c0 :: cs0) p st).1) w + dx)) p :=
            (hasPath_setX _ p p _).mpr hp2
          constructor
          · rw [getX_setMod_self _ p _ hp3, getX_setX_self _ p _ hp2]
          · rw [getMod_setMod_self _ p _ hp3]

end DictGraph

namespace DictGraph

/-- Closed instance of `first_walk_cases`: a leaf at path `[1]` whose left
sibling `[0]` sits at `x = 5` is placed at `x = 5 + 1`. -/
theorem first_walk_cases_witness :
    hasPath [([0], (⟨5, 0, 0, 0, 0, none, []⟩ : NV)), ([1], (default : NV))]
      [1] ∧
    getX (firstWalkF (.mk "" false []) 1 1 (.mk "a" true []) [1]
        [([0], (⟨5, 0, 0, 0, 0, none, []⟩ : NV)), ([1], (default : NV))]) [1] =
      getX [([0], (⟨5, 0, 0, 0, 0, none, []⟩ : NV)), ([1], (default : NV))]
        [0] + 1 :=
  ⟨by decide,
    ((first_walk_cases (.mk "" false []) 0 1 (.mk "a" true []) [1]
        [([0], (⟨5, 0, 0, 0, 0, none, []⟩ : NV)), ([1], (default : NV))]
        (by decide)).1 rfl).2 [0] rfl⟩

/-- `shiftAggSpecGo` peels exactly the last element. -/
theorem shiftAggSpecGo_concat (l : List Path) (a : Path) (st : St)
    (sh ch : Q) :
    shiftAggSpecGo (l ++ [a]) st sh ch =
      shiftAggSpecGo l ((shiftTreeStep (st, sh, ch) a).1)
        ((shiftTreeStep (st, sh, ch) a).2.1)
        ((shiftTreeStep (st, sh, ch) a).2.2) := by
  cases l with
  | nil => simp [shiftAggSpecGo, shiftTreeStep]
  | cons x l =>
      have hul : (x :: l) ++ [a] = x :: (l ++ [a]) := rfl
      rw [hul, shiftAggSpecGo]
      have hlast : (x :: (l ++ [a])).getLast (List.cons_ne_nil _ _) = a := by
        simp
      have hdrop : (x :: (l ++ [a])).dropLast = x :: l := by
        rw [show x :: (l ++ [a]) = (x :: l) ++ [a] from rfl,
          List.dropLast_concat]
      rw [hlast, hdrop]
      rfl

/-- The right-to-left fold of the source equals the spec-worded recursion
for every starting pair of accumulators. -/
theorem shiftTree_foldl_eq_spec :
    ∀ (l : List Path) (st : St) (sh ch : Q),
      (l.reverse.foldl shiftTreeStep (st, sh, ch)).1 =
        shiftAggSpecGo l st sh ch := by
  intro l
  induction l using List.reverseRecOn with
  | nil => intro st sh ch; simp [shiftAggSpecGo]
  | append_singleton l a ih =>
      intro st sh ch
      rw [List.reverse_append, List.reverse_singleton, List.singleton_append,
        List.foldl_cons, shiftAggSpecGo_concat]
      exact ih _ _ _

/-- C3: shift aggregation, as implemented (`_shift_tree` folds over
`root.children[::-1]`), coincides with the spec's description: the
children are processed exactly once from rightmost to leftmost with
running accumulators `shift` and `change` both starting at 0; each child's
`x` and `mod` are incremented by the current running shift, then `change`
is incremented by that child's own change, and `shift` is incremented by
that child's own shift plus the updated change. -/
theorem shift_tree_is_spec_aggregation (ws : List Path) (st : St) :
    shiftTree ws st = shiftAggSpec ws st := by
  unfold shiftTree shiftAggSpec
  exact shiftTree_foldl_eq_spec ws st 0 0

end DictGraph

namespace DictGraph

/-! ### Extraction lemmas -/

theorem keys_dinsert_mem {α β : Type} [DecidableEq α] (m : List (α × β))
    (k' : α) (v : β) (k : α) :
    k ∈ (dinsert m k' v).map Prod.fst ↔ k = k' ∨ k ∈ m.map Prod.fst := by
  unfold dinsert
  split
  · rename_i hany
    have hkeys : (m.map (fun e => if e.1 = k' then (k', v) else e)).map
        Prod.fst = m.map Prod.fst := by
      rw [List.map_map]
      refine List.map_congr_left (fun e _ => ?_)
      by_cases he : e.1 = k'
      · simp [he]
      · simp [he]
    rw [hkeys]
    have hk' : k' ∈ m.map Prod.fst := by
      rw [List.any_eq_true] at hany
      obtain ⟨e, he, hek⟩ := hany
      rw [decide_eq_true_eq] at hek
      exact hek ▸ List.mem_map_of_mem Prod.fst he
    constructor
    · exact Or.inr
    · rintro (rfl | h)
      · exact hk'
      · exact h
  · simp [or_comm]

theorem dinsert_fresh {α β : Type} [DecidableEq α] (m : List (α × β))
    (k : α) (v : β) (hk : k ∉ m.map Prod.fst) :
    dinsert m k v = m ++ [(k, v)] := by
  unfold dinsert
  rw [if_neg]
  intro hany
  rw [List.any_eq_true] at hany
  obtain ⟨e, he, hek⟩ := hany
  rw [decide_eq_true_eq] at hek
  exact hk (hek ▸ List.mem_map_of_mem Prod.fst he)

theorem processLevel_fst_leaves_mem {α : Type} [DecidableEq α]
    (key : Path → α) (st : St) (k : α) :
    ∀ (q : List (Path × LayoutTree)) (acc : Extracted α × List (Path × LayoutTree)),
      k ∈ ((q.foldl (fun acc e =>
          let curr := key e.1
          let E0 := acc.1
          let E1 := if e.2.srcLeaf then
              { E0 with leaves := dinsert E0.leaves curr e.2.value }
            else { E0 with branches := dinsert E0.branches curr e.2.value }
          let E2 := { E1 with
            positions := dinsert E1.positions curr (getX st e.1, getY st e.1) }
          let kids := childEntries e
          let E3 := { E2 with
            edges := E2.edges ++ kids.map (fun kp => (curr, key kp.1)) }
          (E3, acc.2 ++ kids)) acc).1).leaves.map Prod.fst ↔
        k ∈ acc.1.leaves.map Prod.fst ∨
          ∃ e, e ∈ q ∧ e.2.srcLeaf = true ∧ key e.1 = k := by
  intro q
  induction q with
  | nil => intro acc; simp
  | cons e q ih =>
      intro acc
      rw [List.foldl_cons, ih]
      by_cases hleaf : e.2.srcLeaf
      · simp only [hleaf, if_pos, keys_dinsert_mem, List.mem_cons]
        constructor
        · rintro ((rfl | h) | h)
          · exact Or.inr ⟨e, Or.inl rfl, hleaf, rfl⟩
          · exact Or.inl h
          · obtain ⟨e', he', hl', hk'⟩ := h
            exact Or.inr ⟨e', Or.inr he', hl', hk'⟩
        · rintro (h | ⟨e', (rfl | he'), hl', hk'⟩)
          · exact Or.inl (Or.inr h)
          · exact Or.inl (Or.inl hk'.symm)
          · exact Or.inr ⟨e', he', hl', hk'⟩
      · simp only [hleaf, if_neg, Bool.false_eq_true, List.mem_cons]
        constructor
        · rintro (h | h)
          · exact Or.inl h
          · obtain ⟨e', he', hl', hk'⟩ := h
            exact Or.inr ⟨e', Or.inr he', hl', hk'⟩
        · rintro (h | ⟨e', (rfl | he'), hl', hk'⟩)
          · exact Or.inl h
          · exact absurd hl' (by simpa using hleaf)
          · exact Or.inr ⟨e', he', hl', hk'⟩

end DictGraph

namespace DictGraph

theorem processLevel_fst_branches_mem {α : Type} [DecidableEq α]
    (key : Path → α) (st : St) (k : α) :
    ∀ (q : List (Path × LayoutTree)) (acc : Extracted α × List (Path × LayoutTree)),
      k ∈ ((q.foldl (fun acc e =>
          let curr := key e.1
          let E0 := acc.1
          let E1 := if e.2.srcLeaf then
              { E0 with leaves := dinsert E0.leaves curr e.2.value }
            else { E0 with branches := dinsert E0.branches curr e.2.value }
          let E2 := { E1 with
            positions := dinsert E1.positions curr (getX st e.1, getY st e.1) }
          let kids := childEntries e
          let E3 := { E2 with
            edges := E2.edges ++ kids.map (fun kp => (curr, key kp.1)) }
          (E3, acc.2 ++ kids)) acc).1).branches.map Prod.fst ↔
        k ∈ acc.1.branches.map Prod.fst ∨
          ∃ e, e ∈ q ∧ e.2.srcLeaf = false ∧ key e.1 = k := by
  intro q
  induction q with
  | nil => intro acc; simp
  | cons e q ih =>
      intro acc
      rw [List.foldl_cons, ih]
      by_cases hleaf : e.2.srcLeaf
      · simp only [hleaf, if_pos, List.mem_cons]
        constructor
        · rintro (h | h)
          · exact Or.inl h
          · obtain ⟨e', he', hl', hk'⟩ := h
            exact Or.inr ⟨e', Or.inr he', hl', hk'⟩
        · rintro (h | ⟨e', (rfl | he'), hl', hk'⟩)
          · exact Or.inl h
          · exact absurd hleaf (by simp [hl'])
          · exact Or.inr ⟨e', he', hl', hk'⟩
      · simp only [hleaf, if_neg, Bool.false_eq_true, if_false,
          keys_dinsert_mem, List.mem_cons]
        constructor
        · rintro ((rfl | h) | h)
          · exact Or.inr ⟨e, Or.inl rfl, by simpa using hleaf, rfl⟩
          · exact Or.inl h
          · obtain ⟨e', he', hl', hk'⟩ := h
            exact Or.inr ⟨e', Or.inr he', hl', hk'⟩
        · rintro (h | ⟨e', (rfl | he'), hl', hk'⟩)
          · exact Or.inl (Or.inr h)
          · exact Or.inl (Or.inl hk'.symm)
          · exact Or.inr ⟨e', he', hl', hk'⟩

theorem processLevel_snd {α : Type} [DecidableEq α] (key : Path → α)
    (st : St) :
    ∀ (q : List (Path × LayoutTree)) (E : Extracted α)
      (l : List (Path × LayoutTree)),
      (q.foldl (fun acc e =>
          let curr := key e.1
          let E0 := acc.1
          let E1 := if e.2.srcLeaf then
              { E0 with leaves := dinsert E0.leaves curr e.2.value }
            else { E0 with branches := dinsert E0.branches curr e.2.value }
          let E2 := { E1 with
            positions := dinsert E1.positions curr (getX st e.1, getY st e.1) }
          let kids := childEntries e
          let E3 := { E2 with
            edges := E2.edges ++ kids.map (fun kp => (curr, key kp.1)) }
          (E3, acc.2 ++ kids)) (E, l)).2 =
        l ++ (q.map childEntries).flatten := by
  intro q
  induction q with
  | nil => intro E l; simp
  | cons e q ih =>
      intro E l
      rw [List.foldl_cons]
      dsimp only
      rw [ih, List.map_cons, List.flatten_cons, List.append_assoc]

end DictGraph

namespace DictGraph

theorem extractGo_leaves_mem {α : Type} [DecidableEq α] (key : Path → α)
    (st : St) (k : α) :
    ∀ (fuel : Nat) (q : List (Path × LayoutTree)) (E : Extracted α),
      k ∈ (extractGo key st fuel q E).leaves.map Prod.fst ↔
        k ∈ E.leaves.map Prod.fst ∨
          ∃ e, e ∈ bfsOrderF fuel q ∧ e.2.srcLeaf = true ∧ key e.1 = k := by
  intro fuel
  induction fuel with
  | zero => intro q E; simp [extractGo, bfsOrderF]
  | succ fuel ih =>
      intro q E
      cases q with
      | nil => simp [extractGo, bfsOrderF]
      | cons e q' =>
          show k ∈ (extractGo key st fuel (processLevel key st (e :: q') E).2
              (processLevel key st (e :: q') E).1).leaves.map Prod.fst ↔ _
          rw [ih]
          unfold processLevel
          rw [processLevel_fst_leaves_mem key st k (e :: q') (E, []),
            processLevel_snd key st (e :: q') E []]
          show _ ↔ k ∈ E.leaves.map Prod.fst ∨
            ∃ x, x ∈ bfsOrderF (fuel + 1) (e :: q') ∧ _
          have hbfs : bfsOrderF (fuel + 1) (e :: q') =
              (e :: q') ++ bfsOrderF fuel (((e :: q').map childEntries).flatten) := by
            rfl
          rw [hbfs]
          simp only [List.nil_append, List.mem_append]
          constructor
          · rintro ((h | ⟨e', he', hl', hk'⟩) | h)
            · exact Or.inl h
            · exact Or.inr ⟨e', Or.inl he', hl', hk'⟩
            · obtain ⟨e', he', hl', hk'⟩ := h
              exact Or.inr ⟨e', Or.inr he', hl', hk'⟩
          · rintro (h | ⟨e', (he' | he'), hl', hk'⟩)
            · exact Or.inl (Or.inl h)
            · exact Or.inl (Or.inr ⟨e', he', hl', hk'⟩)
            · exact Or.inr ⟨e', he', hl', hk'⟩

theorem extractGo_branches_mem {α : Type} [DecidableEq α] (key : Path → α)
    (st : St) (k : α) :
    ∀ (fuel : Nat) (q : List (Path × LayoutTree)) (E : Extracted α),
      k ∈ (extractGo key st fuel q E).branches.map Prod.fst ↔
        k ∈ E.branches.map Prod.fst ∨
          ∃ e, e ∈ bfsOrderF fuel q ∧ e.2.srcLeaf = false ∧ key e.1 = k := by
  intro fuel
  induction fuel with
  | zero => intro q E; simp [extractGo, bfsOrderF]
  | succ fuel ih =>
      intro q E
      cases q with
      | nil => simp [extractGo, bfsOrderF]
      | cons e q' =>
          show k ∈ (extractGo key st fuel (processLevel key st (e :: q') E).2
              (processLevel key st (e :: q') E).1).branches.map Prod.fst ↔ _
          rw [ih]
          unfold processLevel
          rw [processLevel_fst_branches_mem key st k (e :: q') (E, []),
            processLevel_snd key st (e :: q') E []]
          show _ ↔ k ∈ E.branches.map Prod.fst ∨
            ∃ x, x ∈ bfsOrderF (fuel + 1) (e :: q') ∧ _
          have hbfs : bfsOrderF (fuel + 1) (e :: q') =
              (e :: q') ++ bfsOrderF fuel (((e :: q').map childEntries).flatten) := by
            rfl
          rw [hbfs]
          simp only [List.nil_append, List.mem_append]
          constructor
          · rintro ((h | ⟨e', he', hl', hk'⟩) | h)
            · exact Or.inl h
            · exact Or.inr ⟨e', Or.inl he', hl', hk'⟩
            · obtain ⟨e', he', hl', hk'⟩ := h
              exact Or.inr ⟨e', Or.inr he', hl', hk'⟩
          · rintro (h | ⟨e', (he' | he'), hl', hk'⟩)
            · exact Or.inl (Or.inl h)
            · exact Or.inl (Or.inr ⟨e', he', hl', hk'⟩)
            · exact Or.inr ⟨e', he', hl', hk'⟩

end DictGraph

namespace DictGraph

/-! ### The BFS order visits exactly the reachable nodes -/

theorem mem_le_foldr_max (l : List Nat) (a : Nat) (ha : a ∈ l) :
    a ≤ l.foldr max 0 := by
  induction l with
  | nil => cases ha
  | cons b l ih =>
      rcases List.mem_cons.mp ha with rfl | ha'
      · exact le_max_left _ _
      · exact le_trans (ih ha') (le_max_right _ _)

/-- The fuel certificate propagates to the next BFS level. -/
theorem heightF_nextQueue (fuel : Nat) (q : List (Path × LayoutTree))
    (hq : ∀ e ∈ q, heightF (fuel + 1) e.2 < fuel + 1) :
    ∀ e ∈ nextQueue q, heightF fuel e.2 < fuel := by
  intro e' he'
  unfold nextQueue at he'
  rw [List.mem_flatten] at he'
  obtain ⟨l, hl, hel⟩ := he'
  rw [List.mem_map] at hl
  obtain ⟨e, he, rfl⟩ := hl
  unfold childEntries at hel
  rw [List.mem_map] at hel
  obtain ⟨ic, hic, rfl⟩ := hel
  have hc : ic.2 ∈ e.2.children := by
    obtain ⟨i, c⟩ := ic
    exact List.snd_mem_of_mem_enum hic
  have hh := hq e he
  obtain ⟨pe, te⟩ := e
  obtain ⟨v, lf, cs⟩ := te
  simp only [LayoutTree.children] at hc
  simp only [heightF] at hh
  show heightF fuel ic.2 < fuel
  have hle : heightF fuel ic.2 ≤ (cs.map (heightF fuel)).foldr max 0 :=
    mem_le_foldr_max _ _ (List.mem_map_of_mem _ hc)
  omega

theorem flatten_map_cons_perm {β : Type} (q : List β) (g : β → List β) :
    ((q.map (fun e => e :: g e)).flatten).Perm
      (q ++ (q.map g).flatten) := by
  induction q with
  | nil => exact List.Perm.refl _
  | cons e q ih =>
      simp only [List.map_cons, List.flatten_cons, List.cons_append]
      refine List.Perm.cons e
        (List.Perm.trans (List.Perm.append_left (g e) ih) ?_)
      rw [← List.append_assoc, ← List.append_assoc]
      exact List.Perm.append_right _ List.perm_append_comm

theorem visitedF_append (fuel : Nat) (a b : List (Path × LayoutTree)) :
    visitedF fuel (a ++ b) = visitedF fuel a ++ visitedF fuel b := by
  unfold visitedF
  rw [List.map_append, List.flatten_append]

theorem visitedF_nextQueue (fuel : Nat) (q : List (Path × LayoutTree)) :
    visitedF fuel (nextQueue q) =
      ((q.map (fun e => visitedF fuel (childEntries e))).flatten) := by
  induction q with
  | nil => rfl
  | cons e q ih =>
      show visitedF fuel (childEntries e ++ nextQueue q) = _
      rw [visitedF_append, ih]
      rfl

/-- With enough fuel, the BFS order is a permutation of the reachable
nodes (depth-first, subtree by subtree). -/
theorem bfsOrderF_perm_visitedF :
    ∀ (fuel : Nat) (q : List (Path × LayoutTree)),
      (∀ e ∈ q, heightF fuel e.2 < fuel) →
      (bfsOrderF fuel q).Perm (visitedF fuel q) := by
  intro fuel
  induction fuel with
  | zero =>
      intro q _
      have hv : visitedF 0 q = [] := by
        unfold visitedF
        rw [List.flatten_eq_nil_iff]
        intro l hl
        rw [List.mem_map] at hl
        obtain ⟨e, _, rfl⟩ := hl
        rfl
      rw [hv]
      exact List.Perm.refl _
  | succ fuel ih =>
      intro q hq
      cases q with
      | nil => exact List.Perm.refl _
      | cons e0 q' =>
          have hbfs : bfsOrderF (fuel + 1) (e0 :: q') =
              (e0 :: q') ++ bfsOrderF fuel (nextQueue (e0 :: q')) := rfl
          have hvis : visitedF (fuel + 1) (e0 :: q') =
              (((e0 :: q').map
                (fun e => e :: visitedF fuel (childEntries e))).flatten) := by
            unfold visitedF
            refine congrArg List.flatten (List.map_congr_left fun e _ => ?_)
            rfl
          rw [hbfs, hvis]
          refine List.Perm.trans ?_ (flatten_map_cons_perm (e0 :: q')
            (fun e => visitedF fuel (childEntries e))).symm
          refine List.Perm.append_left _ ?_
          rw [← visitedF_nextQueue]
          exact ih (nextQueue (e0 :: q')) (heightF_nextQueue fuel _ hq)

/-- With enough fuel, the BFS order is closed under taking children. -/
theorem bfsOrderF_child_closed :
    ∀ (fuel : Nat) (q : List (Path × LayoutTree)),
      (∀ e ∈ q, heightF fuel e.2 < fuel) →
      ∀ e ∈ bfsOrderF fuel q, ∀ e' ∈ childEntries e,
        e' ∈ bfsOrderF fuel q := by
  intro fuel
  induction fuel with
  | zero => intro q _ e he; cases he
  | succ fuel ih =>
      intro q hq e he e' he'
      cases q with
      | nil => cases he
      | cons e0 q' =>
          have hbfs : bfsOrderF (fuel + 1) (e0 :: q') =
              (e0 :: q') ++ bfsOrderF fuel (nextQueue (e0 :: q')) := rfl
          rw [hbfs, List.mem_append] at he ⊢
          rcases he with he | he
          · right
            have hone : ∀ t : LayoutTree, 1 ≤ heightF (fuel + 1) t := by
              intro t
              obtain ⟨v, lf, cs⟩ := t
              simp only [heightF]
              omega
            have hfuel1 : 1 ≤ fuel := by
              have h1 := hq e he
              have h2 := hone e.2
              omega
            have hnext : e' ∈ nextQueue (e0 :: q') := by
              unfold nextQueue
              rw [List.mem_flatten]
              exact ⟨childEntries e, List.mem_map_of_mem childEntries he, he'⟩
            obtain ⟨fuel', rfl⟩ : ∃ f, fuel = f + 1 :=
              ⟨fuel - 1, by omega⟩
            cases hne : nextQueue (e0 :: q') with
            | nil => rw [hne] at hnext; cases hnext
            | cons a l =>
                have hstep : bfsOrderF (fuel' + 1) (a :: l) =
                    (a :: l) ++ bfsOrderF fuel' (nextQueue (a :: l)) := rfl
                rw [hstep, List.mem_append]
                left
                rw [← hne]
                exact hnext
          · right
            exact ih (nextQueue (e0 :: q'))
              (heightF_nextQueue fuel _ hq) e he e' he'

end DictGraph

namespace DictGraph

set_option maxRecDepth 100000 in
/-- C10: extraction classifies a node as a leaf or branch solely by the
source tree node's `is_leaf` flag — an identifier is in the leaves (resp.
branches) map precisely when some visited node with `is_leaf` true (resp.
false) carries it, regardless of whether the layout node has children —
and consequently, in the scenario trie (where "ab" is a proper prefix of
"abcd"), the id `[0, 0]` of `b` is in the leaves map and is the parent
endpoint of the emitted edge to the deeper `c = [0, 0, 0]`. -/
theorem extraction_classifies_by_src_leaf {α : Type} [DecidableEq α]
    (key : Path → α) (st : St) (fuel : Nat)
    (roots : List (Path × LayoutTree))
    (hfuel : ∀ e ∈ roots, heightF fuel e.2 < fuel) :
    (∀ k, k ∈ (extractTreeLayout key st fuel roots).leaves.map Prod.fst ↔
      ∃ e, e ∈ visitedF fuel roots ∧ e.2.srcLeaf = true ∧ key e.1 = k) ∧
    (∀ k, k ∈ (extractTreeLayout key st fuel roots).branches.map Prod.fst ↔
      ∃ e, e ∈ visitedF fuel roots ∧ e.2.srcLeaf = false ∧ key e.1 = k) ∧
    ([0, 0] ∈ scenarioRender.leaves.map Prod.fst ∧
      ([0, 0], [0, 0, 0]) ∈ scenarioRender.edges) := by
  have hperm := bfsOrderF_perm_visitedF fuel roots hfuel
  refine ⟨fun k => ?_, fun k => ?_, by decide⟩
  · rw [extractTreeLayout, extractGo_leaves_mem]
    simp only [emptyExtracted, List.map_nil, List.not_mem_nil, false_or]
    constructor
    · rintro ⟨e, he, h1, h2⟩
      exact ⟨e, hperm.mem_iff.mp he, h1, h2⟩
    · rintro ⟨e, he, h1, h2⟩
      exact ⟨e, hperm.mem_iff.mpr he, h1, h2⟩
  · rw [extractTreeLayout, extractGo_branches_mem]
    simp only [emptyExtracted, List.map_nil, List.not_mem_nil, false_or]
    constructor
    · rintro ⟨e, he, h1, h2⟩
      exact ⟨e, hperm.mem_iff.mp he, h1, h2⟩
    · rintro ⟨e, he, h1, h2⟩
      exact ⟨e, hperm.mem_iff.mpr he, h1, h2⟩

/-- Closed instance of `extraction_classifies_by_src_leaf` on a two-node
tree (fuel 3, identifiers are the paths themselves). -/
theorem extraction_classifies_by_src_leaf_witness :
    (∀ e ∈ [(([] : Path), LayoutTree.mk "r" false [LayoutTree.mk "a" true []])],
      heightF 3 e.2 < 3) ∧
    ((∀ k, k ∈ (extractTreeLayout id []
        3 [(([] : Path), LayoutTree.mk "r" false [LayoutTree.mk "a" true []])]).leaves.map
          Prod.fst ↔
      ∃ e, e ∈ visitedF 3
          [(([] : Path), LayoutTree.mk "r" false [LayoutTree.mk "a" true []])] ∧
        e.2.srcLeaf = true ∧ id e.1 = k) ∧
    (∀ k, k ∈ (extractTreeLayout id []
        3 [(([] : Path), LayoutTree.mk "r" false [LayoutTree.mk "a" true []])]).branches.map
          Prod.fst ↔
      ∃ e, e ∈ visitedF 3
          [(([] : Path), LayoutTree.mk "r" false [LayoutTree.mk "a" true []])] ∧
        e.2.srcLeaf = false ∧ id e.1 = k) ∧
    ([0, 0] ∈ scenarioRender.leaves.map Prod.fst ∧
      ([0, 0], [0, 0, 0]) ∈ scenarioRender.edges)) :=
  ⟨by decide,
    extraction_classifies_by_src_leaf id [] 3
      [(([] : Path), LayoutTree.mk "r" false [LayoutTree.mk "a" true []])]
      (by decide)⟩

end DictGraph

namespace DictGraph

theorem processLevel_fst_branches_eq {α : Type} [DecidableEq α]
    (key : Path → α) (st : St) :
    ∀ (q : List (Path × LayoutTree)) (acc : Extracted α × List (Path × LayoutTree)),
      (acc.1.branches.map Prod.fst ++
        (q.filter (fun e => e.2.srcLeaf = false)).map (fun e => key e.1)).Nodup →
      ((q.foldl (fun acc e =>
          let curr := key e.1
          let E0 := acc.1
          let E1 := if e.2.srcLeaf then
              { E0 with leaves := dinsert E0.leaves curr e.2.value }
            else { E0 with branches := dinsert E0.branches curr e.2.value }
          let E2 := { E1 with
            positions := dinsert E1.positions curr (getX st e.1, getY st e.1) }
          let kids := childEntries e
          let E3 := { E2 with
            edges := E2.edges ++ kids.map (fun kp => (curr, key kp.1)) }
          (E3, acc.2 ++ kids)) acc).1).branches =
        acc.1.branches ++
          (q.filter (fun e => e.2.srcLeaf = false)).map
            (fun e => (key e.1, e.2.value)) := by
  intro q
  induction q with
  | nil => intro acc _; simp
  | cons e q ih =>
      intro acc hnd
      rw [List.foldl_cons]
      by_cases hleaf : e.2.srcLeaf
      · have hfilter : (e :: q).filter (fun e => e.2.srcLeaf = false) =
            q.filter (fun e => e.2.srcLeaf = false) := by
          rw [List.filter_cons]
          simp [hleaf]
        rw [hfilter] at hnd ⊢
        refine (ih _ ?_).trans ?_
        · dsimp only
          rw [if_pos hleaf]
          exact hnd
        · dsimp only
          rw [if_pos hleaf]
      · have hleaf' : e.2.srcLeaf = false := by simpa using hleaf
        have hfilter : (e :: q).filter (fun e => e.2.srcLeaf = false) =
            e :: q.filter (fun e => e.2.srcLeaf = false) := by
          rw [List.filter_cons]
          simp [hleaf']
        rw [hfilter] at hnd ⊢
        rw [List.map_cons] at hnd
        have hfresh : key e.1 ∉ acc.1.branches.map Prod.fst := by
          rw [List.nodup_append] at hnd
          exact fun hmem => hnd.2.2 hmem (List.mem_cons_self _ _)
        refine (ih _ ?_).trans ?_
        · dsimp only
          rw [if_neg (by simp [hleaf']), dinsert_fresh _ _ _ hfresh,
            List.map_append, List.append_assoc]
          simpa using hnd
        · dsimp only
          rw [if_neg (by simp [hleaf']), dinsert_fresh _ _ _ hfresh,
            List.map_cons, List.append_assoc, List.singleton_append]

end DictGraph

namespace DictGraph

theorem processLevel_fst_leaves_eq {α : Type} [DecidableEq α]
    (key : Path → α) (st : St) :
    ∀ (q : List (Path × LayoutTree)) (acc : Extracted α × List (Path × LayoutTree)),
      (acc.1.leaves.map Prod.fst ++
        (q.filter (fun e => e.2.srcLeaf = true)).map (fun e => key e.1)).Nodup →
      ((q.foldl (fun acc e =>
          let curr := key e.1
          let E0 := acc.1
          let E1 := if e.2.srcLeaf then
              { E0 with leaves := dinsert E0.leaves curr e.2.value }
            else { E0 with branches := dinsert E0.branches curr e.2.value }
          let E2 := { E1 with
            positions := dinsert E1.positions curr (getX st e.1, getY st e.1) }
          let kids := childEntries e
          let E3 := { E2 with
            edges := E2.edges ++ kids.map (fun kp => (curr, key kp.1)) }
          (E3, acc.2 ++ kids)) acc).1).leaves =
        acc.1.leaves ++
          (q.filter (fun e => e.2.srcLeaf = true)).map
            (fun e => (key e.1, e.2.value)) := by
  intro q
  induction q with
  | nil => intro acc _; simp
  | cons e q ih =>
      intro acc hnd
      rw [List.foldl_cons]
      by_cases hleaf : e.2.srcLeaf
      · have hfilter : (e :: q).filter (fun e => e.2.srcLeaf = true) =
            e :: q.filter (fun e => e.2.srcLeaf = true) := by
          rw [List.filter_cons]
          simp [hleaf]
        rw [hfilter] at hnd ⊢
        rw [List.map_cons] at hnd
        have hfresh : key e.1 ∉ acc.1.leaves.map Prod.fst := by
          rw [List.nodup_append] at hnd
          exact fun hmem => hnd.2.2 hmem (List.mem_cons_self _ _)
        refine (ih _ ?_).trans ?_
        · dsimp only
          rw [if_pos hleaf, dinsert_fresh _ _ _ hfresh,
            List.map_append, List.append_assoc]
          simpa using hnd
        · dsimp only
          rw [if_pos hleaf, dinsert_fresh _ _ _ hfresh,
            List.map_cons, List.append_assoc, List.singleton_append]
      · have hleaf' : e.2.srcLeaf = false := by simpa using hleaf
        have hfilter : (e :: q).filter (fun e => e.2.srcLeaf = true) =
            q.filter (fun e => e.2.srcLeaf = true) := by
          rw [List.filter_cons]
          simp [hleaf']
        rw [hfilter] at hnd ⊢
        refine (ih _ ?_).trans ?_
        · dsimp only
          rw [if_neg (by simp [hleaf'])]
          exact hnd
        · dsimp only
          rw [if_neg (by simp [hleaf'])]

theorem processLevel_fst_positions_eq {α : Type} [DecidableEq α]
    (key : Path → α) (st : St) :
    ∀ (q : List (Path × LayoutTree)) (acc : Extracted α × List (Path × LayoutTree)),
      (acc.1.positions.map Prod.fst ++ q.map (fun e => key e.1)).Nodup →
      ((q.foldl (fun acc e =>
          let curr := key e.1
          let E0 := acc.1
          let E1 := if e.2.srcLeaf then
              { E0 with leaves := dinsert E0.leaves curr e.2.value }
            else { E0 with branches := dinsert E0.branches curr e.2.value }
          let E2 := { E1 with
            positions := dinsert E1.positions curr (getX st e.1, getY st e.1) }
          let kids := childEntries e
          let E3 := { E2 with
            edges := E2.edges ++ kids.map (fun kp => (curr, key kp.1)) }
          (E3, acc.2 ++ kids)) acc).1).positions =
        acc.1.positions ++
          q.map (fun e => (key e.1, (getX st e.1, getY st e.1))) := by
  intro q
  induction q with
  | nil => intro acc _; simp
  | cons e q ih =>
      intro acc hnd
      rw [List.map_cons] at hnd
      have hfresh : key e.1 ∉ acc.1.positions.map Prod.fst := by
        rw [List.nodup_append] at hnd
        exact fun hmem => hnd.2.2 hmem (List.mem_cons_self _ _)
      have hpos : ∀ E1 : Extracted α, E1.positions = acc.1.positions →
          (dinsert E1.positions (key e.1) (getX st e.1, getY st e.1)) =
            acc.1.positions ++ [(key e.1, (getX st e.1, getY st e.1))] := by
        intro E1 hE1
        rw [hE1, dinsert_fresh _ _ _ hfresh]
      rw [List.foldl_cons]
      by_cases hleaf : e.2.srcLeaf
      · refine (ih _ ?_).trans ?_
        · dsimp only
          rw [if_pos hleaf]
          rw [hpos _ rfl, List.map_append, List.append_assoc]
          simpa using hnd
        · dsimp only
          rw [if_pos hleaf]
          rw [hpos _ rfl, List.map_cons, List.append_assoc,
            List.singleton_append]
      · refine (ih _ ?_).trans ?_
        · dsimp only
          rw [if_neg (by simpa using hleaf)]
          rw [hpos _ rfl, List.map_append, List.append_assoc]
          simpa using hnd
        · dsimp only
          rw [if_neg (by simpa using hleaf)]
          rw [hpos _ rfl, List.map_cons, List.append_assoc,
            List.singleton_append]

theorem processLevel_fst_edges_eq {α : Type} [DecidableEq α]
    (key : Path → α) (st : St) :
    ∀ (q : List (Path × LayoutTree)) (acc : Extracted α × List (Path × LayoutTree)),
      ((q.foldl (fun acc e =>
          let curr := key e.1
          let E0 := acc.1
          let E1 := if e.2.srcLeaf then
              { E0 with leaves := dinsert E0.leaves curr e.2.value }
            else { E0 with branches := dinsert E0.branches curr e.2.value }
          let E2 := { E1 with
            positions := dinsert E1.positions curr (getX st e.1, getY st e.1) }
          let kids := childEntries e
          let E3 := { E2 with
            edges := E2.edges ++ kids.map (fun kp => (curr, key kp.1)) }
          (E3, acc.2 ++ kids)) acc).1).edges =
        acc.1.edges ++
          (q.map (fun e =>
            (childEntries e).map (fun kp => (key e.1, key kp.1)))).flatten := by
  intro q
  induction q with
  | nil => intro acc; simp
  | cons e q ih =>
      intro acc
      rw [List.foldl_cons, ih]
      by_cases hleaf : e.2.srcLeaf
      · dsimp only
        rw [if_pos hleaf, List.map_cons, List.flatten_cons, List.append_assoc]
      · dsimp only
        rw [if_neg (by simpa using hleaf), List.map_cons, List.flatten_cons,
          List.append_assoc]

end DictGraph

namespace DictGraph

theorem extractGo_branches_eq {α : Type} [DecidableEq α] (key : Path → α)
    (st : St) :
    ∀ (fuel : Nat) (q : List (Path × LayoutTree)) (E : Extracted α),
      (E.branches.map Prod.fst ++
        ((bfsOrderF fuel q).filter (fun e => e.2.srcLeaf = false)).map
          (fun e => key e.1)).Nodup →
      (extractGo key st fuel q E).branches =
        E.branches ++
          ((bfsOrderF fuel q).filter (fun e => e.2.srcLeaf = false)).map
            (fun e => (key e.1, e.2.value)) := by
  intro fuel
  induction fuel with
  | zero => intro q E _; simp [extractGo, bfsOrderF]
  | succ fuel ih =>
      intro q E hnd
      cases q with
      | nil => simp [extractGo, bfsOrderF]
      | cons e q' =>
          have hbfs : bfsOrderF (fuel + 1) (e :: q') =
              (e :: q') ++ bfsOrderF fuel (nextQueue (e :: q')) := rfl
          rw [hbfs, List.filter_append, List.map_append] at hnd ⊢
          show (extractGo key st fuel (processLevel key st (e :: q') E).2
              (processLevel key st (e :: q') E).1).branches = _
          have hsnd : (processLevel key st (e :: q') E).2 =
              nextQueue (e :: q') := by
            unfold processLevel
            rw [processLevel_snd key st (e :: q') E []]
            exact List.nil_append _
          have hfst : (processLevel key st (e :: q') E).1.branches =
              E.branches ++
                ((e :: q').filter (fun e => e.2.srcLeaf = false)).map
                  (fun e => (key e.1, e.2.value)) := by
            unfold processLevel
            refine processLevel_fst_branches_eq key st (e :: q') (E, []) ?_
            refine List.Nodup.sublist ?_ hnd
            exact List.Sublist.append_left (List.sublist_append_left _ _) _
          rw [hsnd]
          rw [ih (nextQueue (e :: q')) _ (by
            rw [hfst, List.map_append]
            have hkeys : (((e :: q').filter
                (fun e => e.2.srcLeaf = false)).map
                  (fun e => (key e.1, e.2.value))).map Prod.fst =
                ((e :: q').filter (fun e => e.2.srcLeaf = false)).map
                  (fun e => key e.1) := by
              rw [List.map_map]
              rfl
            rw [hkeys]
            rwa [← List.append_assoc] at hnd)]
          rw [hfst, List.append_assoc]

theorem extractGo_leaves_eq {α : Type} [DecidableEq α] (key : Path → α)
    (st : St) :
    ∀ (fuel : Nat) (q : List (Path × LayoutTree)) (E : Extracted α),
      (E.leaves.map Prod.fst ++
        ((bfsOrderF fuel q).filter (fun e => e.2.srcLeaf = true)).map
          (fun e => key e.1)).Nodup →
      (extractGo key st fuel q E).leaves =
        E.leaves ++
          ((bfsOrderF fuel q).filter (fun e => e.2.srcLeaf = true)).map
            (fun e => (key e.1, e.2.value)) := by
  intro fuel
  induction fuel with
  | zero => intro q E _; simp [extractGo, bfsOrderF]
  | succ fuel ih =>
      intro q E hnd
      cases q with
      | nil => simp [extractGo, bfsOrderF]
      | cons e q' =>
          have hbfs : bfsOrderF (fuel + 1) (e :: q') =
              (e :: q') ++ bfsOrderF fuel (nextQueue (e :: q')) := rfl
          rw [hbfs, List.filter_append, List.map_append] at hnd ⊢
          show (extractGo key st fuel (processLevel key st (e :: q') E).2
              (processLevel key st (e :: q') E).1).leaves = _
          have hsnd : (processLevel key st (e :: q') E).2 =
              nextQueue (e :: q') := by
            unfold processLevel
            rw [processLevel_snd key st (e :: q') E []]
            exact List.nil_append _
          have hfst : (processLevel key st (e :: q') E).1.leaves =
              E.leaves ++
                ((e :: q').filter (fun e => e.2.srcLeaf = true)).map
                  (fun e => (key e.1, e.2.value)) := by
            unfold processLevel
            refine processLevel_fst_leaves_eq key st (e :: q') (E, []) ?_
            refine List.Nodup.sublist ?_ hnd
            exact List.Sublist.append_left (List.sublist_append_left _ _) _
          rw [hsnd]
          rw [ih (nextQueue (e :: q')) _ (by
            rw [hfst, List.map_append]
            have hkeys : (((e :: q').filter
                (fun e => e.2.srcLeaf = true)).map
                  (fun e => (key e.1, e.2.value))).map Prod.fst =
                ((e :: q').filter (fun e => e.2.srcLeaf = true)).map
                  (fun e => key e.1) := by
              rw [List.map_map]
              rfl
            rw [hkeys]
            rwa [← List.append_assoc] at hnd)]
          rw [hfst, List.append_assoc]

theorem extractGo_positions_eq {α : Type} [DecidableEq α] (key : Path → α)
    (st : St) :
    ∀ (fuel : Nat) (q : List (Path × LayoutTree)) (E : Extracted α),
      (E.positions.map Prod.fst ++
        (bfsOrderF fuel q).map (fun e => key e.1)).Nodup →
      (extractGo key st fuel q E).positions =
        E.positions ++
          (bfsOrderF fuel q).map
            (fun e => (key e.1, (getX st e.1, getY st e.1))) := by
  intro fuel
  induction fuel with
  | zero => intro q E _; simp [extractGo, bfsOrderF]
  | succ fuel ih =>
      intro q E hnd
      cases q with
      | nil => simp [extractGo, bfsOrderF]
      | cons e q' =>
          have hbfs : bfsOrderF (fuel + 1) (e :: q') =
              (e :: q') ++ bfsOrderF fuel (nextQueue (e :: q')) := rfl
          rw [hbfs, List.map_append] at hnd ⊢
          show (extractGo key st fuel (processLevel key st (e :: q') E).2
              (processLevel key st (e :: q') E).1).positions = _
          have hsnd : (processLevel key st (e :: q') E).2 =
              nextQueue (e :: q') := by
            unfold processLevel
            rw [processLevel_snd key st (e :: q') E []]
            exact List.nil_append _
          have hfst : (processLevel key st (e :: q') E).1.positions =
              E.positions ++
                (e :: q').map
                  (fun e => (key e.1, (getX st e.1, getY st e.1))) := by
            unfold processLevel
            refine processLevel_fst_positions_eq key st (e :: q') (E, []) ?_
            refine List.Nodup.sublist ?_ hnd
            exact List.Sublist.append_left (List.sublist_append_left _ _) _
          rw [hsnd]
          rw [ih (nextQueue (e :: q')) _ (by
            rw [hfst, List.map_append]
            have hkeys : ((e :: q').map
                (fun e => (key e.1, (getX st e.1, getY st e.1)))).map
                  Prod.fst = (e :: q').map (fun e => key e.1) := by
              rw [List.map_map]
              rfl
            rw [hkeys]
            rwa [← List.append_assoc] at hnd)]
          rw [hfst, List.append_assoc]

theorem extractGo_edges_eq {α : Type} [DecidableEq α] (key : Path → α)
    (st : St) :
    ∀ (fuel : Nat) (q : List (Path × LayoutTree)) (E : Extracted α),
      (extractGo key st fuel q E).edges =
        E.edges ++
          ((bfsOrderF fuel q).map (fun e =>
            (childEntries e).map (fun kp => (key e.1, key kp.1)))).flatten := by
  intro fuel
  induction fuel with
  | zero => intro q E; simp [extractGo, bfsOrderF]
  | succ fuel ih =>
      intro q E
      cases q with
      | nil => simp [extractGo, bfsOrderF]
      | cons e q' =>
          have hbfs : bfsOrderF (fuel + 1) (e :: q') =
              (e :: q') ++ bfsOrderF fuel (nextQueue (e :: q')) := rfl
          rw [hbfs, List.map_append, List.flatten_append]
          show (extractGo key st fuel (processLevel key st (e :: q') E).2
              (processLevel key st (e :: q') E).1).edges = _
          have hsnd : (processLevel key st (e :: q') E).2 =
              nextQueue (e :: q') := by
            unfold processLevel
            rw [processLevel_snd key st (e :: q') E []]
            exact List.nil_append _
          have hfst : (processLevel key st (e :: q') E).1.edges =
              E.edges ++
                ((e :: q').map (fun e =>
                  (childEntries e).map
                    (fun kp => (key e.1, key kp.1)))).flatten := by
            unfold processLevel
            exact processLevel_fst_edges_eq key st (e :: q') (E, [])
          rw [hsnd, ih (nextQueue (e :: q')), hfst, List.append_assoc]

end DictGraph

namespace DictGraph

set_option maxHeartbeats 1000000 in
/-- C7: for every forest of layout roots and an id function injective over
the visited nodes, the branch and leaf key sets are disjoint, together
they cover every emitted node exactly once (their concatenation is a
permutation of the visited nodes' keys), the positions carry exactly the
emitted keys, and both endpoints of every emitted edge are keys present in
the positions map. -/
theorem extraction_partition {α : Type} [DecidableEq α] (key : Path → α)
    (st : St) (fuel : Nat) (roots : List (Path × LayoutTree))
    (hfuel : ∀ e ∈ roots, heightF fuel e.2 < fuel)
    (hinj : ((visitedF fuel roots).map (fun e => key e.1)).Nodup) :
    (∀ k, ¬(k ∈ (extractTreeLayout key st fuel roots).branches.map Prod.fst ∧
        k ∈ (extractTreeLayout key st fuel roots).leaves.map Prod.fst)) ∧
    ((extractTreeLayout key st fuel roots).branches.map Prod.fst ++
      (extractTreeLayout key st fuel roots).leaves.map Prod.fst).Perm
        ((visitedF fuel roots).map (fun e => key e.1)) ∧
    (∀ k, k ∈ (extractTreeLayout key st fuel roots).positions.map Prod.fst ↔
      k ∈ (visitedF fuel roots).map (fun e => key e.1)) ∧
    (∀ ed ∈ (extractTreeLayout key st fuel roots).edges,
      ed.1 ∈ (extractTreeLayout key st fuel roots).positions.map Prod.fst ∧
      ed.2 ∈ (extractTreeLayout key st fuel roots).positions.map
        Prod.fst) := by
  have hperm := bfsOrderF_perm_visitedF fuel roots hfuel
  have hpermk : ((bfsOrderF fuel roots).map (fun e => key e.1)).Perm
      ((visitedF fuel roots).map (fun e => key e.1)) := hperm.map _
  have hbfsnd : ((bfsOrderF fuel roots).map (fun e => key e.1)).Nodup :=
    hpermk.nodup_iff.mpr hinj
  have hB : (extractTreeLayout key st fuel roots).branches =
      ((bfsOrderF fuel roots).filter (fun e => e.2.srcLeaf = false)).map
        (fun e => (key e.1, e.2.value)) := by
    rw [extractTreeLayout, extractGo_branches_eq key st fuel roots
      emptyExtracted (by
        refine List.Nodup.sublist ?_ hbfsnd
        show (List.map Prod.fst ([] : List (α × String)) ++ _).Sublist _
        rw [List.map_nil, List.nil_append]
        exact List.Sublist.map _ (List.filter_sublist _))]
    rfl
  have hL : (extractTreeLayout key st fuel roots).leaves =
      ((bfsOrderF fuel roots).filter (fun e => e.2.srcLeaf = true)).map
        (fun e => (key e.1, e.2.value)) := by
    rw [extractTreeLayout, extractGo_leaves_eq key st fuel roots
      emptyExtracted (by
        refine List.Nodup.sublist ?_ hbfsnd
        show (List.map Prod.fst ([] : List (α × String)) ++ _).Sublist _
        rw [List.map_nil, List.nil_append]
        exact List.Sublist.map _ (List.filter_sublist _))]
    rfl
  have hP : (extractTreeLayout key st fuel roots).positions =
      (bfsOrderF fuel roots).map
        (fun e => (key e.1, (getX st e.1, getY st e.1))) := by
    rw [extractTreeLayout, extractGo_positions_eq key st fuel roots
      emptyExtracted (by
        show (List.map Prod.fst ([] : List (α × (Q × Q))) ++ _).Nodup
        rw [List.map_nil, List.nil_append]
        exact hbfsnd)]
    rfl
  have hE : (extractTreeLayout key st fuel roots).edges =
      ((bfsOrderF fuel roots).map (fun e =>
        (childEntries e).map (fun kp => (key e.1, key kp.1)))).flatten := by
    rw [extractTreeLayout, extractGo_edges_eq key st fuel roots emptyExtracted]
    rfl
  have hBk : (extractTreeLayout key st fuel roots).branches.map Prod.fst =
      ((bfsOrderF fuel roots).filter (fun e => e.2.srcLeaf = false)).map
        (fun e => key e.1) := by
    rw [hB, List.map_map]
    rfl
  have hLk : (extractTreeLayout key st fuel roots).leaves.map Prod.fst =
      ((bfsOrderF fuel roots).filter (fun e => e.2.srcLeaf = true)).map
        (fun e => key e.1) := by
    rw [hL, List.map_map]
    rfl
  have hPk : (extractTreeLayout key st fuel roots).positions.map Prod.fst =
      (bfsOrderF fuel roots).map (fun e => key e.1) := by
    rw [hP, List.map_map]
    rfl
  have hsplit : (((bfsOrderF fuel roots).filter
        (fun e => e.2.srcLeaf = false)) ++
      ((bfsOrderF fuel roots).filter (fun e => e.2.srcLeaf = true))).Perm
        (bfsOrderF fuel roots) := by
    have hneg : (fun (e : Path × LayoutTree) => decide (e.2.srcLeaf = true)) =
        (fun e => !(decide (e.2.srcLeaf = false))) := by
      funext e
      cases e.2.srcLeaf <;> rfl
    have := List.filter_append_perm
      (fun (e : Path × LayoutTree) => decide (e.2.srcLeaf = false))
      (bfsOrderF fuel roots)
    rw [← hneg] at this
    exact this
  have hunion : ((extractTreeLayout key st fuel roots).branches.map
      Prod.fst ++
      (extractTreeLayout key st fuel roots).leaves.map Prod.fst).Perm
        ((visitedF fuel roots).map (fun e => key e.1)) := by
    rw [hBk, hLk, ← List.map_append]
    exact ((hsplit.map _).trans hpermk)
  refine ⟨?_, hunion, ?_, ?_⟩
  · intro k ⟨hkB, hkL⟩
    have hnd2 : ((extractTreeLayout key st fuel roots).branches.map
        Prod.fst ++
        (extractTreeLayout key st fuel roots).leaves.map Prod.fst).Nodup :=
      hunion.nodup_iff.mpr hinj
    rw [List.nodup_append] at hnd2
    exact hnd2.2.2 hkB hkL
  · intro k
    rw [hPk]
    exact hpermk.mem_iff
  · intro ed hed
    rw [hE, List.mem_flatten] at hed
    obtain ⟨l, hl, hel⟩ := hed
    rw [List.mem_map] at hl
    obtain ⟨e, he, rfl⟩ := hl
    rw [List.mem_map] at hel
    obtain ⟨kp, hkp, rfl⟩ := hel
    constructor
    · rw [hPk]
      exact List.mem_map_of_mem _ he
    · rw [hPk]
      exact List.mem_map_of_mem _
        (bfsOrderF_child_closed fuel roots hfuel e he kp hkp)

/-- Closed instance of `extraction_partition` on a two-node tree with the
path identity as id function (fuel 3). -/
theorem extraction_partition_witness :
    ((∀ e ∈ [(([] : Path), LayoutTree.mk "r" false [LayoutTree.mk "a" true []])],
        heightF 3 e.2 < 3) ∧
      ((visitedF 3 [(([] : Path),
        LayoutTree.mk "r" false [LayoutTree.mk "a" true []])]).map
          (fun e => id e.1)).Nodup) ∧
    ((∀ k, ¬(k ∈ (extractTreeLayout id [] 3 [(([] : Path),
          LayoutTree.mk "r" false [LayoutTree.mk "a" true []])]).branches.map
            Prod.fst ∧
        k ∈ (extractTreeLayout id [] 3 [(([] : Path),
          LayoutTree.mk "r" false [LayoutTree.mk "a" true []])]).leaves.map
            Prod.fst)) ∧
    ((extractTreeLayout id [] 3 [(([] : Path),
        LayoutTree.mk "r" false [LayoutTree.mk "a" true []])]).branches.map
          Prod.fst ++
      (extractTreeLayout id [] 3 [(([] : Path),
        LayoutTree.mk "r" false [LayoutTree.mk "a" true []])]).leaves.map
          Prod.fst).Perm
        ((visitedF 3 [(([] : Path),
          LayoutTree.mk "r" false [LayoutTree.mk "a" true []])]).map
            (fun e => id e.1)) ∧
    (∀ k, k ∈ (extractTreeLayout id [] 3 [(([] : Path),
          LayoutTree.mk "r" false [LayoutTree.mk "a" true []])]).positions.map
            Prod.fst ↔
      k ∈ (visitedF 3 [(([] : Path),
        LayoutTree.mk "r" false [LayoutTree.mk "a" true []])]).map
          (fun e => id e.1)) ∧
    (∀ ed ∈ (extractTreeLayout id [] 3 [(([] : Path),
          LayoutTree.mk "r" false [LayoutTree.mk "a" true []])]).edges,
      ed.1 ∈ (extractTreeLayout id [] 3 [(([] : Path),
        LayoutTree.mk "r" false [LayoutTree.mk "a" true []])]).positions.map
          Prod.fst ∧
      ed.2 ∈ (extractTreeLayout id [] 3 [(([] : Path),
        LayoutTree.mk "r" false [LayoutTree.mk "a" true []])]).positions.map
          Prod.fst)) :=
  ⟨⟨by decide, by decide⟩,
    extraction_partition id [] 3
      [(([] : Path), LayoutTree.mk "r" false [LayoutTree.mk "a" true []])]
      (by decide) (by decide)⟩

/-! ### Fraction valuation toolkit -/

theorem Q.pd_num (n : Nat) : (OfNat.ofNat n : Q).pd := by
  show (0 : Int) < 1
  decide

theorem Q.pd_zero : (0 : Q).pd := Q.pd_num 0

theorem Q.pd_one : (1 : Q).pd := Q.pd_num 1

theorem Q.pd_ofInt (n : Int) : (Q.ofInt n).pd := by
  show (0 : Int) < 1
  decide

theorem Q.pd_add {a b : Q} (ha : a.pd) (hb : b.pd) : (a + b).pd :=
  mul_pos ha hb

theorem Q.pd_sub {a b : Q} (ha : a.pd) (hb : b.pd) : (a - b).pd :=
  mul_pos ha hb

theorem Q.pd_mul {a b : Q} (ha : a.pd) (hb : b.pd) : (a * b).pd :=
  mul_pos ha hb

theorem Q.pd_neg {a : Q} (ha : a.pd) : (-a).pd := ha

theorem Q.pd_div {a b : Q} (ha : a.pd) (hb : b.num ≠ 0) : (a / b).pd := by
  show (Q.mk' (a.num * b.den) (a.den * b.num)).pd
  unfold Q.mk' Q.pd
  rcases lt_or_gt_of_ne hb with h | h
  · rw [if_pos (mul_neg_of_pos_of_neg ha h)]
    exact Int.neg_pos.mpr (mul_neg_of_pos_of_neg ha h)
  · rw [if_neg (not_lt.mpr (le_of_lt (mul_pos ha h)))]
    exact mul_pos ha h

theorem Q.val_num (n : Nat) : (OfNat.ofNat n : Q).val = n := by
  show ((n : Int) : ℚ) / ((1 : Int) : ℚ) = n
  norm_num

theorem Q.val_zero : (0 : Q).val = 0 := by
  simpa using Q.val_num 0

theorem Q.val_one : (1 : Q).val = 1 := by
  simpa using Q.val_num 1

theorem Q.val_ofInt (n : Int) : (Q.ofInt n).val = n := by
  show ((n : ℚ) / ((1 : Int) : ℚ)) = n
  norm_num

theorem Q.den_ne {a : Q} (ha : a.pd) : ((a.den : ℚ)) ≠ 0 := by
  exact_mod_cast ne_of_gt ha

theorem Q.val_add {a b : Q} (ha : a.pd) (hb : b.pd) :
    (a + b).val = a.val + b.val := by
  have h1 := Q.den_ne ha
  have h2 := Q.den_ne hb
  show ((a.num * b.den + b.num * a.den : Int) : ℚ) /
    ((a.den * b.den : Int) : ℚ) = _
  unfold Q.val
  push_cast
  field_simp

theorem Q.val_sub {a b : Q} (ha : a.pd) (hb : b.pd) :
    (a - b).val = a.val - b.val := by
  have h1 := Q.den_ne ha
  have h2 := Q.den_ne hb
  show ((a.num * b.den - b.num * a.den : Int) : ℚ) /
    ((a.den * b.den : Int) : ℚ) = _
  unfold Q.val
  push_cast
  field_simp
  ring

theorem Q.val_neg (a : Q) : (-a).val = -a.val := by
  show ((-a.num : Int) : ℚ) / (a.den : ℚ) = _
  unfold Q.val
  push_cast
  ring

theorem Q.val_mul {a b : Q} (ha : a.pd) (hb : b.pd) :
    (a * b).val = a.val * b.val := by
  show ((a.num * b.num : Int) : ℚ) / ((a.den * b.den : Int) : ℚ) = _
  unfold Q.val
  push_cast
  field_simp

theorem Q.val_mk' (n d : Int) : (Q.mk' n d).val = (n : ℚ) / (d : ℚ) := by
  unfold Q.mk' Q.val
  split
  · push_cast
    rw [neg_div_neg_eq]
  · rfl

theorem Q.val_div {a b : Q} (ha : a.pd) (hb : b.pd) (hn : b.num ≠ 0) :
    (a / b).val = a.val / b.val := by
  show (Q.mk' (a.num * b.den) (a.den * b.num)).val = _
  rw [Q.val_mk']
  unfold Q.val
  have hbn : ((b.num : ℚ)) ≠ 0 := by exact_mod_cast hn
  have h1 := Q.den_ne ha
  have h2 := Q.den_ne hb
  push_cast
  field_simp

theorem Q.lt_iff_val {a b : Q} (ha : a.pd) (hb : b.pd) :
    Q.lt a b ↔ a.val < b.val := by
  unfold Q.lt Q.val
  rw [div_lt_div_iff₀ (by exact_mod_cast ha) (by exact_mod_cast hb)]
  constructor
  · intro h; exact_mod_cast h
  · intro h; exact_mod_cast h

/-! ### Path algebra -/

theorem inSub_refl (p : Path) : inSub p p := ⟨[], rfl⟩

theorem inSub_nil (q : Path) : inSub [] q := ⟨q, by simp⟩

theorem inSub_cons {p q : Path} (h : inSub p q) (c : Nat) :
    inSub p (c :: q) := by
  obtain ⟨s, rfl⟩ := h
  exact ⟨c :: s, rfl⟩

theorem inSub_trans {p q r : Path} (h1 : inSub p q) (h2 : inSub q r) :
    inSub p r := by
  obtain ⟨s, rfl⟩ := h1
  obtain ⟨s2, rfl⟩ := h2
  exact ⟨s2 ++ s, by simp⟩

theorem inSub_child (p : Path) (i : Nat) : inSub p (i :: p) := ⟨[i], rfl⟩

theorem inSub_len {p q : Path} (h : inSub p q) : p.length ≤ q.length := by
  obtain ⟨s, rfl⟩ := h
  simp

theorem inSub_same_len {p q : Path} (h : inSub p q)
    (hl : p.length = q.length) : p = q := by
  obtain ⟨s, rfl⟩ := h
  have : s = [] := by
    cases s with
    | nil => rfl
    | cons a s => simp at hl; exact absurd hl (by omega)
  rw [this]
  rfl

theorem suffix_unique {a b q : Path} (ha : inSub a q) (hb : inSub b q)
    (hl : a.length = b.length) : a = b := by
  obtain ⟨s, rfl⟩ := ha
  obtain ⟨s2, h2⟩ := hb
  have hs : s.length = s2.length := by
    have := congrArg List.length h2
    simp at this
    omega
  exact ((List.append_inj h2.symm hs.symm).2).symm

theorem child_discrim {p q : Path} {i j : Nat} (hi : inSub (i :: p) q)
    (hj : inSub (j :: p) q) : i = j := by
  have := suffix_unique hi hj (by simp)
  injection this

theorem not_inSub_child_self (p : Path) (i : Nat) : ¬ inSub (i :: p) p := by
  intro h
  have := inSub_len h
  simp at this

theorem sibling_not_inSub {p : Path} {i j : Nat} (h : i ≠ j) :
    ¬ inSub (i :: p) (j :: p) := by
  intro hs
  exact h (child_discrim hs (inSub_refl _))

theorem inSub_of_child {p q : Path} {j : Nat} (h : inSub (j :: p) q) :
    inSub p q := inSub_trans (inSub_child p j) h

theorem inForest_lt {p : Path} {j j2 : Nat} {q : Path} (h : inForest p j q)
    (hj : j ≤ j2) : inForest p j2 q := by
  obtain ⟨m, hm, hq⟩ := h
  exact ⟨m, lt_of_lt_of_le hm hj, hq⟩

theorem inForest_child {p : Path} {m j : Nat} (hm : m < j) :
    inForest p j (m :: p) := ⟨m, hm, inSub_refl _⟩

theorem inForest_inSub {p : Path} {j : Nat} {q : Path} (h : inForest p j q) :
    inSub p q ∧ q ≠ p := by
  obtain ⟨m, hm, hq⟩ := h
  constructor
  · exact inSub_of_child hq
  · intro hqp
    rw [hqp] at hq
    exact not_inSub_child_self p m hq

theorem inForest_not_sub {p : Path} {j : Nat} {q : Path}
    (hf : inForest p j q) (hs : inSub (j :: p) q) : False := by
  obtain ⟨m, hm, hq⟩ := hf
  have := child_discrim hq hs
  omega

theorem inForest_cons {p : Path} {j : Nat} {q : Path} (h : inForest p j q)
    (c : Nat) : inForest p j (c :: q) := by
  obtain ⟨m, hm, hq⟩ := h
  exact ⟨m, hm, inSub_cons hq c⟩

/-! ### State access characterization -/

theorem find?_none_of_absent (st : St) (p : Path) (hp : ¬ hasPath st p) :
    st.find? (fun e => decide (e.1 = p)) = none := by
  rw [List.find?_eq_none]
  intro e he
  simp only [decide_eq_true_eq]
  intro hep
  exact hp (by
    unfold hasPath
    rw [List.mem_map]
    exact ⟨e, he, hep⟩)

theorem getNV_setNV_absent (st : St) (p : Path) (f : NV → NV)
    (hp : ¬ hasPath st p) (q : Path) :
    getNV (setNV st p f) q = getNV st q := by
  by_cases hq : q = p
  · subst hq
    unfold getNV
    rw [find?_setNV, find?_none_of_absent st q hp]
    rfl
  · exact getNV_setNV_ne st p q f hq

theorem getNV_op (st : St) (p : Path) (f : NV → NV) (q : Path) :
    getNV (setNV st p f) q =
      if q = p ∧ hasPath st p then f (getNV st q) else getNV st q := by
  by_cases hq : q = p
  · subst hq
    by_cases hp : hasPath st q
    · simp only [hp, and_true, if_pos rfl, true_and, if_true]
      exact getNV_setNV_self st q f hp
    · simp only [hp, and_false, if_false]
      exact getNV_setNV_absent st q f hp q
  · simp only [hq, false_and, if_false]
    exact getNV_setNV_ne st p q f hq

theorem getX_keep (st : St) (p : Path) (f : NV → NV)
    (hf : ∀ nv, (f nv).x = nv.x) (q : Path) :
    getX (setNV st p f) q = getX st q := by
  unfold getX
  rw [getNV_op]
  split
  · rw [hf]
  · rfl

theorem getY_keep (st : St) (p : Path) (f : NV → NV)
    (hf : ∀ nv, (f nv).y = nv.y) (q : Path) :
    getY (setNV st p f) q = getY st q := by
  unfold getY
  rw [getNV_op]
  split
  · rw [hf]
  · rfl

theorem getMod_keep (st : St) (p : Path) (f : NV → NV)
    (hf : ∀ nv, (f nv).mod = nv.mod) (q : Path) :
    getMod (setNV st p f) q = getMod st q := by
  unfold getMod
  rw [getNV_op]
  split
  · rw [hf]
  · rfl

theorem getShift_keep (st : St) (p : Path) (f : NV → NV)
    (hf : ∀ nv, (f nv).shift = nv.shift) (q : Path) :
    getShift (setNV st p f) q = getShift st q := by
  unfold getShift
  rw [getNV_op]
  split
  · rw [hf]
  · rfl

theorem getChange_keep (st : St) (p : Path) (f : NV → NV)
    (hf : ∀ nv, (f nv).change = nv.change) (q : Path) :
    getChange (setNV st p f) q = getChange st q := by
  unfold getChange
  rw [getNV_op]
  split
  · rw [hf]
  · rfl

theorem getThread_keep (st : St) (p : Path) (f : NV → NV)
    (hf : ∀ nv, (f nv).thread = nv.thread) (q : Path) :
    getThread (setNV st p f) q = getThread st q := by
  unfold getThread
  rw [getNV_op]
  split
  · rw [hf]
  · rfl

theorem getAnc_keep (st : St) (p : Path) (f : NV → NV)
    (hf : ∀ nv, (f nv).ancestor = nv.ancestor) (q : Path) :
    getAnc (setNV st p f) q = getAnc st q := by
  unfold getAnc
  rw [getNV_op]
  split
  · rw [hf]
  · rfl

theorem getX_ne (st : St) (p : Path) (f : NV → NV) {q : Path} (h : q ≠ p) :
    getX (setNV st p f) q = getX st q := by
  unfold getX
  rw [getNV_setNV_ne st p q f h]

theorem getMod_ne (st : St) (p : Path) (f : NV → NV) {q : Path} (h : q ≠ p) :
    getMod (setNV st p f) q = getMod st q := by
  unfold getMod
  rw [getNV_setNV_ne st p q f h]

theorem getShift_ne (st : St) (p : Path) (f : NV → NV) {q : Path}
    (h : q ≠ p) : getShift (setNV st p f) q = getShift st q := by
  unfold getShift
  rw [getNV_setNV_ne st p q f h]

theorem getChange_ne (st : St) (p : Path) (f : NV → NV) {q : Path}
    (h : q ≠ p) : getChange (setNV st p f) q = getChange st q := by
  unfold getChange
  rw [getNV_setNV_ne st p q f h]

theorem getThread_ne (st : St) (p : Path) (f : NV → NV) {q : Path}
    (h : q ≠ p) : getThread (setNV st p f) q = getThread st q := by
  unfold getThread
  rw [getNV_setNV_ne st p q f h]

theorem getAnc_ne (st : St) (p : Path) (f : NV → NV) {q : Path} (h : q ≠ p) :
    getAnc (setNV st p f) q = getAnc st q := by
  unfold getAnc
  rw [getNV_setNV_ne st p q f h]

theorem stPD_setNV (st : St) (p : Path) (f : NV → NV) (h : stPD st)
    (hf : ∀ nv, nv.x.pd → nv.mod.pd → nv.shift.pd → nv.change.pd →
      (f nv).x.pd ∧ (f nv).mod.pd ∧ (f nv).shift.pd ∧ (f nv).change.pd) :
    stPD (setNV st p f) := by
  intro q
  obtain ⟨h1, h2, h3, h4⟩ := h q
  unfold getX getMod getShift getChange at *
  rw [getNV_op]
  split
  · exact hf _ h1 h2 h3 h4
  · exact ⟨h1, h2, h3, h4⟩

/-! ### Tree addressing -/

theorem getDown_cons (t : LayoutTree) (i : Nat) (rest : List Nat) :
    getDown t (i :: rest) =
      (t.children.get? i).bind (fun c => getDown c rest) := by
  simp only [getDown]
  cases t.children.get? i <;> rfl

theorem getDown_append (t : LayoutTree) (l1 l2 : List Nat) :
    getDown t (l1 ++ l2) = (getDown t l1).bind (fun c => getDown c l2) := by
  induction l1 generalizing t with
  | nil => rfl
  | cons i l ih =>
      show getDown t (i :: (l ++ l2)) = _
      rw [getDown_cons, getDown_cons]
      cases t.children.get? i with
      | none => rfl
      | some c => exact ih c

theorem getLT_child (root : LayoutTree) (p : Path) (i : Nat) :
    getLT root (i :: p) = (getLT root p).bind (fun t => t.children.get? i) := by
  unfold getLT
  rw [List.reverse_cons, getDown_append]
  cases getDown root p.reverse with
  | none => rfl
  | some t =>
      show getDown t [i] = t.children.get? i
      unfold getDown
      cases t.children.get? i with
      | none => rfl
      | some c => rfl

theorem cnt_of_getLT {root : LayoutTree} {p : Path} {t : LayoutTree}
    (hp : getLT root p = some t) : cnt root p = t.children.length := by
  unfold cnt
  rw [hp]

theorem getLT_child_get {root : LayoutTree} {p : Path} {t : LayoutTree}
    (hp : getLT root p = some t) {i : Nat} {c : LayoutTree}
    (hc : t.children.get? i = some c) : getLT root (i :: p) = some c := by
  rw [getLT_child, hp]
  simpa using hc

theorem valid_child_of_lt {root : LayoutTree} {p : Path} {i : Nat}
    (hi : i < cnt root p) : (getLT root (i :: p)).isSome := by
  rw [getLT_child]
  cases hp : getLT root p with
  | none =>
      have h0 : cnt root p = 0 := by unfold cnt; rw [hp]
      rw [h0] at hi
      exact absurd hi (Nat.not_lt_zero i)
  | some t =>
      have hn : cnt root p = t.children.length := cnt_of_getLT hp
      rw [hn] at hi
      cases hc : t.children.get? i with
      | none =>
          exfalso
          rw [List.get?_eq_none] at hc
          omega
      | some c =>
          have hg : t.children[i]? = some c := by
            rw [← List.get?_eq_getElem?]; exact hc
          simp [hg]

theorem valid_drop {root : LayoutTree} {i : Nat} {q : Path}
    (h : (getLT root (i :: q)).isSome) : (getLT root q).isSome := by
  rw [getLT_child] at h
  cases hq : getLT root q with
  | none => rw [hq] at h; simp at h
  | some t => rfl

theorem valid_suffix {root : LayoutTree} {p q : Path} (hs : inSub p q)
    (h : (getLT root q).isSome) : (getLT root p).isSome := by
  obtain ⟨s, rfl⟩ := hs
  induction s with
  | nil => exact h
  | cons i s ih => exact ih (valid_drop h)

theorem heightF_child {fuel : Nat} {v : String} {lf : Bool}
    {cs : List LayoutTree} (h : heightF (fuel + 1) (.mk v lf cs) < fuel + 1)
    {c : LayoutTree} (hc : c ∈ cs) : heightF fuel c < fuel := by
  unfold heightF at h
  have := mem_le_foldr_max (cs.map (heightF fuel)) (heightF fuel c)
    (List.mem_map_of_mem _ hc)
  omega

/-! ### Per-operation effect lemmas -/

theorem getY_setX_e (st : St) (p : Path) (v : Q) (q : Path) :
    getY (setX st p v) q = getY st q := by
  unfold setX
  refine getY_keep st p _ ?_ q
  intro nv
  rfl

theorem getMod_setX_e (st : St) (p : Path) (v : Q) (q : Path) :
    getMod (setX st p v) q = getMod st q := by
  unfold setX
  refine getMod_keep st p _ ?_ q
  intro nv
  rfl

theorem getShift_setX_e (st : St) (p : Path) (v : Q) (q : Path) :
    getShift (setX st p v) q = getShift st q := by
  unfold setX
  refine getShift_keep st p _ ?_ q
  intro nv
  rfl

theorem getChange_setX_e (st : St) (p : Path) (v : Q) (q : Path) :
    getChange (setX st p v) q = getChange st q := by
  unfold setX
  refine getChange_keep st p _ ?_ q
  intro nv
  rfl

theorem getThread_setX_e (st : St) (p : Path) (v : Q) (q : Path) :
    getThread (setX st p v) q = getThread st q := by
  unfold setX
  refine getThread_keep st p _ ?_ q
  intro nv
  rfl

theorem getAnc_setX_e (st : St) (p : Path) (v : Q) (q : Path) :
    getAnc (setX st p v) q = getAnc st q := by
  unfold setX
  refine getAnc_keep st p _ ?_ q
  intro nv
  rfl

theorem getX_setX_n (st : St) (p : Path) (v : Q) {q : Path} (h : q ≠ p) :
    getX (setX st p v) q = getX st q := by
  unfold setX
  exact getX_ne st p _ h

theorem getX_setY_e (st : St) (p : Path) (v : Q) (q : Path) :
    getX (setY st p v) q = getX st q := by
  unfold setY
  refine getX_keep st p _ ?_ q
  intro nv
  rfl

theorem getMod_setY_e (st : St) (p : Path) (v : Q) (q : Path) :
    getMod (setY st p v) q = getMod st q := by
  unfold setY
  refine getMod_keep st p _ ?_ q
  intro nv
  rfl

theorem getShift_setY_e (st : St) (p : Path) (v : Q) (q : Path) :
    getShift (setY st p v) q = getShift st q := by
  unfold setY
  refine getShift_keep st p _ ?_ q
  intro nv
  rfl

theorem getChange_setY_e (st : St) (p : Path) (v : Q) (q : Path) :
    getChange (setY st p v) q = getChange st q := by
  unfold setY
  refine getChange_keep st p _ ?_ q
  intro nv
  rfl

theorem getThread_setY_e (st : St) (p : Path) (v : Q) (q : Path) :
    getThread (setY st p v) q = getThread st q := by
  unfold setY
  refine getThread_keep st p _ ?_ q
  intro nv
  rfl

theorem getAnc_setY_e (st : St) (p : Path) (v : Q) (q : Path) :
    getAnc (setY st p v) q = getAnc st q := by
  unfold setY
  refine getAnc_keep st p _ ?_ q
  intro nv
  rfl

theorem getX_setMod_e (st : St) (p : Path) (v : Q) (q : Path) :
    getX (setMod st p v) q = getX st q := by
  unfold setMod
  refine getX_keep st p _ ?_ q
  intro nv
  rfl

theorem getY_setMod_e (st : St) (p : Path) (v : Q) (q : Path) :
    getY (setMod st p v) q = getY st q := by
  unfold setMod
  refine getY_keep st p _ ?_ q
  intro nv
  rfl

theorem getShift_setMod_e (st : St) (p : Path) (v : Q) (q : Path) :
    getShift (setMod st p v) q = getShift st q := by
  unfold setMod
  refine getShift_keep st p _ ?_ q
  intro nv
  rfl

theorem getChange_setMod_e (st : St) (p : Path) (v : Q) (q : Path) :
    getChange (setMod st p v) q = getChange st q := by
  unfold setMod
  refine getChange_keep st p _ ?_ q
  intro nv
  rfl

theorem getThread_setMod_e (st : St) (p : Path) (v : Q) (q : Path) :
    getThread (setMod st p v) q = getThread st q := by
  unfold setMod
  refine getThread_keep st p _ ?_ q
  intro nv
  rfl

theorem getAnc_setMod_e (st : St) (p : Path) (v : Q) (q : Path) :
    getAnc (setMod st p v) q = getAnc st q := by
  unfold setMod
  refine getAnc_keep st p _ ?_ q
  intro nv
  rfl

theorem getMod_setMod_n (st : St) (p : Path) (v : Q) {q : Path} (h : q ≠ p) :
    getMod (setMod st p v) q = getMod st q := by
  unfold setMod
  exact getMod_ne st p _ h

theorem getY_incX_e (st : St) (p : Path) (d : Q) (q : Path) :
    getY (incX st p d) q = getY st q := by
  unfold incX
  refine getY_keep st p _ ?_ q
  intro nv
  rfl

theorem getMod_incX_e (st : St) (p : Path) (d : Q) (q : Path) :
    getMod (incX st p d) q = getMod st q := by
  unfold incX
  refine getMod_keep st p _ ?_ q
  intro nv
  rfl

theorem getShift_incX_e (st : St) (p : Path) (d : Q) (q : Path) :
    getShift (incX st p d) q = getShift st q := by
  unfold incX
  refine getShift_keep st p _ ?_ q
  intro nv
  rfl

theorem getChange_incX_e (st : St) (p : Path) (d : Q) (q : Path) :
    getChange (incX st p d) q = getChange st q := by
  unfold incX
  refine getChange_keep st p _ ?_ q
  intro nv
  rfl

theorem getThread_incX_e (st : St) (p : Path) (d : Q) (q : Path) :
    getThread (incX st p d) q = getThread st q := by
  unfold incX
  refine getThread_keep st p _ ?_ q
  intro nv
  rfl

theorem getAnc_incX_e (st : St) (p : Path) (d : Q) (q : Path) :
    getAnc (incX st p d) q = getAnc st q := by
  unfold incX
  refine getAnc_keep st p _ ?_ q
  intro nv
  rfl

theorem getX_incX_n (st : St) (p : Path) (d : Q) {q : Path} (h : q ≠ p) :
    getX (incX st p d) q = getX st q := by
  unfold incX
  exact getX_ne st p _ h

theorem getX_incX_s (st : St) (p : Path) (d : Q) (hp : hasPath st p) :
    getX (incX st p d) p = getX st p + d := by
  unfold getX incX
  rw [getNV_setNV_self st p _ hp]

theorem getX_incMod_e (st : St) (p : Path) (d : Q) (q : Path) :
    getX (incMod st p d) q = getX st q := by
  unfold incMod
  refine getX_keep st p _ ?_ q
  intro nv
  rfl

theorem getY_incMod_e (st : St) (p : Path) (d : Q) (q : Path) :
    getY (incMod st p d) q = getY st q := by
  unfold incMod
  refine getY_keep st p _ ?_ q
  intro nv
  rfl

theorem getShift_incMod_e (st : St) (p : Path) (d : Q) (q : Path) :
    getShift (incMod st p d) q = getShift st q := by
  unfold incMod
  refine getShift_keep st p _ ?_ q
  intro nv
  rfl

theorem getChange_incMod_e (st : St) (p : Path) (d : Q) (q : Path) :
    getChange (incMod st p d) q = getChange st q := by
  unfold incMod
  refine getChange_keep st p _ ?_ q
  intro nv
  rfl

theorem getThread_incMod_e (st : St) (p : Path) (d : Q) (q : Path) :
    getThread (incMod st p d) q = getThread st q := by
  unfold incMod
  refine getThread_keep st p _ ?_ q
  intro nv
  rfl

theorem getAnc_incMod_e (st : St) (p : Path) (d : Q) (q : Path) :
    getAnc (incMod st p d) q = getAnc st q := by
  unfold incMod
  refine getAnc_keep st p _ ?_ q
  intro nv
  rfl

theorem getMod_incMod_n (st : St) (p : Path) (d : Q) {q : Path} (h : q ≠ p) :
    getMod (incMod st p d) q = getMod st q := by
  unfold incMod
  exact getMod_ne st p _ h

theorem getMod_incMod_s (st : St) (p : Path) (d : Q) (hp : hasPath st p) :
    getMod (incMod st p d) p = getMod st p + d := by
  unfold getMod incMod
  rw [getNV_setNV_self st p _ hp]

theorem getX_incShift_e (st : St) (p : Path) (d : Q) (q : Path) :
    getX (incShift st p d) q = getX st q := by
  unfold incShift
  refine getX_keep st p _ ?_ q
  intro nv
  rfl

theorem getY_incShift_e (st : St) (p : Path) (d : Q) (q : Path) :
    getY (incShift st p d) q = getY st q := by
  unfold incShift
  refine getY_keep st p _ ?_ q
  intro nv
  rfl

theorem getMod_incShift_e (st : St) (p : Path) (d : Q) (q : Path) :
    getMod (incShift st p d) q = getMod st q := by
  unfold incShift
  refine getMod_keep st p _ ?_ q
  intro nv
  rfl

theorem getChange_incShift_e (st : St) (p : Path) (d : Q) (q : Path) :
    getChange (incShift st p d) q = getChange st q := by
  unfold incShift
  refine getChange_keep st p _ ?_ q
  intro nv
  rfl

theorem getThread_incShift_e (st : St) (p : Path) (d : Q) (q : Path) :
    getThread (incShift st p d) q = getThread st q := by
  unfold incShift
  refine getThread_keep st p _ ?_ q
  intro nv
  rfl

theorem getAnc_incShift_e (st : St) (p : Path) (d : Q) (q : Path) :
    getAnc (incShift st p d) q = getAnc st q := by
  unfold incShift
  refine getAnc_keep st p _ ?_ q
  intro nv
  rfl

theorem getShift_incShift_n (st : St) (p : Path) (d : Q) {q : Path} (h : q ≠ p) :
    getShift (incShift st p d) q = getShift st q := by
  unfold incShift
  exact getShift_ne st p _ h

theorem getShift_incShift_s (st : St) (p : Path) (d : Q) (hp : hasPath st p) :
    getShift (incShift st p d) p = getShift st p + d := by
  unfold getShift incShift
  rw [getNV_setNV_self st p _ hp]

theorem getX_incChange_e (st : St) (p : Path) (d : Q) (q : Path) :
    getX (incChange st p d) q = getX st q := by
  unfold incChange
  refine getX_keep st p _ ?_ q
  intro nv
  rfl

theorem getY_incChange_e (st : St) (p : Path) (d : Q) (q : Path) :
    getY (incChange st p d) q = getY st q := by
  unfold incChange
  refine getY_keep st p _ ?_ q
  intro nv
  rfl

theorem getMod_incChange_e (st : St) (p : Path) (d : Q) (q : Path) :
    getMod (incChange st p d) q = getMod st q := by
  unfold incChange
  refine getMod_keep st p _ ?_ q
  intro nv
  rfl

theorem getShift_incChange_e (st : St) (p : Path) (d : Q) (q : Path) :
    getShift (incChange st p d) q = getShift st q := by
  unfold incChange
  refine getShift_keep st p _ ?_ q
  intro nv
  rfl

theorem getThread_incChange_e (st : St) (p : Path) (d : Q) (q : Path) :
    getThread (incChange st p d) q = getThread st q := by
  unfold incChange
  refine getThread_keep st p _ ?_ q
  intro nv
  rfl

theorem getAnc_incChange_e (st : St) (p : Path) (d : Q) (q : Path) :
    getAnc (incChange st p d) q = getAnc st q := by
  unfold incChange
  refine getAnc_keep st p _ ?_ q
  intro nv
  rfl

theorem getChange_incChange_n (st : St) (p : Path) (d : Q) {q : Path} (h : q ≠ p) :
    getChange (incChange st p d) q = getChange st q := by
  unfold incChange
  exact getChange_ne st p _ h

theorem getChange_incChange_s (st : St) (p : Path) (d : Q) (hp : hasPath st p) :
    getChange (incChange st p d) p = getChange st p + d := by
  unfold getChange incChange
  rw [getNV_setNV_self st p _ hp]

theorem getX_setThread_e (st : St) (p : Path) (t : Option Path) (q : Path) :
    getX (setThread st p t) q = getX st q := by
  unfold setThread
  refine getX_keep st p _ ?_ q
  intro nv
  rfl

theorem getY_setThread_e (st : St) (p : Path) (t : Option Path) (q : Path) :
    getY (setThread st p t) q = getY st q := by
  unfold setThread
  refine getY_keep st p _ ?_ q
  intro nv
  rfl

theorem getMod_setThread_e (st : St) (p : Path) (t : Option Path) (q : Path) :
    getMod (setThread st p t) q = getMod st q := by
  unfold setThread
  refine getMod_keep st p _ ?_ q
  intro nv
  rfl

theorem getShift_setThread_e (st : St) (p : Path) (t : Option Path) (q : Path) :
    getShift (setThread st p t) q = getShift st q := by
  unfold setThread
  refine getShift_keep st p _ ?_ q
  intro nv
  rfl

theorem getChange_setThread_e (st : St) (p : Path) (t : Option Path) (q : Path) :
    getChange (setThread st p t) q = getChange st q := by
  unfold setThread
  refine getChange_keep st p _ ?_ q
  intro nv
  rfl

theorem getAnc_setThread_e (st : St) (p : Path) (t : Option Path) (q : Path) :
    getAnc (setThread st p t) q = getAnc st q := by
  unfold setThread
  refine getAnc_keep st p _ ?_ q
  intro nv
  rfl

theorem getThread_setThread_n (st : St) (p : Path) (t : Option Path) {q : Path} (h : q ≠ p) :
    getThread (setThread st p t) q = getThread st q := by
  unfold setThread
  exact getThread_ne st p _ h

theorem getThread_setThread_s (st : St) (p : Path) (t : Option Path) (hp : hasPath st p) :
    getThread (setThread st p t) p = t := by
  unfold getThread setThread
  rw [getNV_setNV_self st p _ hp]

theorem getX_setAnc_e (st : St) (p : Path) (a : Path) (q : Path) :
    getX (setAnc st p a) q = getX st q := by
  unfold setAnc
  refine getX_keep st p _ ?_ q
  intro nv
  rfl

theorem getY_setAnc_e (st : St) (p : Path) (a : Path) (q : Path) :
    getY (setAnc st p a) q = getY st q := by
  unfold setAnc
  refine getY_keep st p _ ?_ q
  intro nv
  rfl

theorem getMod_setAnc_e (st : St) (p : Path) (a : Path) (q : Path) :
    getMod (setAnc st p a) q = getMod st q := by
  unfold setAnc
  refine getMod_keep st p _ ?_ q
  intro nv
  rfl

theorem getShift_setAnc_e (st : St) (p : Path) (a : Path) (q : Path) :
    getShift (setAnc st p a) q = getShift st q := by
  unfold setAnc
  refine getShift_keep st p _ ?_ q
  intro nv
  rfl

theorem getChange_setAnc_e (st : St) (p : Path) (a : Path) (q : Path) :
    getChange (setAnc st p a) q = getChange st q := by
  unfold setAnc
  refine getChange_keep st p _ ?_ q
  intro nv
  rfl

theorem getThread_setAnc_e (st : St) (p : Path) (a : Path) (q : Path) :
    getThread (setAnc st p a) q = getThread st q := by
  unfold setAnc
  refine getThread_keep st p _ ?_ q
  intro nv
  rfl

theorem getAnc_setAnc_n (st : St) (p : Path) (a : Path) {q : Path} (h : q ≠ p) :
    getAnc (setAnc st p a) q = getAnc st q := by
  unfold setAnc
  exact getAnc_ne st p _ h

theorem getAnc_setAnc_s (st : St) (p : Path) (a : Path) (hp : hasPath st p) :
    getAnc (setAnc st p a) p = a := by
  unfold getAnc setAnc
  rw [getNV_setNV_self st p _ hp]

theorem hasPath_setX_iff (st : St) (p : Path) (v) (q : Path) :
    hasPath (setX st p v) q ↔ hasPath st q := by
  unfold setX
  exact hasPath_setNV st p q _

theorem hasPath_setY_iff (st : St) (p : Path) (v) (q : Path) :
    hasPath (setY st p v) q ↔ hasPath st q := by
  unfold setY
  exact hasPath_setNV st p q _

theorem hasPath_setMod_iff (st : St) (p : Path) (v) (q : Path) :
    hasPath (setMod st p v) q ↔ hasPath st q := by
  unfold setMod
  exact hasPath_setNV st p q _

theorem hasPath_incX_iff (st : St) (p : Path) (v) (q : Path) :
    hasPath (incX st p v) q ↔ hasPath st q := by
  unfold incX
  exact hasPath_setNV st p q _

theorem hasPath_incMod_iff (st : St) (p : Path) (v) (q : Path) :
    hasPath (incMod st p v) q ↔ hasPath st q := by
  unfold incMod
  exact hasPath_setNV st p q _

theorem hasPath_incShift_iff (st : St) (p : Path) (v) (q : Path) :
    hasPath (incShift st p v) q ↔ hasPath st q := by
  unfold incShift
  exact hasPath_setNV st p q _

theorem hasPath_incChange_iff (st : St) (p : Path) (v) (q : Path) :
    hasPath (incChange st p v) q ↔ hasPath st q := by
  unfold incChange
  exact hasPath_setNV st p q _

theorem hasPath_setThread_iff (st : St) (p : Path) (v) (q : Path) :
    hasPath (setThread st p v) q ↔ hasPath st q := by
  unfold setThread
  exact hasPath_setNV st p q _

theorem hasPath_setAnc_iff (st : St) (p : Path) (v) (q : Path) :
    hasPath (setAnc st p v) q ↔ hasPath st q := by
  unfold setAnc
  exact hasPath_setNV st p q _

theorem stPD_setX (st : St) (p : Path) (v : Q) (h : stPD st) (hv : v.pd) :
    stPD (setX st p v) := by
  refine stPD_setNV st p _ h ?_
  intro nv h1 h2 h3 h4
  exact ⟨hv, h2, h3, h4⟩

theorem stPD_setY (st : St) (p : Path) (v : Q) (h : stPD st)  :
    stPD (setY st p v) := by
  unfold setY
  refine stPD_setNV st p _ h ?_
  intro nv h1 h2 h3 h4
  exact ⟨h1, h2, h3, h4⟩

theorem stPD_setMod (st : St) (p : Path) (v : Q) (h : stPD st) (hv : v.pd) :
    stPD (setMod st p v) := by
  refine stPD_setNV st p _ h ?_
  intro nv h1 h2 h3 h4
  exact ⟨h1, hv, h3, h4⟩

theorem stPD_incX (st : St) (p : Path) (d : Q) (h : stPD st) (hd : d.pd) :
    stPD (incX st p d) := by
  refine stPD_setNV st p _ h ?_
  intro nv h1 h2 h3 h4
  exact ⟨Q.pd_add h1 hd, h2, h3, h4⟩

theorem stPD_incMod (st : St) (p : Path) (d : Q) (h : stPD st) (hd : d.pd) :
    stPD (incMod st p d) := by
  refine stPD_setNV st p _ h ?_
  intro nv h1 h2 h3 h4
  exact ⟨h1, Q.pd_add h2 hd, h3, h4⟩

theorem stPD_incShift (st : St) (p : Path) (d : Q) (h : stPD st) (hd : d.pd) :
    stPD (incShift st p d) := by
  refine stPD_setNV st p _ h ?_
  intro nv h1 h2 h3 h4
  exact ⟨h1, h2, Q.pd_add h3 hd, h4⟩

theorem stPD_incChange (st : St) (p : Path) (d : Q) (h : stPD st) (hd : d.pd) :
    stPD (incChange st p d) := by
  refine stPD_setNV st p _ h ?_
  intro nv h1 h2 h3 h4
  exact ⟨h1, h2, h3, Q.pd_add h4 hd⟩

theorem stPD_setThread (st : St) (p : Path) (t : Option Path) (h : stPD st)  :
    stPD (setThread st p t) := by
  unfold setThread
  refine stPD_setNV st p _ h ?_
  intro nv h1 h2 h3 h4
  exact ⟨h1, h2, h3, h4⟩

theorem stPD_setAnc (st : St) (p : Path) (a : Path) (h : stPD st)  :
    stPD (setAnc st p a) := by
  unfold setAnc
  refine stPD_setNV st p _ h ?_
  intro nv h1 h2 h3 h4
  exact ⟨h1, h2, h3, h4⟩

/-! ### Effect of `_shift_subtrees` -/

theorem ss_x_ne (wl wr : Path) (A : Q) (st : St) {q : Path} (h : q ≠ wr) :
    getX (shiftSubtrees wl wr A st) q = getX st q := by
  simp only [shiftSubtrees]
  rw [getX_incMod_e, getX_incX_n _ _ _ h, getX_incChange_e, getX_incChange_e,
    getX_incShift_e]

theorem ss_shift_ne (wl wr : Path) (A : Q) (st : St) {q : Path} (h : q ≠ wr) :
    getShift (shiftSubtrees wl wr A st) q = getShift st q := by
  simp only [shiftSubtrees]
  rw [getShift_incMod_e, getShift_incX_e, getShift_incChange_e,
    getShift_incChange_e, getShift_incShift_n _ _ _ h]

theorem ss_mod_ne (wl wr : Path) (A : Q) (st : St) {q : Path} (h : q ≠ wr) :
    getMod (shiftSubtrees wl wr A st) q = getMod st q := by
  simp only [shiftSubtrees]
  rw [getMod_incMod_n _ _ _ h, getMod_incX_e, getMod_incChange_e,
    getMod_incChange_e, getMod_incShift_e]

theorem ss_change_ne (wl wr : Path) (A : Q) (st : St) {q : Path}
    (h1 : q ≠ wr) (h2 : q ≠ wl) :
    getChange (shiftSubtrees wl wr A st) q = getChange st q := by
  simp only [shiftSubtrees]
  rw [getChange_incMod_e, getChange_incX_e, getChange_incChange_n _ _ _ h2,
    getChange_incChange_n _ _ _ h1, getChange_incShift_e]

theorem ss_th (wl wr : Path) (A : Q) (st : St) (q : Path) :
    getThread (shiftSubtrees wl wr A st) q = getThread st q := by
  simp only [shiftSubtrees]
  rw [getThread_incMod_e, getThread_incX_e, getThread_incChange_e,
    getThread_incChange_e, getThread_incShift_e]

theorem ss_anc (wl wr : Path) (A : Q) (st : St) (q : Path) :
    getAnc (shiftSubtrees wl wr A st) q = getAnc st q := by
  simp only [shiftSubtrees]
  rw [getAnc_incMod_e, getAnc_incX_e, getAnc_incChange_e, getAnc_incChange_e,
    getAnc_incShift_e]

theorem ss_y (wl wr : Path) (A : Q) (st : St) (q : Path) :
    getY (shiftSubtrees wl wr A st) q = getY st q := by
  simp only [shiftSubtrees]
  rw [getY_incMod_e, getY_incX_e, getY_incChange_e, getY_incChange_e,
    getY_incShift_e]

theorem hasPath_ss_iff (wl wr : Path) (A : Q) (st : St) (q : Path) :
    hasPath (shiftSubtrees wl wr A st) q ↔ hasPath st q := by
  unfold hasPath
  rw [keys_shiftSubtrees]

theorem ss_x_self (wl wr : Path) (A : Q) (st : St) (hp : hasPath st wr) :
    getX (shiftSubtrees wl wr A st) wr = getX st wr + A := by
  simp only [shiftSubtrees]
  rw [getX_incMod_e,
    getX_incX_s _ _ _ (by
      simp only [hasPath_incChange_iff, hasPath_incShift_iff]; exact hp),
    getX_incChange_e, getX_incChange_e, getX_incShift_e]

theorem ss_shift_self (wl wr : Path) (A : Q) (st : St) (hp : hasPath st wr) :
    getShift (shiftSubtrees wl wr A st) wr = getShift st wr + A := by
  simp only [shiftSubtrees]
  rw [getShift_incMod_e, getShift_incX_e, getShift_incChange_e,
    getShift_incChange_e, getShift_incShift_s _ _ _ hp]

theorem ss_mod_self (wl wr : Path) (A : Q) (st : St) (hp : hasPath st wr) :
    getMod (shiftSubtrees wl wr A st) wr = getMod st wr + A := by
  simp only [shiftSubtrees]
  rw [getMod_incMod_s _ _ _ (by
      simp only [hasPath_incX_iff, hasPath_incChange_iff,
        hasPath_incShift_iff]; exact hp),
    getMod_incX_e, getMod_incChange_e, getMod_incChange_e, getMod_incShift_e]

theorem ss_change_wr (wl wr : Path) (A : Q) (st : St) (hlr : wl ≠ wr)
    (hp : hasPath st wr) :
    getChange (shiftSubtrees wl wr A st) wr =
      getChange st wr +
        (-(A / Q.ofInt ((wr.headD 0 : Int) - (wl.headD 0 : Int)))) := by
  simp only [shiftSubtrees]
  rw [getChange_incMod_e, getChange_incX_e,
    getChange_incChange_n _ _ _ (Ne.symm hlr),
    getChange_incChange_s _ _ _ (by
      simp only [hasPath_incShift_iff]; exact hp),
    getChange_incShift_e]

theorem ss_change_wl (wl wr : Path) (A : Q) (st : St) (hlr : wl ≠ wr)
    (hp : hasPath st wl) :
    getChange (shiftSubtrees wl wr A st) wl =
      getChange st wl +
        (A / Q.ofInt ((wr.headD 0 : Int) - (wl.headD 0 : Int))) := by
  simp only [shiftSubtrees]
  rw [getChange_incMod_e, getChange_incX_e,
    getChange_incChange_s _ _ _ (by
      simp only [hasPath_incChange_iff, hasPath_incShift_iff]; exact hp),
    getChange_incChange_n _ _ _ hlr, getChange_incShift_e]

theorem ss_pd (wl wr : Path) (A : Q) (st : St) (h : stPD st) (hA : A.pd)
    (hnum : ((wr.headD 0 : Int) - (wl.headD 0 : Int)) ≠ 0) :
    stPD (shiftSubtrees wl wr A st) := by
  have hdiv : (A / Q.ofInt ((wr.headD 0 : Int) - (wl.headD 0 : Int))).pd :=
    Q.pd_div hA hnum
  simp only [shiftSubtrees]
  exact stPD_incMod _ _ _ (stPD_incX _ _ _ (stPD_incChange _ _ _
    (stPD_incChange _ _ _ (stPD_incShift _ _ _ h hA) (Q.pd_neg hdiv)) hdiv)
    hA) hA

/-! ### Change-sum algebra -/

theorem sum_map_sub {α : Type} (l : List α) (f g : α → ℚ) :
    (l.map (fun x => f x - g x)).sum = (l.map f).sum - (l.map g).sum := by
  induction l with
  | nil => simp
  | cons a l ih =>
      simp only [List.map_cons, List.sum_cons, ih]
      ring

theorem sum_single {l : List Nat} (hnd : l.Nodup) (j : Nat) (c : ℚ) :
    (l.map (fun i => if i = j then c else 0)).sum =
      if j ∈ l then c else 0 := by
  induction l with
  | nil => simp
  | cons a l ih =>
      rw [List.nodup_cons] at hnd
      simp only [List.map_cons, List.sum_cons, ih hnd.2, List.mem_cons]
      by_cases ha : a = j
      · subst ha
        rw [if_pos rfl, if_pos (Or.inl rfl), if_neg hnd.1]
        ring
      · rw [if_neg ha]
        by_cases hj : j ∈ l
        · rw [if_pos hj, if_pos (Or.inr hj)]
          ring
        · rw [if_neg hj, if_neg (by
            intro hc
            rcases hc with hc | hc
            · exact ha hc.symm
            · exact hj hc)]
          ring

theorem chRun_congr {st2 st1 : St} {p : Path} {m k : Nat}
    (h : ∀ i, m ≤ i → i < m + k → getChange st2 (i :: p) = getChange st1 (i :: p)) :
    chRun st2 p m k = chRun st1 p m k := by
  unfold chRun
  congr 1
  apply List.map_congr_left
  intro i hi
  rw [List.mem_range'_1] at hi
  rw [h i hi.1 hi.2]

theorem sum_map_add {α : Type} (l : List α) (f g : α → ℚ) :
    (l.map (fun x => f x + g x)).sum = (l.map f).sum + (l.map g).sum := by
  induction l with
  | nil => simp
  | cons a l ih =>
      simp only [List.map_cons, List.sum_cons, ih]
      ring

theorem ss_chRun_le (p : Path) (a j n : Nat) (A : Q) (st : St)
    (haj : a < j) (hjn : j < n)
    (hpa : hasPath st (a :: p)) (hpj : hasPath st (j :: p))
    (hpd : stPD st) (hA : A.pd) (hAval : 0 ≤ A.val) (m : Nat) :
    chRun (shiftSubtrees (a :: p) (j :: p) A st) p m (n - m) ≤
      chRun st p m (n - m) := by
  have hne : (a : Nat) :: p ≠ j :: p := by
    intro h
    injection h with h1 _
    omega
  have hnum : ((((j : Nat) :: p).headD 0 : Int) -
      (((a : Nat) :: p).headD 0 : Int)) ≠ 0 := by
    simp only [List.headD_cons]
    omega
  have hsd : (A / Q.ofInt ((((j : Nat) :: p).headD 0 : Int) -
      (((a : Nat) :: p).headD 0 : Int))).pd := Q.pd_div hA hnum
  set w : ℚ := (A / Q.ofInt ((((j : Nat) :: p).headD 0 : Int) -
      (((a : Nat) :: p).headD 0 : Int))).val with hw
  have hw0 : 0 ≤ w := by
    rw [hw, Q.val_div hA (Q.pd_ofInt _) hnum, Q.val_ofInt]
    apply div_nonneg hAval
    simp only [List.headD_cons]
    push_cast
    have : (a : ℚ) ≤ (j : ℚ) := by exact_mod_cast le_of_lt haj
    linarith
  have hdiff : ∀ i : Nat,
      (getChange (shiftSubtrees (a :: p) (j :: p) A st) (i :: p)).val =
      (getChange st (i :: p)).val +
        ((if i = j then -w else 0) + (if i = a then w else 0)) := by
    intro i
    by_cases hij : i = j
    · subst hij
      rw [ss_change_wr _ _ _ _ hne hpj, if_pos rfl, if_neg (by omega),
        Q.val_add (hpd _).2.2.2 (Q.pd_neg hsd), Q.val_neg]
      rw [hw]
      ring
    · by_cases hia : i = a
      · subst hia
        rw [ss_change_wl _ _ _ _ hne hpa, if_neg hij, if_pos rfl,
          Q.val_add (hpd _).2.2.2 hsd]
        rw [hw]
        ring
      · rw [ss_change_ne _ _ _ _
            (by intro h; injection h with h1 _; exact hij h1)
            (by intro h; injection h with h1 _; exact hia h1),
          if_neg hij, if_neg hia]
        ring
  unfold chRun
  have hmap : ((List.range' m (n - m)).map
      (fun i => (getChange (shiftSubtrees (a :: p) (j :: p) A st) (i :: p)).val)) =
      ((List.range' m (n - m)).map
      (fun i => (getChange st (i :: p)).val +
        ((if i = j then -w else 0) + (if i = a then w else 0)))) := by
    apply List.map_congr_left
    intro i _
    exact hdiff i
  rw [hmap, sum_map_add (List.range' m (n - m))
      (fun i => (getChange st (i :: p)).val)
      (fun i => (if i = j then -w else 0) + (if i = a then w else 0)),
    sum_map_add (List.range' m (n - m))
      (fun i => if i = j then -w else 0)
      (fun i => if i = a then w else 0),
    sum_single (List.nodup_range' m (n - m) 1) j (-w),
    sum_single (List.nodup_range' m (n - m) 1) a w]
  by_cases hain : a ∈ List.range' m (n - m)
  · have hjin : j ∈ List.range' m (n - m) := by
      rw [List.mem_range'_1] at hain ⊢
      omega
    rw [if_pos hjin, if_pos hain]
    linarith
  · rw [if_neg hain]
    by_cases hjin : j ∈ List.range' m (n - m)
    · rw [if_pos hjin]
      linarith
    · rw [if_neg hjin]
      linarith

/-! ### Apportionment effect: composition and single steps -/

theorem APost_refl (p : Path) (j n : Nat) (st : St) : APost p j n st st := by
  refine ⟨⟨0, by ring, by ring⟩, ?_, ?_, ?_, ?_, ?_, ?_, ?_, ?_, ?_, ?_⟩ <;>
    intros <;> first | rfl | exact le_refl _ | exact Or.inl (by assumption)

theorem APost_trans {p : Path} {j n : Nat} {stA stB stC : St}
    (h1 : APost p j n stA stB) (h2 : APost p j n stB stC) :
    APost p j n stA stC := by
  obtain ⟨d1, hx1, hs1⟩ := h1.dxs
  obtain ⟨d2, hx2, hs2⟩ := h2.dxs
  refine ⟨⟨d1 + d2, ?_, ?_⟩, ?_, ?_, ?_, ?_, ?_, ?_, ?_, ?_, ?_, ?_⟩
  · rw [hx2, hx1]; ring
  · rw [hs2, hs1]; ring
  · intro q hq; rw [h2.xf q hq, h1.xf q hq]
  · intro q hq; rw [h2.sf q hq, h1.sf q hq]
  · intro q hq; rw [h2.cf q hq, h1.cf q hq]
  · intro m; exact le_trans (h2.csum m) (h1.csum m)
  · intro q hq; rw [h2.mf q hq, h1.mf q hq]
  · intro q hq; rw [h2.thKeep q hq, h1.thKeep q hq]
  · intro q t ht
    rcases h2.thNew q t ht with hB | hnew
    · exact h1.thNew q t hB
    · exact Or.inr hnew
  · intro q hq; rw [h2.af q hq, h1.af q hq]
  · intro q; rw [h2.yf q, h1.yf q]
  · rw [h2.keys, h1.keys]

theorem APost_setAnc (p : Path) (j n : Nat) (st : St) {tgt : Path}
    (v : Path) (hin : inSub (j :: p) tgt) :
    APost p j n st (setAnc st tgt v) := by
  refine ⟨⟨0, ?_, ?_⟩, ?_, ?_, ?_, ?_, ?_, ?_, ?_, ?_, ?_, ?_⟩
  · rw [getX_setAnc_e]; ring
  · rw [getShift_setAnc_e]; ring
  · intro q _; rw [getX_setAnc_e]
  · intro q _; rw [getShift_setAnc_e]
  · intro q _; rw [getChange_setAnc_e]
  · intro m
    rw [chRun_congr (fun i _ _ => getChange_setAnc_e st tgt v (i :: p))]
  · intro q _; rw [getMod_setAnc_e]
  · intro q _; rw [getThread_setAnc_e]
  · intro q t ht; rw [getThread_setAnc_e] at ht; exact Or.inl ht
  · intro q hq
    exact getAnc_setAnc_n st tgt v (fun hq2 => hq (hq2 ▸ hin))
  · intro q; rw [getY_setAnc_e]
  · unfold setAnc; rw [keys_setNV]

theorem ancSub_setAnc {st : St} (h : ancSub st) {tgt v : Path}
    (hin : inSub v tgt) : ancSub (setAnc st tgt v) := by
  intro q
  unfold getAnc setAnc
  rw [getNV_op]
  split
  · next hcond =>
      obtain ⟨hq, _⟩ := hcond
      subst hq
      exact Or.inr hin
  · exact h q

theorem nextRight_cases {root : LayoutTree} {st : St} {q r : Path}
    (h : nextRight root st q = some r) :
    getThread st q = some r ∨ r = (cnt root q - 1) :: q := by
  unfold nextRight at h
  by_cases hc : cnt root q = 0
  · rw [if_pos hc] at h
    exact Or.inl h
  · rw [if_neg hc] at h
    injection h with h2
    exact Or.inr h2.symm

theorem nextLeft_cases {root : LayoutTree} {st : St} {q r : Path}
    (h : nextLeft root st q = some r) :
    getThread st q = some r ∨ r = 0 :: q := by
  unfold nextLeft at h
  by_cases hc : cnt root q = 0
  · rw [if_pos hc] at h
    exact Or.inl h
  · rw [if_neg hc] at h
    injection h with h2
    exact Or.inr h2.symm

theorem anc_choice {root : LayoutTree} {st : St} {p : Path} {j : Nat}
    {vil2 dA : Path} {mA : Nat} (hanc : ancSub st)
    (hvil : inForest p j vil2) (hdA : dA = mA :: p) (hmA : mA < j) :
    ∃ aIdx : Nat, aIdx < j ∧
      ancestorOf root st vil2 (j :: p) dA = aIdx :: p := by
  unfold ancestorOf
  simp only [List.tail_cons]
  by_cases hg : getAnc st vil2 ∈ (List.range (cnt root p)).map (· :: p)
  · rw [if_pos hg]
    rw [List.mem_map] at hg
    obtain ⟨m, _, hganc⟩ := hg
    obtain ⟨m2, hm2, hsubF⟩ := hvil
    rcases hanc vil2 with hself | hsub
    · have hvv : vil2 = m :: p := hself.symm.trans hganc.symm
      rw [hvv] at hsubF
      have hmm : m2 = m := child_discrim hsubF (inSub_refl (m :: p))
      exact ⟨m, by omega, hganc.symm⟩
    · rw [← hganc] at hsub
      have hmm : m = m2 := child_discrim hsub hsubF
      exact ⟨m, by omega, hganc.symm⟩
  · rw [if_neg hg]
    exact ⟨mA, hmA, hdA⟩

theorem APost_ss (root : LayoutTree) (p : Path) {j n : Nat} (aIdx : Nat)
    (hn : cnt root p = n) (hja : aIdx < j) (hjn : j < n) (A : Q)
    (st : St) (hpd : stPD st) (hA : A.pd) (hA0 : 0 ≤ A.val)
    (hkeys : ∀ q, (getLT root q).isSome → hasPath st q) :
    APost p j n st (shiftSubtrees (aIdx :: p) (j :: p) A st) := by
  have hpj : hasPath st (j :: p) :=
    hkeys _ (valid_child_of_lt (by rw [hn]; exact hjn))
  have hpa : hasPath st (aIdx :: p) :=
    hkeys _ (valid_child_of_lt (by rw [hn]; omega))
  have hne : (aIdx : Nat) :: p ≠ j :: p := by
    intro h
    injection h with h1 _
    omega
  refine ⟨⟨A.val, ?_, ?_⟩, ?_, ?_, ?_, ?_, ?_, ?_, ?_, ?_, ?_, ?_⟩
  · rw [ss_x_self _ _ _ _ hpj, Q.val_add (hpd _).1 hA]
  · rw [ss_shift_self _ _ _ _ hpj, Q.val_add (hpd _).2.2.1 hA]
  · intro q hq; exact ss_x_ne _ _ _ _ hq
  · intro q hq; exact ss_shift_ne _ _ _ _ hq
  · intro q hq
    exact ss_change_ne _ _ _ _ (hq j (le_refl j)) (hq aIdx (by omega))
  · exact ss_chRun_le p aIdx j n A st hja hjn hpa hpj hpd hA hA0
  · intro q hq
    refine ss_mod_ne _ _ _ _ (fun h => hq (Or.inr ?_))
    rw [h]
    exact inSub_refl _
  · intro q _; exact ss_th _ _ _ _ q
  · intro q t ht
    rw [ss_th] at ht
    exact Or.inl ht
  · intro q _; exact ss_anc _ _ _ _ q
  · intro q; exact ss_y _ _ _ _ q
  · exact keys_shiftSubtrees _ _ _ _

theorem apportionLoop_main (root : LayoutTree) (p : Path) {j n : Nat}
    (hn : cnt root p = n) (hjn : j < n)
    (dxQ : Q) (hdx : dxQ.pd) {dA : Path} {mA : Nat} (hdA : dA = mA :: p)
    (hmA : mA < j) :
    ∀ (fuel : Nat) (a : AS), ALInv root p j a →
      ALInv root p j (apportionLoop root dxQ (j :: p) dA fuel a) ∧
      APost p j n a.st (apportionLoop root dxQ (j :: p) dA fuel a).st := by
  intro fuel
  induction fuel with
  | zero => intro a ha; exact ⟨ha, APost_refl p j n a.st⟩
  | succ fuel ih =>
      intro a ha
      simp only [apportionLoop]
      cases h1 : nextRight root a.st a.vil with
      | none => exact ⟨ha, APost_refl p j n a.st⟩
      | some vil2 =>
      cases h2 : nextLeft root a.st a.vir with
      | none => exact ⟨ha, APost_refl p j n a.st⟩
      | some vir2 =>
      cases h3 : nextLeft root a.st a.vol with
      | none => exact ⟨ha, APost_refl p j n a.st⟩
      | some vol2 =>
      cases h4 : nextRight root a.st a.vor with
      | none => exact ⟨ha, APost_refl p j n a.st⟩
      | some vor2 =>
      have hvil2F : inForest p j vil2 := by
        rcases nextRight_cases h1 with hth | hch
        · exact ha.lst.thF _ _ hth ha.ivil
        · rw [hch]; exact inForest_cons ha.ivil _
      have hvir2S : inSub (j :: p) vir2 := by
        rcases nextLeft_cases h2 with hth | hch
        · exact ha.lst.thV _ _ hth ha.ivir
        · rw [hch]; exact inSub_cons ha.ivir _
      have hvol2F : inForest p j vol2 := by
        rcases nextLeft_cases h3 with hth | hch
        · exact ha.lst.thF _ _ hth ha.ivol
        · rw [hch]; exact inForest_cons ha.ivol _
      have hvor2S : inSub (j :: p) vor2 := by
        rcases nextRight_cases h4 with hth | hch
        · exact ha.lst.thV _ _ hth ha.ivor
        · rw [hch]; exact inSub_cons ha.ivor _
      dsimp only
      set st1 := setAnc a.st vor2 (j :: p) with hst1
      set sh := getX st1 vil2 + a.sil - (getX st1 vir2 + a.sir) + dxQ with hsh
      have hpd1 : stPD st1 := by
        rw [hst1]; exact stPD_setAnc _ _ _ ha.lst.pd
      have hth1 : ∀ q, getThread st1 q = getThread a.st q := fun q => by
        rw [hst1]; exact getThread_setAnc_e _ _ _ q
      have hanc1 : ancSub st1 := by
        rw [hst1]; exact ancSub_setAnc ha.lst.ancS hvor2S
      have hkeys1 : ∀ q, (getLT root q).isSome → hasPath st1 q := fun q hq => by
        rw [hst1, hasPath_setAnc_iff]; exact ha.lst.keysOK q hq
      have hAP1 : APost p j n a.st st1 := by
        rw [hst1]; exact APost_setAnc p j n a.st (j :: p) hvor2S
      have hshpd : sh.pd := by
        rw [hsh]
        exact Q.pd_add (Q.pd_sub (Q.pd_add (hpd1 _).1 ha.pdil)
          (Q.pd_add (hpd1 _).1 ha.pdir)) hdx
      by_cases hguard : Q.lt 0 sh
      · rw [if_pos hguard]
        obtain ⟨aIdx, haj, hancEq⟩ :=
          @anc_choice root _ _ _ _ _ _ hanc1 hvil2F hdA hmA
        rw [hancEq]
        dsimp only
        have hA0 : 0 ≤ sh.val := by
          have hv := (Q.lt_iff_val Q.pd_zero hshpd).mp hguard
          rw [Q.val_zero] at hv
          exact le_of_lt hv
        have hAP2 : APost p j n st1 (shiftSubtrees (aIdx :: p) (j :: p) sh st1) :=
          APost_ss root p aIdx hn haj hjn sh st1 hpd1 hshpd hA0 hkeys1
        set st2 := shiftSubtrees (aIdx :: p) (j :: p) sh st1 with hst2
        have hpd2 : stPD st2 := by
          rw [hst2]
          refine ss_pd _ _ _ _ hpd1 hshpd ?_
          simp only [List.headD_cons]
          omega
        have hth2 : ∀ q, getThread st2 q = getThread a.st q := fun q => by
          rw [hst2, ss_th, hth1]
        have hanc2 : ancSub st2 := fun q => by
          have he : getAnc st2 q = getAnc st1 q := by
            rw [hst2]; exact ss_anc _ _ _ _ q
          rw [he]
          exact hanc1 q
        have hkeys2 : ∀ q, (getLT root q).isSome → hasPath st2 q :=
          fun q hq => by
            rw [hst2, hasPath_ss_iff]
            exact hkeys1 q hq
        have hnew : ALInv root p j
            (⟨vil2, vir2, vol2, vor2, a.sil + getMod st2 vil2, a.sir + sh + getMod st2 vir2, a.sol + getMod st2 vol2, a.sor + sh + getMod st2 vor2, st2⟩ : AS) := by
          refine ⟨⟨?_, ?_, hanc2, hpd2, hkeys2⟩,
            hvil2F, hvol2F, hvir2S, hvor2S, ?_, ?_, ?_, ?_⟩
          · intro q t ht hq
            rw [hth2 q] at ht
            exact ha.lst.thF q t ht hq
          · intro q t ht hq
            rw [hth2 q] at ht
            exact ha.lst.thV q t ht hq
          · exact Q.pd_add ha.pdil (hpd2 _).2.1
          · exact Q.pd_add (Q.pd_add ha.pdir hshpd) (hpd2 _).2.1
          · exact Q.pd_add ha.pdol (hpd2 _).2.1
          · exact Q.pd_add (Q.pd_add ha.pdor hshpd) (hpd2 _).2.1
        have hstep := ih (⟨vil2, vir2, vol2, vor2, a.sil + getMod st2 vil2, a.sir + sh + getMod st2 vir2, a.sol + getMod st2 vol2, a.sor + sh + getMod st2 vor2, st2⟩ : AS) hnew
        exact ⟨hstep.1, APost_trans (APost_trans hAP1 hAP2) hstep.2⟩
      · rw [if_neg hguard]
        dsimp only
        have hnew : ALInv root p j
            (⟨vil2, vir2, vol2, vor2, a.sil + getMod st1 vil2, a.sir + getMod st1 vir2, a.sol + getMod st1 vol2, a.sor + getMod st1 vor2, st1⟩ : AS) := by
          refine ⟨⟨?_, ?_, hanc1, hpd1, hkeys1⟩,
            hvil2F, hvol2F, hvir2S, hvor2S, ?_, ?_, ?_, ?_⟩
          · intro q t ht hq
            rw [hth1 q] at ht
            exact ha.lst.thF q t ht hq
          · intro q t ht hq
            rw [hth1 q] at ht
            exact ha.lst.thV q t ht hq
          · exact Q.pd_add ha.pdil (hpd1 _).2.1
          · exact Q.pd_add ha.pdir (hpd1 _).2.1
          · exact Q.pd_add ha.pdol (hpd1 _).2.1
          · exact Q.pd_add ha.pdor (hpd1 _).2.1
        have hstep := ih (⟨vil2, vir2, vol2, vor2, a.sil + getMod st1 vil2, a.sir + getMod st1 vir2, a.sol + getMod st1 vol2, a.sor + getMod st1 vor2, st1⟩ : AS) hnew
        exact ⟨hstep.1, APost_trans hAP1 hstep.2⟩

theorem inForest_succ {p : Path} {j : Nat} {q : Path} :
    inForest p (j + 1) q ↔ inForest p j q ∨ inSub (j :: p) q := by
  constructor
  · rintro ⟨m, hm, hs⟩
    by_cases hmj : m = j
    · subst hmj
      exact Or.inr hs
    · exact Or.inl ⟨m, by omega, hs⟩
  · rintro (⟨m, hm, hs⟩ | hs)
    · exact ⟨m, by omega, hs⟩
    · exact ⟨j, by omega, hs⟩

theorem getThread_setThread_abs (st : St) (p : Path) (v : Option Path)
    (hp : ¬ hasPath st p) (q : Path) :
    getThread (setThread st p v) q = getThread st q := by
  unfold getThread setThread
  rw [getNV_setNV_absent st p _ hp q]

theorem apportion_main (root : LayoutTree) (p : Path) {k n : Nat}
    (hn : cnt root p = n) (hjn : k + 1 < n) (fuel : Nat)
    (dxQ : Q) (hdx : dxQ.pd) (st : St) {dA : Path} {mA : Nat}
    (hdA : dA = mA :: p) (hmA : mA < k + 1)
    (hlst : LSt root p (k + 1) st) :
    APost p (k + 1) n st (apportion fuel root dxQ ((k + 1) :: p) dA st).1 ∧
    stPD (apportion fuel root dxQ ((k + 1) :: p) dA st).1 ∧
    ancSub (apportion fuel root dxQ ((k + 1) :: p) dA st).1 ∧
    (∀ q, (getLT root q).isSome →
      hasPath (apportion fuel root dxQ ((k + 1) :: p) dA st).1 q) ∧
    ((apportion fuel root dxQ ((k + 1) :: p) dA st).2 = dA ∨
      (apportion fuel root dxQ ((k + 1) :: p) dA st).2 = (k + 1) :: p) := by
  have ha0 : ALInv root p (k + 1)
      (⟨k :: p, (k + 1) :: p, 0 :: p, (k + 1) :: p, getMod st (k :: p),
        getMod st ((k + 1) :: p), getMod st (0 :: p),
        getMod st ((k + 1) :: p), st⟩ : AS) := by
    refine ⟨hlst, inForest_child (by omega), inForest_child (by omega),
      inSub_refl _, inSub_refl _, (hlst.pd _).2.1, (hlst.pd _).2.1,
      (hlst.pd _).2.1, (hlst.pd _).2.1⟩
  obtain ⟨haL, hapL⟩ := apportionLoop_main root p hn hjn dxQ hdx hdA hmA fuel _ ha0
  simp only [apportion]
  rw [show leftSibP ((k + 1) :: p) = some (k :: p) from rfl]
  dsimp only [List.tail_cons]
  set aL := apportionLoop root dxQ ((k + 1) :: p) dA fuel
    (⟨k :: p, (k + 1) :: p, 0 :: p, (k + 1) :: p, getMod st (k :: p),
      getMod st ((k + 1) :: p), getMod st (0 :: p),
      getMod st ((k + 1) :: p), st⟩ : AS) with haLdef
  by_cases hc1 : (nextRight root aL.st aL.vil).isSome ∧
      ¬ (nextRight root aL.st aL.vor).isSome
  · rw [if_pos hc1]
    dsimp only
    obtain ⟨tgt, htgt⟩ := Option.isSome_iff_exists.mp hc1.1
    have htgtF : inForest p (k + 1) tgt := by
      rcases nextRight_cases htgt with hth | hch
      · exact haL.lst.thF _ _ hth haL.ivil
      · rw [hch]
        exact inForest_cons haL.ivil _
    rw [htgt]
    have hAP2 : APost p (k + 1) n aL.st
        (incMod (setThread aL.st aL.vor (some tgt)) aL.vor
          (aL.sil - aL.sor)) := by
      refine ⟨⟨0, ?_, ?_⟩, ?_, ?_, ?_, ?_, ?_, ?_, ?_, ?_, ?_, ?_⟩
      · rw [getX_incMod_e, getX_setThread_e]; ring
      · rw [getShift_incMod_e, getShift_setThread_e]; ring
      · intro q _; rw [getX_incMod_e, getX_setThread_e]
      · intro q _; rw [getShift_incMod_e, getShift_setThread_e]
      · intro q _; rw [getChange_incMod_e, getChange_setThread_e]
      · intro m
        exact le_of_eq (chRun_congr (fun i _ _ => by
          rw [getChange_incMod_e, getChange_setThread_e]))
      · intro q hq
        have hqvor : q ≠ aL.vor := by
          intro h
          exact hq (Or.inr (h ▸ haL.ivor))
        rw [getMod_incMod_n _ _ _ hqvor, getMod_setThread_e]
      · intro q hq
        have hqvor : q ≠ aL.vor := by
          intro h
          exact hq (Or.inr (h ▸ haL.ivor))
        rw [getThread_incMod_e, getThread_setThread_n _ _ _ hqvor]
      · intro q t ht
        rw [getThread_incMod_e] at ht
        by_cases hq : q = aL.vor
        · subst hq
          by_cases hp : hasPath aL.st aL.vor
          · rw [getThread_setThread_s _ _ _ hp] at ht
            injection ht with ht2
            exact Or.inr ⟨Or.inr haL.ivor, Or.inl (ht2 ▸ htgtF)⟩
          · rw [getThread_setThread_abs _ _ _ hp] at ht
            exact Or.inl ht
        · rw [getThread_setThread_n _ _ _ hq] at ht
          exact Or.inl ht
      · intro q _; rw [getAnc_incMod_e, getAnc_setThread_e]
      · intro q; rw [getY_incMod_e, getY_setThread_e]
      · unfold incMod setThread
        rw [keys_setNV, keys_setNV]
    refine ⟨APost_trans hapL hAP2, ?_, ?_, ?_, Or.inl rfl⟩
    · exact stPD_incMod _ _ _ (stPD_setThread _ _ _ haL.lst.pd)
        (Q.pd_sub haL.pdil haL.pdor)
    · intro q
      have he : getAnc (incMod (setThread aL.st aL.vor (some tgt)) aL.vor
          (aL.sil - aL.sor)) q = getAnc aL.st q := by
        rw [getAnc_incMod_e, getAnc_setThread_e]
      rw [he]
      exact haL.lst.ancS q
    · intro q hq
      rw [hasPath_incMod_iff]
      unfold setThread
      rw [hasPath_setNV]
      exact haL.lst.keysOK q hq
  · rw [if_neg hc1]
    dsimp only
    by_cases hc2 : (nextLeft root aL.st aL.vir).isSome ∧
        ¬ (nextLeft root aL.st aL.vol).isSome
    · rw [if_pos hc2]
      obtain ⟨tgt, htgt⟩ := Option.isSome_iff_exists.mp hc2.1
      have htgtS : inSub ((k + 1) :: p) tgt := by
        rcases nextLeft_cases htgt with hth | hch
        · exact haL.lst.thV _ _ hth haL.ivir
        · rw [hch]
          exact inSub_cons haL.ivir _
      rw [htgt]
      have hAP2 : APost p (k + 1) n aL.st
          (incMod (setThread aL.st aL.vol (some tgt)) aL.vol
            (aL.sir - aL.sol)) := by
        refine ⟨⟨0, ?_, ?_⟩, ?_, ?_, ?_, ?_, ?_, ?_, ?_, ?_, ?_, ?_⟩
        · rw [getX_incMod_e, getX_setThread_e]; ring
        · rw [getShift_incMod_e, getShift_setThread_e]; ring
        · intro q _; rw [getX_incMod_e, getX_setThread_e]
        · intro q _; rw [getShift_incMod_e, getShift_setThread_e]
        · intro q _; rw [getChange_incMod_e, getChange_setThread_e]
        · intro m
          exact le_of_eq (chRun_congr (fun i _ _ => by
            rw [getChange_incMod_e, getChange_setThread_e]))
        · intro q hq
          have hqvol : q ≠ aL.vol := by
            intro h
            exact hq (Or.inl (h ▸ haL.ivol))
          rw [getMod_incMod_n _ _ _ hqvol, getMod_setThread_e]
        · intro q hq
          have hqvol : q ≠ aL.vol := by
            intro h
            exact hq (Or.inl (h ▸ haL.ivol))
          rw [getThread_incMod_e, getThread_setThread_n _ _ _ hqvol]
        · intro q t ht
          rw [getThread_incMod_e] at ht
          by_cases hq : q = aL.vol
          · subst hq
            by_cases hp : hasPath aL.st aL.vol
            · rw [getThread_setThread_s _ _ _ hp] at ht
              injection ht with ht2
              exact Or.inr ⟨Or.inl haL.ivol, Or.inr (ht2 ▸ htgtS)⟩
            · rw [getThread_setThread_abs _ _ _ hp] at ht
              exact Or.inl ht
          · rw [getThread_setThread_n _ _ _ hq] at ht
            exact Or.inl ht
        · intro q _; rw [getAnc_incMod_e, getAnc_setThread_e]
        · intro q; rw [getY_incMod_e, getY_setThread_e]
        · unfold incMod setThread
          rw [keys_setNV, keys_setNV]
      refine ⟨APost_trans hapL hAP2, ?_, ?_, ?_, Or.inr rfl⟩
      · exact stPD_incMod _ _ _ (stPD_setThread _ _ _ haL.lst.pd)
          (Q.pd_sub haL.pdir haL.pdol)
      · intro q
        have he : getAnc (incMod (setThread aL.st aL.vol (some tgt)) aL.vol
            (aL.sir - aL.sol)) q = getAnc aL.st q := by
          rw [getAnc_incMod_e, getAnc_setThread_e]
        rw [he]
        exact haL.lst.ancS q
      · intro q hq
        rw [hasPath_incMod_iff]
        unfold setThread
        rw [hasPath_setNV]
        exact haL.lst.keysOK q hq
    · rw [if_neg hc2]
      exact ⟨hapL, haL.lst.pd, haL.lst.ancS, haL.lst.keysOK, Or.inr rfl⟩

/-! ### Sums over child ranges -/

theorem chRun_concat (st : St) (p : Path) (j c : Nat) :
    chRun st p j (c + 1) = chRun st p j c + (getChange st ((j + c) :: p)).val := by
  unfold chRun
  rw [List.range'_1_concat, List.map_append, List.sum_append]
  simp

theorem chRun_cons (st : St) (p : Path) (m k : Nat) :
    chRun st p m (k + 1) = (getChange st (m :: p)).val + chRun st p (m + 1) k := by
  unfold chRun
  rw [List.range'_succ m k 1, List.map_cons, List.sum_cons]

theorem chRun_zero (st : St) (p : Path) (m : Nat) : chRun st p m 0 = 0 := by
  unfold chRun
  simp

theorem shRun_empty (st : St) (p : Path) (m : Nat) : shRun st p m m = 0 := by
  unfold shRun
  simp

theorem shRun_extend (st : St) (p : Path) (m e : Nat) (hme : m ≤ e) :
    shRun st p m (e + 1) = shRun st p m e +
      ((e - m : Nat) : ℚ) * (getChange st (e :: p)).val +
      (getShift st (e :: p)).val + (getChange st (e :: p)).val := by
  unfold shRun
  have h1 : e + 1 - m = (e - m) + 1 := by omega
  rw [h1, List.range'_1_concat, List.map_append, List.sum_append]
  have h2 : m + (e - m) = e := by omega
  rw [h2]
  have h3 : ((List.range' m (e - m)).map
      (fun i => (getShift st (i :: p)).val + chRun st p i (e + 1 - i))).sum =
      ((List.range' m (e - m)).map
      (fun i => ((getShift st (i :: p)).val + chRun st p i (e - i)) +
        (getChange st (e :: p)).val)).sum := by
    congr 1
    apply List.map_congr_left
    intro i hi
    rw [List.mem_range'_1] at hi
    have h4 : e + 1 - i = (e - i) + 1 := by omega
    have h5 : i + (e - i) = e := by omega
    rw [h4, chRun_concat, h5]
    ring
  rw [h3, sum_map_add (List.range' m (e - m))
    (fun i => (getShift st (i :: p)).val + chRun st p i (e - i))
    (fun _ => (getChange st (e :: p)).val)]
  have h6 : ((List.range' m (e - m)).map
      (fun _ => (getChange st (e :: p)).val)).sum =
      ((e - m : Nat) : ℚ) * (getChange st (e :: p)).val := by
    simp [List.map_const]
  rw [h6]
  have h8 : e + 1 - e = 1 := by omega
  have h9 : chRun st p e 1 = (getChange st (e :: p)).val := by
    unfold chRun
    simp
  simp only [List.map_cons, List.map_nil, List.sum_cons, List.sum_nil, h8, h9]
  ring

theorem shiftTree_go (root : LayoutTree) (p : Path) {n : Nat}
    (hn : cnt root p = n) (st0 : St) :
    ∀ (c j : Nat), j + c ≤ n →
    ∀ (stA : St) (shQ chQ : Q),
      stPD stA → shQ.pd → chQ.pd →
      (∀ q, getShift stA q = getShift st0 q) →
      (∀ q, getChange stA q = getChange st0 q) →
      (∀ q, (getLT root q).isSome → hasPath stA q) →
      (∀ q, (∀ i : Nat, j ≤ i → i < j + c → q ≠ i :: p) →
        getX (List.foldl shiftTreeStep (stA, shQ, chQ)
          (((List.range' j c).map (· :: p)).reverse)).1 q = getX stA q ∧
        getMod (List.foldl shiftTreeStep (stA, shQ, chQ)
          (((List.range' j c).map (· :: p)).reverse)).1 q = getMod stA q) ∧
      (∀ q, getShift (List.foldl shiftTreeStep (stA, shQ, chQ)
          (((List.range' j c).map (· :: p)).reverse)).1 q = getShift stA q ∧
        getChange (List.foldl shiftTreeStep (stA, shQ, chQ)
          (((List.range' j c).map (· :: p)).reverse)).1 q = getChange stA q ∧
        getThread (List.foldl shiftTreeStep (stA, shQ, chQ)
          (((List.range' j c).map (· :: p)).reverse)).1 q = getThread stA q ∧
        getAnc (List.foldl shiftTreeStep (stA, shQ, chQ)
          (((List.range' j c).map (· :: p)).reverse)).1 q = getAnc stA q ∧
        getY (List.foldl shiftTreeStep (stA, shQ, chQ)
          (((List.range' j c).map (· :: p)).reverse)).1 q = getY stA q) ∧
      ((List.foldl shiftTreeStep (stA, shQ, chQ)
          (((List.range' j c).map (· :: p)).reverse)).1.map Prod.fst =
        stA.map Prod.fst) ∧
      stPD (List.foldl shiftTreeStep (stA, shQ, chQ)
          (((List.range' j c).map (· :: p)).reverse)).1 ∧
      ((List.foldl shiftTreeStep (stA, shQ, chQ)
          (((List.range' j c).map (· :: p)).reverse)).2.1.pd ∧
        (List.foldl shiftTreeStep (stA, shQ, chQ)
          (((List.range' j c).map (· :: p)).reverse)).2.2.pd) ∧
      ((List.foldl shiftTreeStep (stA, shQ, chQ)
          (((List.range' j c).map (· :: p)).reverse)).2.2.val =
        chQ.val + chRun st0 p j c) ∧
      ((List.foldl shiftTreeStep (stA, shQ, chQ)
          (((List.range' j c).map (· :: p)).reverse)).2.1.val =
        shQ.val + (c : ℚ) * chQ.val + shRun st0 p j (j + c)) ∧
      (∀ d : Nat, d < c →
        (getX (List.foldl shiftTreeStep (stA, shQ, chQ)
          (((List.range' j c).map (· :: p)).reverse)).1 ((j + d) :: p)).val =
        (getX stA ((j + d) :: p)).val + (shQ.val +
          ((c - d - 1 : Nat) : ℚ) * chQ.val +
          shRun st0 p (j + d + 1) (j + c))) := by
  intro c
  induction c with
  | zero =>
      intro j hjc stA shQ chQ hpdA hshQ hchQ hsh hch hkeys
      have hnil : ((List.range' j 0).map (· :: p)).reverse = ([] : List Path) := by
        simp
      rw [hnil]
      dsimp only [List.foldl_nil]
      exact ⟨fun q _ => ⟨rfl, rfl⟩, fun q => ⟨rfl, rfl, rfl, rfl, rfl⟩, rfl, hpdA,
        ⟨hshQ, hchQ⟩, by rw [chRun_zero]; ring,
        by rw [show j + 0 = j from rfl, shRun_empty]; norm_num,
        fun d hd => absurd hd (by omega)⟩
  | succ c ih =>
      intro j hjc stA shQ chQ hpdA hshQ hchQ hsh hch hkeys
      rw [List.range'_1_concat, List.map_append, List.reverse_append]
      simp only [List.map_cons, List.map_nil, List.reverse_cons,
        List.reverse_nil, List.nil_append, List.cons_append, List.foldl_cons]
      have hwv : (getLT root ((j + c) :: p)).isSome :=
        valid_child_of_lt (by rw [hn]; omega)
      have hwP : hasPath stA ((j + c) :: p) := hkeys _ hwv
      have hstep : shiftTreeStep (stA, shQ, chQ) ((j + c) :: p) =
          (incMod (incX stA ((j + c) :: p) shQ) ((j + c) :: p) shQ,
           shQ + getShift stA ((j + c) :: p) +
             (chQ + getChange stA ((j + c) :: p)),
           chQ + getChange stA ((j + c) :: p)) := by
        unfold shiftTreeStep
        dsimp only
        rw [getChange_incMod_e, getChange_incX_e, getShift_incMod_e,
          getShift_incX_e]
      rw [hstep]
      set w : Path := (j + c) :: p with hwdef
      set st1 := incMod (incX stA w shQ) w shQ with hst1
      set ch1 := chQ + getChange stA w with hch1
      set sh1 := shQ + getShift stA w + ch1 with hsh1
      have hpd1 : stPD st1 := by
        rw [hst1]
        exact stPD_incMod _ _ _ (stPD_incX _ _ _ hpdA hshQ) hshQ
      have hch1pd : ch1.pd := by
        rw [hch1]
        exact Q.pd_add hchQ (hpdA _).2.2.2
      have hsh1pd : sh1.pd := by
        rw [hsh1]
        exact Q.pd_add (Q.pd_add hshQ (hpdA _).2.2.1) hch1pd
      have hsh2 : ∀ q, getShift st1 q = getShift st0 q := fun q => by
        rw [hst1, getShift_incMod_e, getShift_incX_e]
        exact hsh q
      have hch2 : ∀ q, getChange st1 q = getChange st0 q := fun q => by
        rw [hst1, getChange_incMod_e, getChange_incX_e]
        exact hch q
      have hkeys2 : ∀ q, (getLT root q).isSome → hasPath st1 q := fun q hq => by
        rw [hst1, hasPath_incMod_iff, hasPath_incX_iff]
        exact hkeys q hq
      obtain ⟨C1, C2, C3, C4, C5, C6, C7, C8⟩ :=
        ih j (by omega) st1 sh1 ch1 hpd1 hsh1pd hch1pd hsh2 hch2 hkeys2
      have hx1o : ∀ q, q ≠ w → getX st1 q = getX stA q := fun q hq => by
        rw [hst1, getX_incMod_e, getX_incX_n _ _ _ hq]
      have hm1o : ∀ q, q ≠ w → getMod st1 q = getMod stA q := fun q hq => by
        rw [hst1, getMod_incMod_n _ _ _ hq, getMod_incX_e]
      have hx1w : getX st1 w = getX stA w + shQ := by
        rw [hst1, getX_incMod_e, getX_incX_s _ _ _ hwP]
      have hchwv : (getChange stA w).val = (getChange st0 w).val := by
        rw [hch w]
      have hshwv : (getShift stA w).val = (getShift st0 w).val := by
        rw [hsh w]
      have hch1v : ch1.val = chQ.val + (getChange st0 w).val := by
        rw [hch1, Q.val_add hchQ (hpdA _).2.2.2, hchwv]
      have hsh1v : sh1.val = shQ.val + (getShift st0 w).val + ch1.val := by
        rw [hsh1, Q.val_add (Q.pd_add hshQ (hpdA _).2.2.1) hch1pd,
          Q.val_add hshQ (hpdA _).2.2.1, hshwv]
      refine ⟨?_, ?_, ?_, C4, C5, ?_, ?_, ?_⟩
      · intro q hq
        obtain ⟨hc1x, hc1m⟩ := C1 q (fun i hi1 hi2 => hq i hi1 (by omega))
        constructor
        · rw [hc1x, hx1o q (hq (j + c) (by omega) (by omega))]
        · rw [hc1m, hm1o q (hq (j + c) (by omega) (by omega))]
      · intro q
        obtain ⟨e1, e2, e3, e4, e5⟩ := C2 q
        refine ⟨?_, ?_, ?_, ?_, ?_⟩
        · rw [e1, hst1, getShift_incMod_e, getShift_incX_e]
        · rw [e2, hst1, getChange_incMod_e, getChange_incX_e]
        · rw [e3, hst1, getThread_incMod_e, getThread_incX_e]
        · rw [e4, hst1, getAnc_incMod_e, getAnc_incX_e]
        · rw [e5, hst1, getY_incMod_e, getY_incX_e]
      · rw [C3, hst1]
        unfold incMod incX
        rw [keys_setNV, keys_setNV]
      · rw [C6, hch1v, chRun_concat]
        ring
      · rw [C7, hsh1v, hch1v,
          show j + (c + 1) = (j + c) + 1 from by omega,
          shRun_extend st0 p j (j + c) (by omega),
          show j + c - j = c from by omega]
        push_cast
        ring
      · intro d hd
        by_cases hdc : d = c
        · subst hdc
          rw [show ((j + d) : Nat) :: p = w from rfl,
            (C1 w (fun i hi1 hi2 => by
              rw [hwdef]
              intro hne
              injection hne with hne1 _
              omega)).1,
            hx1w, Q.val_add (hpdA _).1 hshQ,
            show j + (d + 1) = (j + d) + 1 from by omega,
            show (d + 1) - d - 1 = 0 from by omega,
            show j + d + 1 = (j + d) + 1 from rfl]
          rw [shRun_empty]
          norm_num
        · obtain ⟨u, hu⟩ : ∃ u, c = d + 1 + u := ⟨c - d - 1, by omega⟩
          rw [C8 d (by omega),
            hx1o _ (by
              rw [hwdef]
              intro hne
              injection hne with hne1 _
              omega),
            hsh1v, hch1v,
            show j + (c + 1) = (j + c) + 1 from by omega,
            shRun_extend st0 p (j + d + 1) (j + c) (by omega),
            show j + c - (j + d + 1) = u from by omega,
            show c - d - 1 = u from by omega,
            show c + 1 - d - 1 = u + 1 from by omega]
          push_cast
          ring

theorem shiftTree_main (root : LayoutTree) (p : Path) {n : Nat}
    (hn : cnt root p = n) (st : St) (hpd : stPD st)
    (hkeys : ∀ q, (getLT root q).isSome → hasPath st q) :
    (∀ q, (∀ i : Nat, i < n → q ≠ i :: p) →
      getX (shiftTree ((List.range n).map (· :: p)) st) q = getX st q ∧
      getMod (shiftTree ((List.range n).map (· :: p)) st) q = getMod st q) ∧
    (∀ q, getShift (shiftTree ((List.range n).map (· :: p)) st) q =
        getShift st q ∧
      getChange (shiftTree ((List.range n).map (· :: p)) st) q =
        getChange st q ∧
      getThread (shiftTree ((List.range n).map (· :: p)) st) q =
        getThread st q ∧
      getAnc (shiftTree ((List.range n).map (· :: p)) st) q = getAnc st q ∧
      getY (shiftTree ((List.range n).map (· :: p)) st) q = getY st q) ∧
    ((shiftTree ((List.range n).map (· :: p)) st).map Prod.fst =
      st.map Prod.fst) ∧
    stPD (shiftTree ((List.range n).map (· :: p)) st) ∧
    (∀ d : Nat, d < n →
      (getX (shiftTree ((List.range n).map (· :: p)) st) (d :: p)).val =
        (getX st (d :: p)).val + shRun st p (d + 1) n) := by
  have h0 := shiftTree_go root p hn st n 0 (by omega) st 0 0 hpd Q.pd_zero
    Q.pd_zero (fun q => rfl) (fun q => rfl) hkeys
  rw [← List.range_eq_range'] at h0
  obtain ⟨C1, C2, C3, C4, _, _, _, C8⟩ := h0
  unfold shiftTree
  refine ⟨?_, C2, C3, C4, ?_⟩
  · intro q hq
    exact C1 q (fun i hi1 hi2 => hq i (by omega))
  · intro d hd
    have := C8 d hd
    rw [show (0 : Nat) + d = d from by omega] at this
    rw [this, show (0 : Nat) + n = n from by omega, Q.val_zero]
    ring

theorem shRun_cons (st : St) (p : Path) (m e : Nat) (hme : m < e) :
    shRun st p m e = (getShift st (m :: p)).val + chRun st p m (e - m) +
      shRun st p (m + 1) e := by
  unfold shRun
  have h1 : e - m = (e - (m + 1)) + 1 := by omega
  rw [h1, List.range'_succ m _ 1, List.map_cons, List.sum_cons]
  rw [← h1]

theorem gaps_after_shiftTree (root : LayoutTree) (p : Path) {n : Nat}
    (hn : cnt root p = n) (st : St) (hpd : stPD st)
    (hkeys : ∀ q, (getLT root q).isSome → hasPath st q)
    (hG1 : ∀ k, k + 1 < n → (getX st ((k + 1) :: p)).val =
      (getX st (k :: p)).val + 1 + (getShift st ((k + 1) :: p)).val)
    (hCS : ∀ m, chRun st p m (n - m) ≤ 0) :
    ∀ i j2 : Nat, i < j2 → j2 < n →
      (getX (shiftTree ((List.range n).map (· :: p)) st) (i :: p)).val +
        ((j2 : ℚ) - (i : ℚ)) ≤
      (getX (shiftTree ((List.range n).map (· :: p)) st) (j2 :: p)).val := by
  obtain ⟨_, _, _, _, C8⟩ := shiftTree_main root p hn st hpd hkeys
  have hadj : ∀ k, k + 1 < n →
      (getX (shiftTree ((List.range n).map (· :: p)) st) (k :: p)).val + 1 ≤
      (getX (shiftTree ((List.range n).map (· :: p)) st) ((k + 1) :: p)).val := by
    intro k hk
    rw [C8 k (by omega), C8 (k + 1) (by omega)]
    have hpeel := shRun_cons st p (k + 1) n (by omega)
    have hcs := hCS (k + 1)
    have hg := hG1 k hk
    rw [show (k + 1) + 1 = k + 2 from rfl] at hpeel
    linarith
  intro i j2
  induction j2 with
  | zero => omega
  | succ j2 ihj =>
      intro hij hjn
      by_cases hcase : i = j2
      · subst hcase
        have := hadj i hjn
        push_cast
        linarith
      · have h1 := ihj (by omega) (by omega)
        have h2 := hadj j2 hjn
        push_cast at h1 ⊢
        linarith

theorem FCInv_step (root : LayoutTree) (p : Path) {n j : Nat}
    {st stj stW stA2 : St} {dA dA2 : Path}
    (hjn : j < n)
    (hpre : FWPre root p st)
    (hinv : FCInv root p n j st stj dA)
    (hPost : FWPost root (j :: p) stj stW)
    (hap : APost p j n stW stA2)
    (hpd2 : stPD stA2) (hanc2 : ancSub stA2)
    (hda2 : dA2 = dA ∨ dA2 = j :: p) :
    FCInv root p n (j + 1) st stA2 dA2 := by
  have hsubj : ∀ q, inSub (j :: p) q → ¬ inForest p j q :=
    fun q hs hf => inForest_not_sub hf hs
  have hnotF : ∀ q, ¬ inForest p (j + 1) q →
      ¬ inForest p j q ∧ ¬ inSub (j :: p) q := by
    intro q hq
    constructor
    · intro h; exact hq (inForest_succ.mpr (Or.inl h))
    · intro h; exact hq (inForest_succ.mpr (Or.inr h))
  have hjne : ∀ q, ¬ inForest p (j + 1) q → q ≠ j :: p := by
    intro q hq h
    exact hq (inForest_succ.mpr (Or.inr (h ▸ inSub_refl _)))
  have hthzero : ∀ q, inSub (j :: p) q → getThread stj q = none := by
    intro q hs
    rw [hinv.fth q (hsubj q hs)]
    exact hpre.pth q (inSub_of_child hs)
  refine ⟨?_, ?_, ?_, ?_, ?_, ?_, ?_, ?_, ?_, ?_, ?_, hanc2, hpd2, ?_, ?_⟩
  · intro q hq
    obtain ⟨h1, h2⟩ := hnotF q hq
    rw [hap.xf q (hjne q hq), hPost.fx q h2, hinv.fx q h1]
  · intro q hq
    obtain ⟨h1, h2⟩ := hnotF q hq
    rw [hap.mf q (by
        intro hc
        rcases hc with hc | hc
        · exact h1 hc
        · exact h2 hc),
      hPost.fmod q h2, hinv.fmod q h1]
  · intro q hq
    obtain ⟨h1, h2⟩ := hnotF q hq
    rw [hap.thKeep q (by
        intro hc
        rcases hc with hc | hc
        · exact h1 hc
        · exact h2 hc),
      hPost.fth q (Or.inl h2), hinv.fth q h1]
  · intro q hq
    obtain ⟨h1, h2⟩ := hnotF q hq
    rw [hap.af q h2, hPost.fanc q (Or.inl h2), hinv.fanc q h1]
  · intro q hq
    obtain ⟨h1, h2⟩ := hnotF q hq
    rw [hap.sf q (hjne q hq), hPost.fshift q (Or.inl h2), hinv.fshift q h1]
  · intro q hq
    obtain ⟨h1, h2⟩ := hnotF q hq
    rw [hap.cf q (by
        intro m hm hqm
        subst hqm
        rcases Nat.lt_or_ge m j with hmj | hmj
        · exact h1 (inForest_child hmj)
        · have : m = j := by omega
          subst this
          exact h2 (inSub_refl _)),
      hPost.fchange q (Or.inl h2), hinv.fchange q h1]
  · intro q
    rw [hap.yf q, hPost.fy q, hinv.fy q]
  · intro k hk
    rcases Nat.lt_or_ge (k + 1) j with hkj | hkj
    · have hks : ∀ i : Nat, i < j → getX stA2 (i :: p) = getX stj (i :: p) := by
        intro i hi
        rw [hap.xf _ (by
            intro h
            injection h with h1 _
            omega),
          hPost.fx _ (sibling_not_inSub (by omega))]
      have hss : getShift stA2 ((k + 1) :: p) = getShift stj ((k + 1) :: p) := by
        rw [hap.sf _ (by
            intro h
            injection h with h1 _
            omega),
          hPost.fshift _ (Or.inl (sibling_not_inSub (by omega)))]
      rw [hks (k + 1) (by omega), hks k (by omega), hss]
      exact hinv.g1 k hkj
    · have hkja : k + 1 = j := by omega
      subst hkja
      obtain ⟨d, hxd, hsd⟩ := hap.dxs
      have hxW : (getX stW ((k + 1) :: p)).val =
          (getX stj (k :: p)).val + 1 := by
        have := hPost.fxv (k :: p) rfl
        rw [this]
      have hsW : getShift stW ((k + 1) :: p) = 0 := by
        rw [hPost.fshift _ (Or.inr rfl),
          hinv.fshift _ (hsubj _ (inSub_refl _))]
        exact (hpre.pz _ (inSub_child p (k + 1))).1
      have hxk : getX stA2 (k :: p) = getX stj (k :: p) := by
        rw [hap.xf _ (by
            intro h
            injection h with h1 _
            omega),
          hPost.fx _ (sibling_not_inSub (by omega))]
      rw [hxd, hsd, hxW, hsW, hxk, Q.val_zero]
      ring
  · intro m
    have hWj : chRun stW p m (n - m) = chRun stj p m (n - m) := by
      apply chRun_congr
      intro i _ _
      by_cases hij : i = j
      · subst hij
        exact hPost.fchange _ (Or.inr rfl)
      · exact hPost.fchange _ (Or.inl (sibling_not_inSub (Ne.symm hij)))
    exact le_trans (hap.csum m) (le_of_eq hWj |>.trans (hinv.cs0 m))
  · intro k hk q hq hval i i2 hii hcnt
    have hlen : ∀ i3 : Nat, i3 :: q ≠ j :: p := by
      intro i3 h
      have hl : (i3 :: q).length = (j :: p).length := by rw [h]
      have hql := inSub_len hq
      simp at hl hql
      omega
    by_cases hkj : k = j
    · subst hkj
      have hgap := hPost.fgaps q hq hval i i2 hii hcnt
      rw [hap.xf _ (hlen i), hap.xf _ (hlen i2)]
      exact hgap
    · have hnotsub : ∀ i3 : Nat, ¬ inSub (j :: p) (i3 :: q) := by
        intro i3 hs
        exact hkj (child_discrim (inSub_cons hq i3) hs)
      have hgap := hinv.gaps k (by omega) q hq hval i i2 hii hcnt
      rw [hap.xf _ (hlen i), hap.xf _ (hlen i2),
        hPost.fx _ (hnotsub i), hPost.fx _ (hnotsub i2)]
      exact hgap
  · intro q t ht hq
    rcases hap.thNew q t ht with htW | ⟨_, htgt⟩
    · rcases hPost.fthNew q t htW with htj | ⟨hsq, _, hst⟩
      · rcases inForest_succ.mp hq with hf | hs
        · exact inForest_succ.mpr (Or.inl (hinv.thFj q t htj hf))
        · rw [hthzero q hs] at htj
          cases htj
      · exact inForest_succ.mpr (Or.inr hst)
    · rcases htgt with hf | hs
      · exact inForest_succ.mpr (Or.inl hf)
      · exact inForest_succ.mpr (Or.inr hs)
  · exact hap.keys.trans (hPost.fkeys.trans hinv.keys)
  · rcases hda2 with h | h
    · obtain ⟨m, hm, hdm⟩ := hinv.da
      exact ⟨m, by omega, h.trans hdm⟩
    · exact ⟨j, by omega, h⟩

theorem apportion_zero (fuel : Nat) (root : LayoutTree) (dxQ : Q)
    (dA : Path) (st : St) (p : Path) :
    apportion fuel root dxQ (0 :: p) dA st = (st, dA) := rfl

theorem fwChildren_fold (root : LayoutTree) (p : Path) {n : Nat}
    (hn : cnt root p = n) (fuel : Nat) (dxQ : Q) (hdx : dxQ.pd)
    (fw : LayoutTree → Path → St → St)
    (hfw : ∀ i c s, getLT root (i :: p) = some c → FWPre root (i :: p) s →
      FWPost root (i :: p) s (fw c (i :: p) s))
    (st : St) (hpre : FWPre root p st) :
    ∀ (cs2 : List LayoutTree) (j : Nat) (stj : St) (dA : Path),
      j + cs2.length = n →
      (∀ i c, cs2.get? i = some c → getLT root ((j + i) :: p) = some c) →
      FCInv root p n j st stj dA →
      FCInv root p n n st
        (List.foldl (fun acc ic => apportion fuel root dxQ (ic.1 :: p) acc.2
          (fw ic.2 (ic.1 :: p) acc.1)) (stj, dA) (List.enumFrom j cs2)).1
        (List.foldl (fun acc ic => apportion fuel root dxQ (ic.1 :: p) acc.2
          (fw ic.2 (ic.1 :: p) acc.1)) (stj, dA) (List.enumFrom j cs2)).2 := by
  intro cs2
  induction cs2 with
  | nil =>
      intro j stj dA hlen halign hinv
      simp only [List.enumFrom_nil, List.foldl_nil]
      have hj : j = n := by simpa using hlen
      subst hj
      exact hinv
  | cons c rest ih =>
      intro j stj dA hlen halign hinv
      simp only [List.enumFrom_cons, List.foldl_cons]
      have hget : getLT root (j :: p) = some c := by
        have h0 := halign 0 c rfl
        simpa using h0
      have hjn : j < n := by
        simp only [List.length_cons] at hlen
        omega
      have hpreJ : FWPre root (j :: p) stj := by
        refine ⟨?_, ?_, hinv.ancS, hinv.pd, ?_⟩
        · intro q hs
          rw [hinv.fth q (fun hf => inForest_not_sub hf hs)]
          exact hpre.pth q (inSub_of_child hs)
        · intro q hs
          have hnf : ¬ inForest p j q := fun hf => inForest_not_sub hf hs
          rw [hinv.fshift q hnf, hinv.fchange q hnf]
          exact hpre.pz q (inSub_of_child hs)
        · intro q hq
          unfold hasPath
          rw [hinv.keys]
          exact hpre.pkeys q hq
      have hPost := hfw j c stj hget hpreJ
      have hlen2 : (j + 1) + rest.length = n := by
        simp only [List.length_cons] at hlen
        omega
      have halign2 : ∀ i c2, rest.get? i = some c2 →
          getLT root ((j + 1 + i) :: p) = some c2 := by
        intro i c2 hc2
        rw [show j + 1 + i = j + (i + 1) from by omega]
        exact halign (i + 1) c2 (by simpa using hc2)
      rcases j with _ | k
      · rw [apportion_zero]
        have hinv2 : FCInv root p n 1 st (fw c (0 :: p) stj) dA :=
          FCInv_step root p hjn hpre hinv hPost
            (APost_refl p 0 n (fw c (0 :: p) stj)) hPost.fpd hPost.fancSub
            (Or.inl rfl)
        exact ih 1 (fw c (0 :: p) stj) dA hlen2 halign2 hinv2
      · obtain ⟨mA, hmA, hdAeq⟩ := hinv.da
        have hmA2 : mA < k + 1 := by omega
        have hlst : LSt root p (k + 1) (fw c ((k + 1) :: p) stj) := by
          refine ⟨?_, ?_, hPost.fancSub, hPost.fpd, ?_⟩
          · intro q t ht hqF
            rcases hPost.fthNew q t ht with htj | ⟨hsq, _, _⟩
            · exact hinv.thFj q t htj hqF
            · exact absurd hsq (fun hs => inForest_not_sub hqF hs)
          · intro q t ht hq
            rcases hPost.fthNew q t ht with htj | ⟨_, _, hst⟩
            · rw [hpreJ.pth q hq] at htj
              cases htj
            · exact hst
          · intro q hq
            unfold hasPath
            rw [hPost.fkeys, hinv.keys]
            exact hpre.pkeys q hq
        obtain ⟨hap, hpd2, hanc2, hkeys2, hda⟩ :=
          apportion_main root p hn hjn fuel dxQ hdx
            (fw c ((k + 1) :: p) stj) hdAeq hmA2 hlst
        have hinv2 : FCInv root p n (k + 2) st
            (apportion fuel root dxQ ((k + 1) :: p) dA
              (fw c ((k + 1) :: p) stj)).1
            (apportion fuel root dxQ ((k + 1) :: p) dA
              (fw c ((k + 1) :: p) stj)).2 :=
          FCInv_step root p hjn hpre hinv hPost hap hpd2 hanc2 (by
            rcases hda with h | h
            · exact Or.inl h
            · exact Or.inr h)
        exact ih (k + 2) _ _ hlen2 halign2 hinv2

theorem inSub_strict {p q : Path} (h : inSub p q) (hne : q ≠ p) :
    ∃ i : Nat, inSub (i :: p) q := by
  obtain ⟨s, rfl⟩ := h
  cases hs : s.reverse with
  | nil =>
      exfalso
      apply hne
      have : s = [] := by
        rw [← s.reverse_reverse, hs]
        rfl
      rw [this]
      rfl
  | cons i s2 =>
      refine ⟨i, s2.reverse, ?_⟩
      rw [← s.reverse_reverse, hs]
      simp

theorem valid_child_index {root : LayoutTree} {p : Path} {lt : LayoutTree}
    (hp : getLT root p = some lt) {i : Nat}
    (hi : (getLT root (i :: p)).isSome) : i < lt.children.length := by
  rw [getLT_child, hp] at hi
  simp only [Option.some_bind] at hi
  cases hc : lt.children.get? i with
  | none =>
      rw [hc] at hi
      simp at hi
  | some c =>
      rw [List.get?_eq_some] at hc
      exact hc.1

theorem chRun_zero_of {st : St} {p : Path}
    (h : ∀ i : Nat, getChange st (i :: p) = 0) (m k : Nat) :
    chRun st p m k = 0 := by
  unfold chRun
  have hmap : (List.range' m k).map (fun i => (getChange st (i :: p)).val) =
      (List.range' m k).map (fun _ => (0 : ℚ)) := by
    apply List.map_congr_left
    intro i _
    rw [h i, Q.val_zero]
  rw [hmap]
  simp [List.map_const]

theorem FWPost_place (root : LayoutTree) (p : Path) {n : Nat}
    (hn : cnt root p = n) (st st2 : St)
    (hfx : ∀ q, ¬ inSub p q → getX st2 q = getX st q)
    (hfmod : ∀ q, ¬ inSub p q → getMod st2 q = getMod st q)
    (hfsh : ∀ q, ¬ inSub p q ∨ q = p → getShift st2 q = getShift st q)
    (hfch : ∀ q, ¬ inSub p q ∨ q = p → getChange st2 q = getChange st q)
    (hfth : ∀ q, ¬ inSub p q ∨ q = p → getThread st2 q = getThread st q)
    (hfthN : ∀ q t, getThread st2 q = some t → getThread st q = some t ∨
      (inSub p q ∧ q ≠ p ∧ inSub p t))
    (hfanc : ∀ q, ¬ inSub p q ∨ q = p → getAnc st2 q = getAnc st q)
    (hancS : ancSub st2) (hpd : stPD st2)
    (hkeys : st2.map Prod.fst = st.map Prod.fst)
    (hy : ∀ q, getY st2 q = getY st q)
    (hgapsDeep : ∀ q, inSub p q → q ≠ p → (getLT root q).isSome →
      ∀ i i2 : Nat, i < i2 → i2 < cnt root q →
        (getX st2 (i :: q)).val + ((i2 : ℚ) - (i : ℚ)) ≤
          (getX st2 (i2 :: q)).val)
    (hgapsC : ∀ i i2 : Nat, i < i2 → i2 < n →
      (getX st2 (i :: p)).val + ((i2 : ℚ) - (i : ℚ)) ≤
        (getX st2 (i2 :: p)).val)
    (f : NV → NV)
    (hf1 : ∀ nv, (f nv).shift = nv.shift) (hf2 : ∀ nv, (f nv).change = nv.change)
    (hf3 : ∀ nv, (f nv).thread = nv.thread)
    (hf4 : ∀ nv, (f nv).ancestor = nv.ancestor) (hf5 : ∀ nv, (f nv).y = nv.y)
    (hfpd : ∀ nv, nv.x.pd → nv.mod.pd → nv.shift.pd → nv.change.pd →
      (f nv).x.pd ∧ (f nv).mod.pd ∧ (f nv).shift.pd ∧ (f nv).change.pd) :
    (∀ q, ¬ inSub p q → getX (setNV st2 p f) q = getX st q) ∧
    (∀ q, ¬ inSub p q → getMod (setNV st2 p f) q = getMod st q) ∧
    (∀ q, ¬ inSub p q ∨ q = p → getShift (setNV st2 p f) q = getShift st q) ∧
    (∀ q, ¬ inSub p q ∨ q = p → getChange (setNV st2 p f) q = getChange st q) ∧
    (∀ q, ¬ inSub p q ∨ q = p → getThread (setNV st2 p f) q = getThread st q) ∧
    (∀ q t, getThread (setNV st2 p f) q = some t →
      getThread st q = some t ∨ (inSub p q ∧ q ≠ p ∧ inSub p t)) ∧
    (∀ q, ¬ inSub p q ∨ q = p → getAnc (setNV st2 p f) q = getAnc st q) ∧
    ancSub (setNV st2 p f) ∧ stPD (setNV st2 p f) ∧
    ((setNV st2 p f).map Prod.fst = st.map Prod.fst) ∧
    (∀ q, getY (setNV st2 p f) q = getY st q) ∧
    sibGaps root (setNV st2 p f) p := by
  have hxne : ∀ q : Path, q ≠ p → getX (setNV st2 p f) q = getX st2 q :=
    fun q hq => getX_ne st2 p f hq
  have hchild_ne : ∀ (q : Path) (i : Nat), inSub p q → i :: q ≠ p := by
    intro q i hq h
    have h1 := inSub_len hq
    have h2 : (i :: q).length = p.length := by rw [h]
    simp at h2
    omega
  refine ⟨?_, ?_, ?_, ?_, ?_, ?_, ?_, ?_, ?_, ?_, ?_, ?_⟩
  · intro q hq
    rw [getX_ne st2 p f (fun h => hq (by rw [h]; exact inSub_refl p)), hfx q hq]
  · intro q hq
    rw [getMod_ne st2 p f (fun h => hq (by rw [h]; exact inSub_refl p)), hfmod q hq]
  · intro q hq
    rw [getShift_keep st2 p f hf1 q, hfsh q hq]
  · intro q hq
    rw [getChange_keep st2 p f hf2 q, hfch q hq]
  · intro q hq
    rw [getThread_keep st2 p f hf3 q, hfth q hq]
  · intro q t ht
    rw [getThread_keep st2 p f hf3 q] at ht
    exact hfthN q t ht
  · intro q hq
    rw [getAnc_keep st2 p f hf4 q, hfanc q hq]
  · intro q
    have he : getAnc (setNV st2 p f) q = getAnc st2 q :=
      getAnc_keep st2 p f hf4 q
    rw [he]
    exact hancS q
  · exact stPD_setNV st2 p f hpd hfpd
  · rw [keys_setNV]
    exact hkeys
  · intro q
    rw [getY_keep st2 p f hf5 q, hy q]
  · intro q hq hval i i2 hii hcnt
    rw [hxne _ (hchild_ne q i hq), hxne _ (hchild_ne q i2 hq)]
    by_cases hqp : q = p
    · subst hqp
      rw [hn] at hcnt
      exact hgapsC i i2 hii hcnt
    · exact hgapsDeep q hq hqp hval i i2 hii hcnt

theorem setNV_setNV (st : St) (p : Path) (f g : NV → NV) :
    setNV (setNV st p f) p g = setNV st p (fun nv => g (f nv)) := by
  unfold setNV
  rw [List.map_map]
  apply List.map_congr_left
  intro e _
  by_cases he : e.1 = p
  · simp [Function.comp, he]
  · simp [Function.comp, he]

theorem leftSibP_shape {p w : Path} (h : leftSibP p = some w) :
    ∃ (i : Nat) (t : Path), p = (i + 1) :: t ∧ w = i :: t := by
  cases p with
  | nil => cases h
  | cons i t =>
      cases i with
      | zero => cases h
      | succ i2 =>
          unfold leftSibP at h
          injection h with h2
          exact ⟨i2, t, rfl, h2.symm⟩

theorem not_inSub_leftSib {i : Nat} {t : Path} :
    ¬ inSub ((i + 1) :: t) (i :: t) := by
  intro h
  have := inSub_same_len h (by simp)
  injection this with h1 _
  omega

theorem firstWalk_main (root : LayoutTree) :
    ∀ (fuel : Nat) (lt : LayoutTree) (p : Path) (st : St),
      getLT root p = some lt →
      heightF fuel lt < fuel →
      FWPre root p st →
      FWPost root p st (firstWalkF root fuel 1 lt p st) := by
  intro fuel
  induction fuel with
  | zero =>
      intro lt p st hp hh hpre
      exact absurd hh (by simp [heightF])
  | succ fuel ih =>
      intro lt p st hp hh hpre
      obtain ⟨vv, lf, csl⟩ := lt
      cases csl with
      | nil =>
          have hn0 : cnt root p = 0 := by
            rw [cnt_of_getLT hp]
            rfl
          have hgapsDeep : ∀ q, inSub p q → q ≠ p → (getLT root q).isSome →
              ∀ i i2 : Nat, i < i2 → i2 < cnt root q →
                (getX st (i :: q)).val + ((i2 : ℚ) - (i : ℚ)) ≤
                  (getX st (i2 :: q)).val := by
            intro q hq hqp hval i i2 hii hcnt
            exfalso
            obtain ⟨i3, hi3⟩ := inSub_strict hq hqp
            have hv3 : (getLT root (i3 :: p)).isSome := valid_suffix hi3 hval
            have := valid_child_index hp hv3
            simp [LayoutTree.children] at this
          have hgapsC : ∀ i i2 : Nat, i < i2 → i2 < 0 →
              (getX st (i :: p)).val + ((i2 : ℚ) - (i : ℚ)) ≤
                (getX st (i2 :: p)).val := by
            intro i i2 _ h
            omega
          simp only [firstWalkF, LayoutTree.children]
          cases hlp : leftSibP p with
          | none =>
              obtain ⟨g1, g2, g3, g4, g5, g6, g7, g8, g9, g10, g11, g12⟩ :=
                FWPost_place root p hn0 st st
                  (fun q _ => rfl) (fun q _ => rfl) (fun q _ => rfl)
                  (fun q _ => rfl) (fun q _ => rfl)
                  (fun q t ht => Or.inl ht) (fun q _ => rfl)
                  hpre.panc hpre.ppd rfl (fun q => rfl)
                  hgapsDeep hgapsC
                  (fun nv => { nv with x := 0 })
                  (fun nv => rfl) (fun nv => rfl) (fun nv => rfl)
                  (fun nv => rfl) (fun nv => rfl)
                  (fun nv h1 h2 h3 h4 => ⟨Q.pd_zero, h2, h3, h4⟩)
              exact ⟨g1, g2, g3, g4, g5, g6, g7, g8, g9, g10, g11, g12,
                fun w hw => by rw [hlp] at hw; cases hw⟩
          | some w =>
              have hpP : hasPath st p := hpre.pkeys p (by rw [hp]; rfl)
              obtain ⟨i0, t0, hpshape, hwshape⟩ := leftSibP_shape hlp
              have hwns : ¬ inSub p w := by
                rw [hpshape, hwshape]
                exact not_inSub_leftSib
              obtain ⟨g1, g2, g3, g4, g5, g6, g7, g8, g9, g10, g11, g12⟩ :=
                FWPost_place root p hn0 st st
                  (fun q _ => rfl) (fun q _ => rfl) (fun q _ => rfl)
                  (fun q _ => rfl) (fun q _ => rfl)
                  (fun q t ht => Or.inl ht) (fun q _ => rfl)
                  hpre.panc hpre.ppd rfl (fun q => rfl)
                  hgapsDeep hgapsC
                  (fun nv => { nv with x := getX st w + 1 })
                  (fun nv => rfl) (fun nv => rfl) (fun nv => rfl)
                  (fun nv => rfl) (fun nv => rfl)
                  (fun nv h1 h2 h3 h4 =>
                    ⟨Q.pd_add (hpre.ppd w).1 Q.pd_one, h2, h3, h4⟩)
              refine ⟨g1, g2, g3, g4, g5, g6, g7, g8, g9, g10, g11, g12, ?_⟩
              intro w2 hw2
              rw [hlp] at hw2
              injection hw2 with hw2
              subst hw2
              show (getX (setNV st p _) p).val = _
              unfold getX
              rw [getNV_setNV_self st p _ hpP]
              show (getX st w + 1).val = _
              rw [Q.val_add (hpre.ppd _).1 Q.pd_one, Q.val_one]
              rfl
      | cons c cs =>
          have hn : cnt root p = (c :: cs).length := by
            rw [cnt_of_getLT hp]
            rfl
          have hfw : ∀ (i : Nat) (c2 : LayoutTree) (s : St),
              getLT root (i :: p) = some c2 → FWPre root (i :: p) s →
              FWPost root (i :: p) s (firstWalkF root fuel 1 c2 (i :: p) s) := by
            intro i c2 s hget hpre2
            apply ih c2 (i :: p) s hget ?_ hpre2
            have hmem : c2 ∈ c :: cs := by
              rw [getLT_child, hp] at hget
              simp only [Option.some_bind] at hget
              exact List.get?_mem hget
            exact heightF_child hh hmem
          have hinv0 : FCInv root p (c :: cs).length 0 st st ((0 : Nat) :: p) := by
            refine ⟨fun q _ => rfl, fun q _ => rfl, fun q _ => rfl,
              fun q _ => rfl, fun q _ => rfl, fun q _ => rfl, fun q => rfl,
              fun k hk => absurd hk (by omega), fun m => le_refl _,
              fun k hk => absurd hk (by omega), ?_, hpre.panc, hpre.ppd, rfl,
              ⟨0, by omega, rfl⟩⟩
            intro q t ht hq
            obtain ⟨m, hm, _⟩ := hq
            omega
          have halign0 : ∀ (i : Nat) (c2 : LayoutTree),
              (c :: cs).get? i = some c2 →
              getLT root ((0 + i) :: p) = some c2 := by
            intro i c2 hc2
            rw [show (0 : Nat) + i = i from by omega]
            exact getLT_child_get hp hc2
          have hfold := fwChildren_fold root p hn fuel 1 Q.pd_one
            (fun l q s => firstWalkF root fuel 1 l q s) hfw st hpre
            (c :: cs) 0 st ((0 : Nat) :: p) (by omega) halign0 hinv0
          simp only [firstWalkF, LayoutTree.children]
          rw [show (fwChildren (fun l q s => firstWalkF root fuel 1 l q s)
              fuel root 1 (c :: cs) p st) =
            (List.foldl (fun acc ic =>
              apportion fuel root 1 (ic.1 :: p) acc.2
                ((fun l q s => firstWalkF root fuel 1 l q s) ic.2
                  (ic.1 :: p) acc.1))
              (st, (0 : Nat) :: p) (List.enumFrom 0 (c :: cs))) from rfl]
          set ST1 := (List.foldl (fun acc ic =>
            apportion fuel root 1 (ic.1 :: p) acc.2
              ((fun l q s => firstWalkF root fuel 1 l q s) ic.2
                (ic.1 :: p) acc.1))
            (st, (0 : Nat) :: p) (List.enumFrom 0 (c :: cs))).1 with hST1
          have hkeys1 : ∀ q, (getLT root q).isSome → hasPath ST1 q := by
            intro q hq
            unfold hasPath
            rw [hfold.keys]
            exact hpre.pkeys q hq
          have hCS : ∀ m, chRun ST1 p m ((c :: cs).length - m) ≤ 0 := by
            intro m
            have h0 : chRun st p m ((c :: cs).length - m) = 0 :=
              chRun_zero_of (fun i => (hpre.pz _ (inSub_child p i)).2) m _
            exact le_trans (hfold.cs0 m) (le_of_eq h0)
          have hgapsC2 := gaps_after_shiftTree root p hn ST1 hfold.pd hkeys1
            (fun k hk => hfold.g1 k hk) hCS
          obtain ⟨S1, S2, S3, S4, S5⟩ :=
            shiftTree_main root p hn ST1 hfold.pd hkeys1
          set ST2 := shiftTree ((List.range (c :: cs).length).map (· :: p))
            ST1 with hST2
          have hnotF : ∀ q, ¬ inSub p q → ¬ inForest p (c :: cs).length q :=
            fun q hq hf => hq (inForest_inSub hf).1
          have hnotFp : ¬ inForest p (c :: cs).length p :=
            fun hf => (inForest_inSub hf).2 rfl
          have hqchild : ∀ q, ¬ inSub p q → ∀ i : Nat,
              i < (c :: cs).length → q ≠ i :: p := by
            intro q hq i _ heq
            exact hq (heq ▸ inSub_child p i)
          have hFx : ∀ q, ¬ inSub p q → getX ST2 q = getX st q := by
            intro q hq
            rw [(S1 q (hqchild q hq)).1, hfold.fx q (hnotF q hq)]
          have hFmod : ∀ q, ¬ inSub p q → getMod ST2 q = getMod st q := by
            intro q hq
            rw [(S1 q (hqchild q hq)).2, hfold.fmod q (hnotF q hq)]
          have hFsh : ∀ q, ¬ inSub p q ∨ q = p →
              getShift ST2 q = getShift st q := by
            intro q hq
            rw [(S2 q).1]
            rcases hq with hq | hq
            · exact hfold.fshift q (hnotF q hq)
            · subst hq
              exact hfold.fshift q hnotFp
          have hFch : ∀ q, ¬ inSub p q ∨ q = p →
              getChange ST2 q = getChange st q := by
            intro q hq
            rw [(S2 q).2.1]
            rcases hq with hq | hq
            · exact hfold.fchange q (hnotF q hq)
            · subst hq
              exact hfold.fchange q hnotFp
          have hFth : ∀ q, ¬ inSub p q ∨ q = p →
              getThread ST2 q = getThread st q := by
            intro q hq
            rw [(S2 q).2.2.1]
            rcases hq with hq | hq
            · exact hfold.fth q (hnotF q hq)
            · subst hq
              exact hfold.fth q hnotFp
          have hFthN : ∀ q t, getThread ST2 q = some t →
              getThread st q = some t ∨ (inSub p q ∧ q ≠ p ∧ inSub p t) := by
            intro q t ht
            rw [(S2 q).2.2.1] at ht
            by_cases hf : inForest p (c :: cs).length q
            · have htf := hfold.thFj q t ht hf
              exact Or.inr ⟨(inForest_inSub hf).1, (inForest_inSub hf).2,
                (inForest_inSub htf).1⟩
            · rw [hfold.fth q hf] at ht
              exact Or.inl ht
          have hFanc : ∀ q, ¬ inSub p q ∨ q = p →
              getAnc ST2 q = getAnc st q := by
            intro q hq
            rw [(S2 q).2.2.2.1]
            rcases hq with hq | hq
            · exact hfold.fanc q (hnotF q hq)
            · subst hq
              exact hfold.fanc q hnotFp
          have hancS2 : ancSub ST2 := by
            intro q
            rw [(S2 q).2.2.2.1]
            exact hfold.ancS q
          have hkeys2 : ST2.map Prod.fst = st.map Prod.fst :=
            S3.trans hfold.keys
          have hy2 : ∀ q, getY ST2 q = getY st q := by
            intro q
            rw [(S2 q).2.2.2.2]
            exact hfold.fy q
          have hxdeep : ∀ q, inSub p q → q ≠ p → ∀ i : Nat,
              getX ST2 (i :: q) = getX ST1 (i :: q) := by
            intro q hq hqp i
            refine (S1 _ ?_).1
            intro i2 _ heq
            have hlen := congrArg List.length heq
            have hlq := inSub_len hq
            simp at hlen
            exact hqp (inSub_same_len hq (by omega)).symm
          have hgapsDeep : ∀ q, inSub p q → q ≠ p → (getLT root q).isSome →
              ∀ i i2 : Nat, i < i2 → i2 < cnt root q →
                (getX ST2 (i :: q)).val + ((i2 : ℚ) - (i : ℚ)) ≤
                  (getX ST2 (i2 :: q)).val := by
            intro q hq hqp hval i i2 hii hcnt
            rw [hxdeep q hq hqp i, hxdeep q hq hqp i2]
            obtain ⟨k, hk⟩ := inSub_strict hq hqp
            have hvk : (getLT root (k :: p)).isSome := valid_suffix hk hval
            have hkn : k < (c :: cs).length := valid_child_index hp hvk
            exact hfold.gaps k hkn q hk hval i i2 hii hcnt
          have hhalfpd : ((1 : Q) / 2).pd := Q.pd_div Q.pd_one (by decide)
          set MIDV : Q := (getX ST2 (0 :: p) +
            getX ST2 (((c :: cs).length - 1) :: p)) * (1 / 2) with hMIDV
          have hMIDVpd : MIDV.pd := by
            rw [hMIDV]
            exact Q.pd_mul (Q.pd_add (S4 _).1 (S4 _).1) hhalfpd
          cases hlp : leftSibP p with
          | none =>
              obtain ⟨g1, g2, g3, g4, g5, g6, g7, g8, g9, g10, g11, g12⟩ :=
                FWPost_place root p hn st ST2 hFx hFmod hFsh hFch hFth hFthN
                  hFanc hancS2 S4 hkeys2 hy2 hgapsDeep hgapsC2
                  (fun nv => { nv with x := MIDV })
                  (fun nv => rfl) (fun nv => rfl) (fun nv => rfl)
                  (fun nv => rfl) (fun nv => rfl)
                  (fun nv h1 h2 h3 h4 => ⟨hMIDVpd, h2, h3, h4⟩)
              exact ⟨g1, g2, g3, g4, g5, g6, g7, g8, g9, g10, g11, g12,
                fun w hw => by rw [hlp] at hw; cases hw⟩
          | some w =>
              obtain ⟨i0, t0, hpshape, hwshape⟩ := leftSibP_shape hlp
              have hwns : ¬ inSub p w := by
                rw [hpshape, hwshape]
                exact not_inSub_leftSib
              have hpP2 : hasPath ST2 p := by
                unfold hasPath
                rw [hkeys2]
                exact hpre.pkeys p (by rw [hp]; rfl)
              show FWPost root p st
                (setNV (setNV ST2 p (fun nv => { nv with x := getX ST2 w + 1 }))
                  p (fun nv => { nv with mod := getX ST2 w + 1 - MIDV }))
              rw [setNV_setNV]
              obtain ⟨g1, g2, g3, g4, g5, g6, g7, g8, g9, g10, g11, g12⟩ :=
                FWPost_place root p hn st ST2 hFx hFmod hFsh hFch hFth hFthN
                  hFanc hancS2 S4 hkeys2 hy2 hgapsDeep hgapsC2
                  (fun nv =>
                    { { nv with x := getX ST2 w + 1 } with mod := getX ST2 w + 1 - MIDV })
                  (fun nv => rfl) (fun nv => rfl) (fun nv => rfl)
                  (fun nv => rfl) (fun nv => rfl)
                  (fun nv h1 h2 h3 h4 =>
                    ⟨Q.pd_add (S4 _).1 Q.pd_one,
                     Q.pd_sub (Q.pd_add (S4 _).1 Q.pd_one) hMIDVpd,
                     h3, h4⟩)
              refine ⟨g1, g2, g3, g4, g5, g6, g7, g8, g9, g10, g11, g12, ?_⟩
              intro w2 hw2
              rw [hlp] at hw2
              injection hw2 with hw2
              subst hw2
              unfold getX
              rw [getNV_setNV_self ST2 p _ hpP2]
              show (getX ST2 w + 1).val = _
              rw [Q.val_add (S4 _).1 Q.pd_one, Q.val_one, hFx w hwns]
              rfl

theorem swChildren_fold (root : LayoutTree) (p : Path) (dy : Q) (fuel : Nat)
    (shQ : Q) (syv : Q)
    (hsw : ∀ (i : Nat) (c : LayoutTree) (mxv : Q) (stS : St),
      getLT root (i :: p) = some c → stPD stS →
      (∀ q, (getLT root q).isSome → hasPath stS q) →
      SWPost root (i :: p) shQ.val stS
        (secondWalkF dy fuel c (i :: p) shQ (some syv) (some mxv) stS).1) :
    ∀ (cs2 : List LayoutTree) (j : Nat) (stj : St) (mx2 : Q),
      (∀ i c, cs2.get? i = some c → getLT root ((j + i) :: p) = some c) →
      stPD stj → (∀ q, (getLT root q).isSome → hasPath stj q) →
      (∀ q, (∀ d : Nat, d < cs2.length → ¬ inSub ((j + d) :: p) q) →
        getX (List.foldl (fun acc ic => secondWalkF dy fuel ic.2 (ic.1 :: p)
          shQ (some syv) (some acc.2) acc.1) (stj, mx2)
          (List.enumFrom j cs2)).1 q = getX stj q) ∧
      (∀ q, getMod (List.foldl (fun acc ic => secondWalkF dy fuel ic.2
          (ic.1 :: p) shQ (some syv) (some acc.2) acc.1) (stj, mx2)
          (List.enumFrom j cs2)).1 q = getMod stj q) ∧
      (∀ q, getShift (List.foldl (fun acc ic => secondWalkF dy fuel ic.2
          (ic.1 :: p) shQ (some syv) (some acc.2) acc.1) (stj, mx2)
          (List.enumFrom j cs2)).1 q = getShift stj q ∧
        getChange (List.foldl (fun acc ic => secondWalkF dy fuel ic.2
          (ic.1 :: p) shQ (some syv) (some acc.2) acc.1) (stj, mx2)
          (List.enumFrom j cs2)).1 q = getChange stj q) ∧
      ((List.foldl (fun acc ic => secondWalkF dy fuel ic.2 (ic.1 :: p)
          shQ (some syv) (some acc.2) acc.1) (stj, mx2)
          (List.enumFrom j cs2)).1.map Prod.fst = stj.map Prod.fst) ∧
      stPD (List.foldl (fun acc ic => secondWalkF dy fuel ic.2 (ic.1 :: p)
          shQ (some syv) (some acc.2) acc.1) (stj, mx2)
          (List.enumFrom j cs2)).1 ∧
      (∀ d : Nat, d < cs2.length →
        (getX (List.foldl (fun acc ic => secondWalkF dy fuel ic.2 (ic.1 :: p)
          shQ (some syv) (some acc.2) acc.1) (stj, mx2)
          (List.enumFrom j cs2)).1 ((j + d) :: p)).val =
        (getX stj ((j + d) :: p)).val + shQ.val) ∧
      (∀ t, (∃ d : Nat, d < cs2.length ∧ inSub ((j + d) :: p) t) →
        (getLT root t).isSome →
        ∀ i i2 : Nat, i < cnt root t → i2 < cnt root t →
          (getX (List.foldl (fun acc ic => secondWalkF dy fuel ic.2 (ic.1 :: p)
            shQ (some syv) (some acc.2) acc.1) (stj, mx2)
            (List.enumFrom j cs2)).1 (i2 :: t)).val -
          (getX (List.foldl (fun acc ic => secondWalkF dy fuel ic.2 (ic.1 :: p)
            shQ (some syv) (some acc.2) acc.1) (stj, mx2)
            (List.enumFrom j cs2)).1 (i :: t)).val =
          (getX stj (i2 :: t)).val - (getX stj (i :: t)).val) := by
  intro cs2
  induction cs2 with
  | nil =>
      intro j stj mx2 halign hpd hkeys
      have hnil : List.enumFrom j ([] : List LayoutTree) = [] := rfl
      rw [hnil]
      dsimp only [List.foldl_nil]
      exact ⟨fun q _ => rfl, fun q => rfl, fun q => ⟨rfl, rfl⟩, rfl, hpd,
        fun d hd => absurd hd (by simp),
        fun t ht _ i i2 _ _ => by obtain ⟨d, hd, _⟩ := ht; simp at hd⟩
  | cons c rest ihl =>
      intro j stj mx2 halign hpd hkeys
      simp only [List.enumFrom_cons, List.foldl_cons]
      have hget : getLT root (j :: p) = some c := by
        have h0 := halign 0 c rfl
        simpa using h0
      have hstep := hsw j c mx2 stj hget hpd hkeys
      have halign2 : ∀ i c2, rest.get? i = some c2 →
          getLT root ((j + 1 + i) :: p) = some c2 := by
        intro i c2 hc2
        rw [show j + 1 + i = j + (i + 1) from by omega]
        exact halign (i + 1) c2 (by simpa using hc2)
      have hkeys2 : ∀ q, (getLT root q).isSome →
          hasPath (secondWalkF dy fuel c (j :: p) shQ (some syv)
            (some mx2) stj).1 q := by
        intro q hq
        unfold hasPath
        rw [hstep.wkeys]
        exact hkeys q hq
      obtain ⟨F1, F2, F3, F4, F5, F6, F7⟩ := ihl (j + 1)
        (secondWalkF dy fuel c (j :: p) shQ (some syv) (some mx2) stj).1
        (secondWalkF dy fuel c (j :: p) shQ (some syv) (some mx2) stj).2
        halign2 hstep.wpd hkeys2
      have hsibdisj : ∀ (d : Nat) (q : Path), inSub (j :: p) q →
          ¬ inSub ((j + 1 + d) :: p) q := by
        intro d q hq hq2
        have := child_discrim hq hq2
        omega
      refine ⟨?_, ?_, ?_, ?_, F5, ?_, ?_⟩
      · intro q hq
        rw [F1 q (fun d hd => by
            rw [show j + 1 + d = j + (d + 1) from by omega]
            exact hq (d + 1) (by simp; omega)),
          hstep.wx q (hq 0 (by simp))]
      · intro q
        rw [F2 q, hstep.wmod q]
      · intro q
        obtain ⟨e1, e2⟩ := F3 q
        obtain ⟨e3, e4⟩ := hstep.wsc q
        exact ⟨e1.trans e3, e2.trans e4⟩
      · rw [F4, hstep.wkeys]
      · intro d hd
        by_cases hd0 : d = 0
        · subst hd0
          rw [show j + 0 = j from rfl,
            F1 (j :: p) (fun d2 _ => hsibdisj d2 (j :: p) (inSub_refl _))]
          exact hstep.wroot
        · obtain ⟨d2, rfl⟩ : ∃ d2, d = d2 + 1 := ⟨d - 1, by omega⟩
          rw [show j + (d2 + 1) = j + 1 + d2 from by omega,
            F6 d2 (by simp at hd; omega),
            hstep.wx _ (by
              intro hs
              have := child_discrim hs (inSub_refl ((j + 1 + d2) :: p))
              omega)]
      · intro t ht hval i i2 hi hi2
        obtain ⟨d, hd, hdt⟩ := ht
        by_cases hd0 : d = 0
        · subst hd0
          rw [show j + 0 = j from rfl] at hdt
          have hfr : ∀ i3 : Nat,
              getX (List.foldl (fun acc ic => secondWalkF dy fuel ic.2
                (ic.1 :: p) shQ (some syv) (some acc.2) acc.1)
                ((secondWalkF dy fuel c (j :: p) shQ (some syv)
                  (some mx2) stj).1,
                 (secondWalkF dy fuel c (j :: p) shQ (some syv)
                  (some mx2) stj).2)
                (List.enumFrom (j + 1) rest)).1 (i3 :: t) =
              getX (secondWalkF dy fuel c (j :: p) shQ (some syv)
                (some mx2) stj).1 (i3 :: t) := by
            intro i3
            exact F1 _ (fun d2 _ => hsibdisj d2 _ (inSub_cons hdt i3))
          rw [hfr i, hfr i2]
          exact hstep.wdiff t hdt hval i i2 hi hi2
        · obtain ⟨d2, rfl⟩ : ∃ d2, d = d2 + 1 := ⟨d - 1, by omega⟩
          rw [show j + (d2 + 1) = j + 1 + d2 from by omega] at hdt
          have hxs : ∀ i3 : Nat,
              getX (secondWalkF dy fuel c (j :: p) shQ (some syv)
                (some mx2) stj).1 (i3 :: t) = getX stj (i3 :: t) := by
            intro i3
            apply hstep.wx
            intro hs
            have hsub2 : inSub ((j + 1 + d2) :: p) (i3 :: t) :=
              inSub_cons hdt i3
            have := child_discrim hs hsub2
            omega
          rw [F7 t ⟨d2, by simp at hd; omega, hdt⟩ hval i i2 hi hi2,
            hxs i, hxs i2]

theorem sw_core (root : LayoutTree) (dy : Q) (fuel : Nat)
    (csl : List LayoutTree) (p : Path) (sh : Q) (st st2real : St)
    (syv2 : Q) (mx1 : Q)
    (hn : cnt root p = csl.length)
    (halign : ∀ (i : Nat) (c : LayoutTree), csl.get? i = some c →
      getLT root ((0 + i) :: p) = some c)
    (hshpd : sh.pd) (hpd : stPD st)
    (hx2 : ∀ q, q ≠ p → getX st2real q = getX st q)
    (hx2p : getX st2real p = getX st p + sh)
    (hmod2 : ∀ q, getMod st2real q = getMod st q)
    (hsc2 : ∀ q, getShift st2real q = getShift st q ∧
      getChange st2real q = getChange st q)
    (hkeys2e : st2real.map Prod.fst = st.map Prod.fst)
    (hpd2 : stPD st2real)
    (hkeys : ∀ q, (getLT root q).isSome → hasPath st q)
    (hsw : ∀ (i : Nat) (c : LayoutTree) (mxv : Q) (stS : St),
      getLT root (i :: p) = some c → stPD stS →
      (∀ q, (getLT root q).isSome → hasPath stS q) →
      SWPost root (i :: p) (sh + getMod st2real p).val stS
        (secondWalkF dy fuel c (i :: p) (sh + getMod st2real p)
          (some syv2) (some mxv) stS).1) :
    SWPost root p sh.val st
      (List.foldl (fun acc ic => secondWalkF dy fuel ic.2 (ic.1 :: p)
        (sh + getMod st2real p) (some syv2) (some acc.2) acc.1)
        (st2real, mx1) (List.enumFrom 0 csl)).1 := by
  have hkeys2 : ∀ q, (getLT root q).isSome → hasPath st2real q := by
    intro q hq
    unfold hasPath
    rw [hkeys2e]
    exact hkeys q hq
  obtain ⟨F1, F2, F3, F4, F5, F6, F7⟩ := swChildren_fold root p dy fuel
    (sh + getMod st2real p) syv2 hsw csl 0 st2real mx1 halign hpd2 hkeys2
  have hnotsubp : ∀ d : Nat, ¬ inSub ((0 + d) :: p) p :=
    fun d => not_inSub_child_self p (0 + d)
  refine ⟨?_, ?_, ?_, ?_, ?_, F5, ?_⟩
  · intro q hq
    rw [F1 q (fun d _ hs => hq (inSub_of_child hs)),
      hx2 q (fun h => hq (h ▸ inSub_refl p))]
  · rw [F1 p (fun d _ => hnotsubp d), hx2p,
      Q.val_add (hpd _).1 hshpd]
  · intro q
    rw [F2 q, hmod2 q]
  · intro q
    obtain ⟨e1, e2⟩ := F3 q
    obtain ⟨e3, e4⟩ := hsc2 q
    exact ⟨e1.trans e3, e2.trans e4⟩
  · rw [F4, hkeys2e]
  · intro t ht hval i i2 hi hi2
    have hchild_ne_p : ∀ i3 : Nat, i3 :: t ≠ p := by
      intro i3 heq
      have hl := inSub_len ht
      have := congrArg List.length heq
      simp at this
      omega
    by_cases htp : t = p
    · subst htp
      rw [hn] at hi hi2
      have h6 : ∀ i3 : Nat, i3 < csl.length →
          (getX (List.foldl (fun acc ic => secondWalkF dy fuel ic.2
            (ic.1 :: t) (sh + getMod st2real t) (some syv2) (some acc.2)
            acc.1) (st2real, mx1) (List.enumFrom 0 csl)).1 (i3 :: t)).val =
          (getX st2real (i3 :: t)).val + (sh + getMod st2real t).val := by
        intro i3 hi3
        have := F6 i3 hi3
        rw [Nat.zero_add] at this
        exact this
      rw [h6 i hi, h6 i2 hi2, hx2 _ (hchild_ne_p i), hx2 _ (hchild_ne_p i2)]
      ring
    · obtain ⟨k, hk⟩ := inSub_strict ht htp
      have hvk : (getLT root (k :: p)).isSome := valid_suffix hk hval
      have hkn : k < csl.length := by
        rw [← hn]
        cases hcnt : getLT root p with
        | none =>
            rw [getLT_child, hcnt] at hvk
            simp at hvk
        | some tt =>
            rw [getLT_child, hcnt] at hvk
            simp only [Option.some_bind] at hvk
            rw [cnt_of_getLT hcnt]
            cases hg : tt.children.get? k with
            | none => rw [hg] at hvk; simp at hvk
            | some cc =>
                rw [List.get?_eq_some] at hg
                exact hg.1
      have h7 := F7 t ⟨k, hkn, by rw [Nat.zero_add]; exact hk⟩ hval i i2 hi hi2
      rw [h7, hx2 _ (hchild_ne_p i), hx2 _ (hchild_ne_p i2)]

theorem secondWalk_main (root : LayoutTree) (dy : Q) :
    ∀ (fuel : Nat) (lt : LayoutTree) (p : Path) (sh : Q) (sy : Option Q)
      (mx : Option Q) (st : St),
      getLT root p = some lt →
      heightF fuel lt < fuel →
      sh.pd → stPD st →
      (∀ q, (getLT root q).isSome → hasPath st q) →
      SWPost root p sh.val st (secondWalkF dy fuel lt p sh sy mx st).1 := by
  intro fuel
  induction fuel with
  | zero =>
      intro lt p sh sy mx st hp hh
      exact absurd hh (by simp [heightF])
  | succ fuel ih =>
      intro lt p sh sy mx st hp hh hshpd hpd hkeys
      obtain ⟨vv, lf, csl⟩ := lt
      have hpP : hasPath st p := hkeys p (by rw [hp]; rfl)
      have hn : cnt root p = csl.length := by
        rw [cnt_of_getLT hp]
        rfl
      have halign : ∀ (i : Nat) (c : LayoutTree), csl.get? i = some c →
          getLT root ((0 + i) :: p) = some c := by
        intro i c hc
        rw [show (0 : Nat) + i = i from by omega]
        exact getLT_child_get hp hc
      have hheights : ∀ (i : Nat) (c : LayoutTree),
          getLT root (i :: p) = some c → heightF fuel c < fuel := by
        intro i c hget
        have hmem : c ∈ csl := by
          rw [getLT_child, hp] at hget
          simp only [Option.some_bind] at hget
          exact List.get?_mem hget
        exact heightF_child hh hmem
      have hx1 : ∀ q, q ≠ p →
          getX (setX st p (getX st p + sh)) q = getX st q :=
        fun q hq => getX_setX_n st p _ hq
      have hx1p : getX (setX st p (getX st p + sh)) p = getX st p + sh :=
        getX_setX_self st p _ hpP
      have hpd1 : stPD (setX st p (getX st p + sh)) :=
        stPD_setX st p _ hpd (Q.pd_add (hpd _).1 hshpd)
      simp only [secondWalkF, LayoutTree.children]
      cases sy with
      | none =>
          rw [show swChildren
              (fun l q s y m t => secondWalkF dy fuel l q s y m t) csl p
              (sh + getMod (setX st p (getX st p + sh)) p)
              (getY (setX st p (getX st p + sh)) p + dy)
              (match mx with
               | none => getX (setX st p (getX st p + sh)) p
               | some m =>
                  if Q.lt (getX (setX st p (getX st p + sh)) p) m then
                    getX (setX st p (getX st p + sh)) p
                  else m)
              (setX st p (getX st p + sh)) =
            List.foldl (fun acc ic => secondWalkF dy fuel ic.2 (ic.1 :: p)
              (sh + getMod (setX st p (getX st p + sh)) p)
              (some (getY (setX st p (getX st p + sh)) p + dy))
              (some acc.2) acc.1)
              (setX st p (getX st p + sh),
               (match mx with
                | none => getX (setX st p (getX st p + sh)) p
                | some m =>
                   if Q.lt (getX (setX st p (getX st p + sh)) p) m then
                     getX (setX st p (getX st p + sh)) p
                   else m))
              (List.enumFrom 0 csl) from rfl]
          refine sw_core root dy fuel csl p sh st _ _ _ hn halign hshpd hpd
            hx1 hx1p (fun q => getMod_setX_e st p _ q)
            (fun q => ⟨getShift_setX_e st p _ q, getChange_setX_e st p _ q⟩)
            (by unfold setX; rw [keys_setNV]) hpd1 hkeys ?_
          intro i c mxv stS hget hpdS hkeysS
          exact ih c (i :: p) _ _ (some mxv) stS hget (hheights i c hget)
            (Q.pd_add hshpd (hpd1 _).2.1) hpdS hkeysS
      | some s =>
          rw [show swChildren
              (fun l q s2 y m t => secondWalkF dy fuel l q s2 y m t) csl p
              (sh + getMod (setY (setX st p (getX st p + sh)) p s) p)
              (s + dy)
              (match mx with
               | none => getX (setY (setX st p (getX st p + sh)) p s) p
               | some m =>
                  if Q.lt (getX (setY (setX st p (getX st p + sh)) p s) p)
                      m then
                    getX (setY (setX st p (getX st p + sh)) p s) p
                  else m)
              (setY (setX st p (getX st p + sh)) p s) =
            List.foldl (fun acc ic => secondWalkF dy fuel ic.2 (ic.1 :: p)
              (sh + getMod (setY (setX st p (getX st p + sh)) p s) p)
              (some (s + dy)) (some acc.2) acc.1)
              (setY (setX st p (getX st p + sh)) p s,
               (match mx with
                | none => getX (setY (setX st p (getX st p + sh)) p s) p
                | some m =>
                   if Q.lt (getX (setY (setX st p (getX st p + sh)) p s) p)
                       m then
                     getX (setY (setX st p (getX st p + sh)) p s) p
                   else m))
              (List.enumFrom 0 csl) from rfl]
          refine sw_core root dy fuel csl p sh st _ _ _ hn halign hshpd hpd
            (fun q hq => by rw [getX_setY_e]; exact hx1 q hq)
            (by rw [getX_setY_e]; exact hx1p)
            (fun q => by rw [getMod_setY_e]; exact getMod_setX_e st p _ q)
            (fun q => ⟨by rw [getShift_setY_e]; exact getShift_setX_e st p _ q,
              by rw [getChange_setY_e]; exact getChange_setX_e st p _ q⟩)
            (by unfold setY setX; rw [keys_setNV, keys_setNV])
            (stPD_setY _ _ _ hpd1) hkeys ?_
          intro i c mxv stS hget hpdS hkeysS
          exact ih c (i :: p) _ _ (some mxv) stS hget (hheights i c hget)
            (Q.pd_add hshpd ((stPD_setY _ _ _ hpd1) _).2.1) hpdS hkeysS

/-! ### Initial state facts -/

theorem mem_allPathsF :
    ∀ (fuel : Nat) (t : LayoutTree) (s : List Nat) (t2 : LayoutTree) (p : Path),
      getDown t s = some t2 → heightF fuel t < fuel →
      s.reverse ++ p ∈ allPathsF fuel t p := by
  intro fuel
  induction fuel with
  | zero =>
      intro t s t2 p _ hh
      exact absurd hh (Nat.not_lt_zero _)
  | succ fuel ih =>
      intro t s t2 p hdown hh
      obtain ⟨vv, lf, cs⟩ := t
      cases s with
      | nil =>
          show [].reverse ++ p ∈
            p :: (cs.enum.map (fun ic => allPathsF fuel ic.2 (ic.1 :: p))).flatten
          exact List.mem_cons_self _ _
      | cons m srest =>
          simp only [getDown] at hdown
          cases hc : cs.get? m with
          | none =>
              rw [show (LayoutTree.mk vv lf cs).children = cs from rfl, hc] at hdown
              cases hdown
          | some c =>
              rw [show (LayoutTree.mk vv lf cs).children = cs from rfl, hc] at hdown
              have hcm : c ∈ cs := List.get?_mem hc
              have hhc : heightF fuel c < fuel := heightF_child hh hcm
              have hin := ih c srest t2 (m :: p) hdown hhc
              show (m :: srest).reverse ++ p ∈
                p :: (cs.enum.map (fun ic => allPathsF fuel ic.2 (ic.1 :: p))).flatten
              refine List.mem_cons.mpr (Or.inr ?_)
              refine List.mem_flatten.mpr ⟨allPathsF fuel c (m :: p), ?_, ?_⟩
              · exact List.mem_map.mpr ⟨(m, c), List.mk_mem_enum_iff_get?.mpr hc, rfl⟩
              · have hr : (m :: srest).reverse ++ p = srest.reverse ++ (m :: p) := by
                  rw [List.reverse_cons, List.append_assoc]
                  rfl
                rw [hr]
                exact hin

theorem initSt_entry (fuel : Nat) (root : LayoutTree) (lvl : Int)
    (e : Path × NV) (he : e ∈ initSt fuel root lvl) :
    e.2 = ⟨0, Q.ofInt (lvl + e.1.length), 0, 0, 0, none, e.1⟩ := by
  unfold initSt at he
  obtain ⟨pp, _, rfl⟩ := List.mem_map.mp he
  rfl

theorem keys_initSt (fuel : Nat) (root : LayoutTree) (lvl : Int) :
    (initSt fuel root lvl).map Prod.fst = allPathsF fuel root [] := by
  unfold initSt
  rw [List.map_map]
  have h : ∀ pp ∈ allPathsF fuel root [],
      (Prod.fst ∘ fun p : Path =>
        (p, ({ x := 0, y := Q.ofInt (lvl + p.length), mod := 0, shift := 0,
               change := 0, thread := none, ancestor := p } : NV))) pp = id pp :=
    fun pp _ => rfl
  rw [List.map_congr_left h, List.map_id]

theorem getNV_initSt (fuel : Nat) (root : LayoutTree) (lvl : Int) (q : Path) :
    getNV (initSt fuel root lvl) q = default ∨
    getNV (initSt fuel root lvl) q =
      ⟨0, Q.ofInt (lvl + q.length), 0, 0, 0, none, q⟩ := by
  unfold getNV
  cases hf : (initSt fuel root lvl).find? (fun e => decide (e.1 = q)) with
  | none => exact Or.inl rfl
  | some e =>
      right
      have hq : e.1 = q := by
        have := List.find?_some hf
        simpa using this
      have he := initSt_entry fuel root lvl e (List.mem_of_find?_eq_some hf)
      show e.2 = _
      rw [he, hq]

theorem getThread_initSt (fuel : Nat) (root : LayoutTree) (lvl : Int)
    (q : Path) : getThread (initSt fuel root lvl) q = none := by
  unfold getThread
  rcases getNV_initSt fuel root lvl q with h | h <;> rw [h] <;> rfl

theorem getShift_initSt (fuel : Nat) (root : LayoutTree) (lvl : Int)
    (q : Path) : getShift (initSt fuel root lvl) q = 0 := by
  unfold getShift
  rcases getNV_initSt fuel root lvl q with h | h <;> rw [h] <;> rfl

theorem getChange_initSt (fuel : Nat) (root : LayoutTree) (lvl : Int)
    (q : Path) : getChange (initSt fuel root lvl) q = 0 := by
  unfold getChange
  rcases getNV_initSt fuel root lvl q with h | h <;> rw [h] <;> rfl

theorem stPD_initSt (fuel : Nat) (root : LayoutTree) (lvl : Int) :
    stPD (initSt fuel root lvl) := by
  intro p
  unfold getX getMod getShift getChange
  rcases getNV_initSt fuel root lvl p with h | h <;> rw [h] <;>
    exact ⟨Q.pd_zero, Q.pd_zero, Q.pd_zero, Q.pd_zero⟩

theorem ancSub_initSt (fuel : Nat) (root : LayoutTree) (lvl : Int) :
    ancSub (initSt fuel root lvl) := by
  intro q
  unfold getAnc
  rcases getNV_initSt fuel root lvl q with h | h
  · rw [h]
    exact Or.inr ⟨q, (List.append_nil q).symm⟩
  · rw [h]
    exact Or.inl rfl

theorem hasPath_initSt (fuel : Nat) (root : LayoutTree) (lvl : Int) (q : Path)
    (hq : (getLT root q).isSome) (hh : heightF fuel root < fuel) :
    hasPath (initSt fuel root lvl) q := by
  unfold hasPath
  rw [keys_initSt]
  obtain ⟨t2, ht2⟩ := Option.isSome_iff_exists.mp hq
  have hmem := mem_allPathsF fuel root q.reverse t2 [] ht2 hh
  simpa using hmem

theorem FWPre_initSt (fuel : Nat) (root : LayoutTree) (lvl : Int)
    (hh : heightF fuel root < fuel) :
    FWPre root [] (initSt fuel root lvl) := by
  refine ⟨?_, ?_, ancSub_initSt fuel root lvl, stPD_initSt fuel root lvl, ?_⟩
  · intro q _
    exact getThread_initSt fuel root lvl q
  · intro q _
    exact ⟨getShift_initSt fuel root lvl q, getChange_initSt fuel root lvl q⟩
  · intro q hq
    exact hasPath_initSt fuel root lvl q hq hh

theorem valid_of_cnt_pos {root : LayoutTree} {p : Path} (h : 0 < cnt root p) :
    (getLT root p).isSome := by
  cases hp : getLT root p with
  | none =>
      exfalso
      unfold cnt at h
      rw [hp] at h
      exact absurd h (lt_irrefl 0)
  | some t => rfl

theorem buchheim_sibling_gaps (fuel : Nat) (lt : LayoutTree) (rootLevel : Int)
    (hh : heightF fuel lt < fuel) (p : Path) (i j : Nat) (hij : i < j)
    (hj : j < cnt lt p) :
    (getX (buchheim fuel lt (initSt fuel lt rootLevel)).1 (i :: p)).val
      + ((j : ℚ) - (i : ℚ)) ≤
    (getX (buchheim fuel lt (initSt fuel lt rootLevel)).1 (j :: p)).val := by
  have hpre := FWPre_initSt fuel lt rootLevel hh
  have hroot : getLT lt [] = some lt := rfl
  have hPost := firstWalk_main lt fuel lt [] (initSt fuel lt rootLevel) hroot hh hpre
  have hvalp : (getLT lt p).isSome :=
    valid_of_cnt_pos (lt_of_le_of_lt (Nat.zero_le _) hj)
  have hgaps := hPost.fgaps p ⟨p, by simp⟩ hvalp i j hij hj
  have hkeys1 : ∀ q, (getLT lt q).isSome →
      hasPath (firstWalkF lt fuel 1 lt [] (initSt fuel lt rootLevel)) q := by
    intro q hq
    unfold hasPath
    rw [hPost.fkeys]
    exact hpre.pkeys q hq
  have hsw := secondWalk_main lt 1 fuel lt [] 0 none none
    (firstWalkF lt fuel 1 lt [] (initSt fuel lt rootLevel)) hroot hh
    Q.pd_zero hPost.fpd hkeys1
  have hdiff := hsw.wdiff p ⟨p, by simp⟩ hvalp i j (lt_trans hij hj) hj
  have hb : (buchheim fuel lt (initSt fuel lt rootLevel)).1 =
      (secondWalkF 1 fuel lt [] 0 none none
        (firstWalkF lt fuel 1 lt [] (initSt fuel lt rootLevel))).1 := rfl
  rw [hb]
  linarith [hgaps, hdiff]

/-! ### Positions of the extracted graph -/

theorem processLevel_eq_pfold {α : Type} [DecidableEq α] (key : Path → α)
    (st : St) (q : List (Path × LayoutTree)) (E : Extracted α) :
    processLevel key st q E = q.foldl (pStep key st) (E, []) := rfl

theorem pStep_positions {α : Type} [DecidableEq α] (key : Path → α) (st : St)
    (acc : Extracted α × List (Path × LayoutTree)) (e : Path × LayoutTree) :
    (pStep key st acc e).1.positions =
      dinsert acc.1.positions (key e.1) (getX st e.1, getY st e.1) := by
  unfold pStep
  cases hl : e.2.srcLeaf <;> simp [hl]

theorem pStep_snd {α : Type} [DecidableEq α] (key : Path → α) (st : St)
    (acc : Extracted α × List (Path × LayoutTree)) (e : Path × LayoutTree) :
    (pStep key st acc e).2 = acc.2 ++ childEntries e := rfl

theorem pfold_posKeys_mono {α : Type} [DecidableEq α] (key : Path → α)
    (st : St) (k : α) :
    ∀ (q : List (Path × LayoutTree))
      (acc : Extracted α × List (Path × LayoutTree)),
      k ∈ acc.1.positions.map Prod.fst →
      k ∈ ((q.foldl (pStep key st) acc).1).positions.map Prod.fst := by
  intro q
  induction q with
  | nil => intro acc h; exact h
  | cons e q ih =>
      intro acc h
      rw [List.foldl_cons]
      refine ih _ ?_
      rw [pStep_positions]
      exact (keys_dinsert_mem _ _ _ _).mpr (Or.inr h)

theorem pfold_member_key {α : Type} [DecidableEq α] (key : Path → α)
    (st : St) :
    ∀ (q : List (Path × LayoutTree))
      (acc : Extracted α × List (Path × LayoutTree))
      (e : Path × LayoutTree), e ∈ q →
      key e.1 ∈ ((q.foldl (pStep key st) acc).1).positions.map Prod.fst := by
  intro q
  induction q with
  | nil => intro acc e he; cases he
  | cons e0 q ih =>
      intro acc e he
      rw [List.foldl_cons]
      rcases List.mem_cons.mp he with rfl | he2
      · refine pfold_posKeys_mono key st _ q _ ?_
        rw [pStep_positions]
        exact (keys_dinsert_mem _ _ _ _).mpr (Or.inl rfl)
      · exact ih _ e he2

theorem pfold_kids_mem {α : Type} [DecidableEq α] (key : Path → α) (st : St) :
    ∀ (q : List (Path × LayoutTree))
      (acc : Extracted α × List (Path × LayoutTree))
      (x : Path × LayoutTree),
      x ∈ acc.2 ∨ (∃ e ∈ q, x ∈ childEntries e) →
      x ∈ (q.foldl (pStep key st) acc).2 := by
  intro q
  induction q with
  | nil =>
      intro acc x hx
      rcases hx with hx | ⟨e, he, _⟩
      · exact hx
      · cases he
  | cons e0 q ih =>
      intro acc x hx
      rw [List.foldl_cons]
      refine ih _ x ?_
      rcases hx with hx | ⟨e, he, hxe⟩
      · left
        rw [pStep_snd]
        exact List.mem_append_left _ hx
      · rcases List.mem_cons.mp he with rfl | he2
        · left
          rw [pStep_snd]
          exact List.mem_append_right _ hxe
        · right
          exact ⟨e, he2, hxe⟩

theorem dinsert_mem_or {α β : Type} [DecidableEq α] (m : List (α × β))
    (k : α) (v : β) (e : α × β) (he : e ∈ dinsert m k v) :
    e ∈ m ∨ e = (k, v) := by
  unfold dinsert at he
  split at he
  · obtain ⟨e0, he0, hmap⟩ := List.mem_map.mp he
    by_cases h0 : e0.1 = k
    · right
      rw [if_pos h0] at hmap
      exact hmap.symm
    · left
      rw [if_neg h0] at hmap
      exact hmap ▸ he0
  · rcases List.mem_append.mp he with h | h
    · exact Or.inl h
    · right
      simpa using h

theorem pfold_shape {α : Type} [DecidableEq α] (key : Path → α) (st : St) :
    ∀ (q : List (Path × LayoutTree))
      (acc : Extracted α × List (Path × LayoutTree)),
      (∀ e2 ∈ acc.1.positions, ∃ pth : Path,
        e2 = (key pth, (getX st pth, getY st pth))) →
      ∀ e2 ∈ ((q.foldl (pStep key st) acc).1).positions, ∃ pth : Path,
        e2 = (key pth, (getX st pth, getY st pth)) := by
  intro q
  induction q with
  | nil => intro acc h; exact h
  | cons e0 q ih =>
      intro acc h
      rw [List.foldl_cons]
      refine ih _ ?_
      intro e2 he2
      rw [pStep_positions] at he2
      rcases dinsert_mem_or _ _ _ _ he2 with h2 | rfl
      · exact h e2 h2
      · exact ⟨e0.1, rfl⟩

theorem extractGo_posKeys_mono {α : Type} [DecidableEq α] (key : Path → α)
    (st : St) (k : α) :
    ∀ (fuel : Nat) (q : List (Path × LayoutTree)) (E : Extracted α),
      k ∈ E.positions.map Prod.fst →
      k ∈ (extractGo key st fuel q E).positions.map Prod.fst := by
  intro fuel
  induction fuel with
  | zero => intro q E h; exact h
  | succ fuel ih =>
      intro q E h
      cases q with
      | nil => exact h
      | cons e0 q2 =>
          show k ∈ (extractGo key st fuel (processLevel key st (e0 :: q2) E).2
            (processLevel key st (e0 :: q2) E).1).positions.map Prod.fst
          refine ih _ _ ?_
          rw [processLevel_eq_pfold]
          exact pfold_posKeys_mono key st k _ _ h

theorem extractGo_shape {α : Type} [DecidableEq α] (key : Path → α)
    (st : St) :
    ∀ (fuel : Nat) (q : List (Path × LayoutTree)) (E : Extracted α),
      (∀ e2 ∈ E.positions, ∃ pth : Path,
        e2 = (key pth, (getX st pth, getY st pth))) →
      ∀ e2 ∈ (extractGo key st fuel q E).positions, ∃ pth : Path,
        e2 = (key pth, (getX st pth, getY st pth)) := by
  intro fuel
  induction fuel with
  | zero => intro q E h; exact h
  | succ fuel ih =>
      intro q E h
      cases q with
      | nil => exact h
      | cons e0 q2 =>
          show ∀ e2 ∈ (extractGo key st fuel
            (processLevel key st (e0 :: q2) E).2
            (processLevel key st (e0 :: q2) E).1).positions, _
          refine ih _ _ ?_
          rw [processLevel_eq_pfold]
          exact pfold_shape key st _ _ h

theorem extractGo_reach {α : Type} [DecidableEq α] (key : Path → α)
    (st : St) :
    ∀ (fuel : Nat) (q : List (Path × LayoutTree)) (E : Extracted α)
      (p0 : Path) (t0 : LayoutTree) (s : List Nat) (t2 : LayoutTree),
      (p0, t0) ∈ q → getDown t0 s = some t2 → heightF fuel t0 < fuel →
      key (s.reverse ++ p0) ∈
        (extractGo key st fuel q E).positions.map Prod.fst := by
  intro fuel
  induction fuel with
  | zero =>
      intro q E p0 t0 s t2 _ _ hh
      exact absurd hh (Nat.not_lt_zero _)
  | succ fuel ih =>
      intro q E p0 t0 s t2 hmem hdown hh
      cases q with
      | nil => cases hmem
      | cons e0 q2 =>
          show key (s.reverse ++ p0) ∈ (extractGo key st fuel
            (processLevel key st (e0 :: q2) E).2
            (processLevel key st (e0 :: q2) E).1).positions.map Prod.fst
          cases s with
          | nil =>
              refine extractGo_posKeys_mono key st _ fuel _ _ ?_
              rw [processLevel_eq_pfold]
              exact pfold_member_key key st (e0 :: q2) (E, []) (p0, t0) hmem
          | cons m srest =>
              obtain ⟨vv, lf, cs⟩ := t0
              simp only [getDown] at hdown
              cases hc : cs.get? m with
              | none =>
                  rw [show (LayoutTree.mk vv lf cs).children = cs from rfl,
                    hc] at hdown
                  cases hdown
              | some c =>
                  rw [show (LayoutTree.mk vv lf cs).children = cs from rfl,
                    hc] at hdown
                  have hcm : heightF fuel c < fuel :=
                    heightF_child hh (List.get?_mem hc)
                  have hkid : (m :: p0, c) ∈
                      (processLevel key st (e0 :: q2) E).2 := by
                    rw [processLevel_eq_pfold]
                    refine pfold_kids_mem key st _ _ _
                      (Or.inr ⟨(p0, .mk vv lf cs), hmem, ?_⟩)
                    show (m :: p0, c) ∈
                      (LayoutTree.mk vv lf cs).children.enum.map
                        (fun ic => (ic.1 :: p0, ic.2))
                    exact List.mem_map.mpr
                      ⟨(m, c), List.mk_mem_enum_iff_get?.mpr hc, rfl⟩
                  have hdc : getDown c srest = some t2 := hdown
                  have hrec := ih (processLevel key st (e0 :: q2) E).2
                    (processLevel key st (e0 :: q2) E).1 (m :: p0) c srest t2
                    hkid hdc hcm
                  have hr : (m :: srest).reverse ++ p0 =
                      srest.reverse ++ (m :: p0) := by
                    rw [List.reverse_cons, List.append_assoc]
                    rfl
                  rw [hr]
                  exact hrec

theorem find?_pos_of_shape (st : St) (l : List (Path × (Q × Q))) (k : Path)
    (hshape : ∀ e ∈ l, ∃ pth : Path, e = (pth, (getX st pth, getY st pth)))
    (hmem : k ∈ l.map Prod.fst) :
    l.find? (fun e => decide (e.1 = k)) = some (k, (getX st k, getY st k)) := by
  obtain ⟨e0, he0, hk⟩ := List.mem_map.mp hmem
  cases hf : l.find? (fun e => decide (e.1 = k)) with
  | none =>
      exfalso
      have hs : (l.find? (fun e => decide (e.1 = k))).isSome :=
        List.find?_isSome.mpr ⟨e0, he0, by simpa using hk⟩
      rw [hf] at hs
      simp at hs
  | some e =>
      have hp : e.1 = k := by simpa using List.find?_some hf
      obtain ⟨pth, rfl⟩ := hshape e (List.mem_of_find?_eq_some hf)
      have hpk : pth = k := hp
      rw [hpk]

theorem find?_map_snd (T : (Q × Q) → Q × Q)
    (l : List (Path × (Q × Q))) (k : Path) :
    (l.map (fun e => (e.1, T e.2))).find? (fun e => decide (e.1 = k)) =
      (l.find? (fun e => decide (e.1 = k))).map (fun e => (e.1, T e.2)) := by
  induction l with
  | nil => rfl
  | cons e l ih =>
      by_cases hk : e.1 = k
      · rw [List.map_cons,
          List.find?_cons_of_pos _ (by simpa using hk),
          List.find?_cons_of_pos _ (by simpa using hk)]
        rfl
      · rw [List.map_cons,
          List.find?_cons_of_neg _ (by simpa using hk),
          List.find?_cons_of_neg _ (by simpa using hk), ih]

theorem find?_rawExtract (tree : Tree) (keepRoot : Bool) (depthLimit : Int)
    (k : Path)
    (hmem : k ∈ (rawExtract tree keepRoot depthLimit).positions.map Prod.fst) :
    (rawExtract tree keepRoot depthLimit).positions.find?
        (fun e => decide (e.1 = k)) =
      some (k, (getX (rawSt tree keepRoot depthLimit) k,
        getY (rawSt tree keepRoot depthLimit) k)) := by
  refine find?_pos_of_shape (rawSt tree keepRoot depthLimit) _ k ?_ hmem
  intro e he
  exact extractGo_shape (fun q : Path => q) (rawSt tree keepRoot depthLimit)
    (limitFuel depthLimit) (rawRoots tree keepRoot depthLimit) emptyExtracted
    (by intro e2 he2; cases he2) e he

theorem lookupPos_rawExtract (tree : Tree) (keepRoot : Bool)
    (depthLimit : Int) (k : Path)
    (hmem : k ∈ (rawExtract tree keepRoot depthLimit).positions.map Prod.fst) :
    lookupPos (rawExtract tree keepRoot depthLimit) k =
      some (getX (rawSt tree keepRoot depthLimit) k,
        getY (rawSt tree keepRoot depthLimit) k) := by
  unfold lookupPos
  rw [find?_rawExtract tree keepRoot depthLimit k hmem]
  rfl

theorem lookupPos_transformed (T : (Q × Q) → Q × Q) (E : Extracted Path)
    (l2 : List (Path × (Q × Q))) (k : Path) (v : Q × Q)
    (hl2 : l2 = E.positions.map (fun e => (e.1, T e.2)))
    (hfind : E.positions.find? (fun e => decide (e.1 = k)) = some (k, v)) :
    lookupPos { E with positions := l2 } k = some (T v) := by
  unfold lookupPos
  show (l2.find? (fun e => decide (e.1 = k))).map Prod.snd = some (T v)
  rw [hl2, find?_map_snd, hfind]
  rfl

/-! ### Fuel bounds for the pruned layout tree -/

theorem foldr_max_le (l : List Nat) (b : Nat) (h : ∀ a ∈ l, a ≤ b) :
    l.foldr max 0 ≤ b := by
  induction l with
  | nil => exact Nat.zero_le b
  | cons a l ih =>
      show max a (l.foldr max 0) ≤ b
      exact max_le (h a (List.mem_cons_self _ _))
        (ih (fun x hx => h x (List.mem_cons_of_mem _ hx)))

theorem heightF_buildLayoutTreeF_le :
    ∀ (f2 fuel : Nat) (t : Tree) (lvl lim : Int),
      heightF fuel (buildLayoutTreeF f2 t lvl lim) ≤
        (lim - 1 - lvl).toNat + 1 := by
  intro f2
  induction f2 with
  | zero =>
      intro fuel t lvl lim
      cases fuel with
      | zero => exact Nat.zero_le _
      | succ fuel =>
          show 1 + (([] : List LayoutTree).map (heightF fuel)).foldr max 0 ≤ _
          simp only [List.map_nil, List.foldr_nil]
          omega
  | succ f2 ih =>
      intro fuel t lvl lim
      cases fuel with
      | zero => exact Nat.zero_le _
      | succ fuel =>
          show 1 + (((if lvl < lim - 1 then
            t.children.map (fun c => buildLayoutTreeF f2 c (lvl + 1) lim)
            else []).map (heightF fuel)).foldr max 0) ≤ _
          by_cases hl : lvl < lim - 1
          · rw [if_pos hl]
            have hb : ((t.children.map
                (fun c => buildLayoutTreeF f2 c (lvl + 1) lim)).map
                  (heightF fuel)).foldr max 0 ≤
                (lim - 1 - (lvl + 1)).toNat + 1 := by
              refine foldr_max_le _ _ ?_
              intro a ha
              rw [List.map_map] at ha
              obtain ⟨c, _, rfl⟩ := List.mem_map.mp ha
              exact ih fuel c (lvl + 1) lim
            omega
          · rw [if_neg hl]
            simp only [List.map_nil, List.foldr_nil]
            omega

theorem heightF_rawLT_lt (tree : Tree) (keepRoot : Bool) (depthLimit : Int) :
    heightF (limitFuel depthLimit) (rawLT tree keepRoot depthLimit) <
      limitFuel depthLimit := by
  have h := heightF_buildLayoutTreeF_le (limitFuel depthLimit)
    (limitFuel depthLimit) tree (rawRootLevel keepRoot) depthLimit
  have hlv : -1 ≤ rawRootLevel keepRoot ∧ rawRootLevel keepRoot ≤ 0 := by
    unfold rawRootLevel
    cases keepRoot <;> simp
  have hlim : limitFuel depthLimit = depthLimit.toNat + 3 := rfl
  have hr : heightF (limitFuel depthLimit) (rawLT tree keepRoot depthLimit) =
      heightF (limitFuel depthLimit)
        (buildLayoutTreeF (limitFuel depthLimit) tree (rawRootLevel keepRoot)
          depthLimit) := rfl
  rw [hr]
  omega

theorem heightF_rawLT_child_lt (tree : Tree) (keepRoot : Bool)
    (depthLimit : Int) (c : LayoutTree)
    (hc : c ∈ (rawLT tree keepRoot depthLimit).children) :
    heightF (limitFuel depthLimit) c < limitFuel depthLimit := by
  have h1 : heightF (limitFuel depthLimit) c ≤
      ((rawLT tree keepRoot depthLimit).children.map
        (heightF (limitFuel depthLimit))).foldr max 0 :=
    mem_le_foldr_max _ _ (List.mem_map_of_mem _ hc)
  have h2 : ∀ t0 : LayoutTree,
      1 + (t0.children.map (heightF (limitFuel depthLimit))).foldr max 0 =
        heightF (limitFuel depthLimit + 1) t0 := by
    intro t0
    obtain ⟨vv, lf, cs⟩ := t0
    rfl
  have h3 := heightF_buildLayoutTreeF_le (limitFuel depthLimit)
    (limitFuel depthLimit + 1) tree (rawRootLevel keepRoot) depthLimit
  have hr : rawLT tree keepRoot depthLimit =
      buildLayoutTreeF (limitFuel depthLimit) tree (rawRootLevel keepRoot)
        depthLimit := rfl
  rw [← hr] at h3
  rw [← h2 (rawLT tree keepRoot depthLimit)] at h3
  have hlv : -1 ≤ rawRootLevel keepRoot ∧ rawRootLevel keepRoot ≤ 0 := by
    unfold rawRootLevel
    cases keepRoot <;> simp
  have hlim : limitFuel depthLimit = depthLimit.toNat + 3 := rfl
  omega

theorem rawExtract_mem_child (tree : Tree) (keepRoot : Bool)
    (depthLimit : Int) (i : Nat) (p : Path)
    (hv : (getLT (rawLT tree keepRoot depthLimit) (i :: p)).isSome) :
    (i :: p) ∈ (rawExtract tree keepRoot depthLimit).positions.map Prod.fst := by
  obtain ⟨c2, hc2⟩ := Option.isSome_iff_exists.mp hv
  cases keepRoot with
  | true =>
      have hroots : ([], rawLT tree true depthLimit) ∈
          rawRoots tree true depthLimit := by
        unfold rawRoots
        rw [if_pos rfl]
        exact List.mem_singleton.mpr rfl
      have hreach := extractGo_reach (fun q : Path => q)
        (rawSt tree true depthLimit) (limitFuel depthLimit)
        (rawRoots tree true depthLimit) emptyExtracted
        [] (rawLT tree true depthLimit) (i :: p).reverse c2
        hroots hc2 (heightF_rawLT_lt tree true depthLimit)
      simpa using hreach
  | false =>
      cases hrev : (i :: p).reverse with
      | nil => exact absurd hrev (by simp)
      | cons m srest =>
          have hd : getDown (rawLT tree false depthLimit) (m :: srest) =
              some c2 := by
            rw [← hrev]
            exact hc2
          simp only [getDown] at hd
          cases hgc : (rawLT tree false depthLimit).children.get? m with
          | none =>
              rw [hgc] at hd
              cases hd
          | some c =>
              rw [hgc] at hd
              have hcm : c ∈ (rawLT tree false depthLimit).children :=
                List.get?_mem hgc
              have hh := heightF_rawLT_child_lt tree false depthLimit c hcm
              have hroots : ([m], c) ∈ rawRoots tree false depthLimit := by
                unfold rawRoots
                rw [if_neg (by simp)]
                show ([m], c) ∈
                  (rawLT tree false depthLimit).children.enum.map
                    (fun ic => (ic.1 :: ([] : Path), ic.2))
                exact List.mem_map.mpr
                  ⟨(m, c), List.mk_mem_enum_iff_get?.mpr hgc, rfl⟩
              have hreach := extractGo_reach (fun q : Path => q)
                (rawSt tree false depthLimit) (limitFuel depthLimit)
                (rawRoots tree false depthLimit) emptyExtracted
                [m] c srest c2 hroots hd hh
              have hr : srest.reverse ++ [m] = i :: p := by
                have h0 : (m :: srest).reverse = i :: p := by
                  rw [← hrev, List.reverse_reverse]
                simpa [List.reverse_cons] using h0
              show (i :: p) ∈ (extractGo (fun q : Path => q)
                (rawSt tree false depthLimit) (limitFuel depthLimit)
                (rawRoots tree false depthLimit) emptyExtracted).positions.map
                  Prod.fst
              rw [← hr]
              exact hreach

theorem renderTree_raw (tree : Tree) (keepRoot : Bool) (depthLimit : Int)
    (rankdir : String) (piQ : Q) (cosQ sinQ : Q → Q) :
    renderTree tree keepRoot depthLimit rankdir (fun q : Path => q)
        piQ cosQ sinQ =
      if rankdir ≠ "BT" then
        { rawExtract tree keepRoot depthLimit with
          positions := transformAxes piQ cosQ sinQ rankdir
            (rawExtract tree keepRoot depthLimit).positions }
      else rawExtract tree keepRoot depthLimit := rfl

/-- C4: For every input tree and configuration (`keep_root`, `depth_limit`
and any of the four axis-aligned `rankdir` directions), no two sibling
leaves at the same level receive final positions closer than the sibling
spacing `dx = 1.0` apart on the layout axis: both siblings appear in the
rendered positions and their layout-axis coordinates differ by at least
one unit (in index order). -/
theorem sibling_leaves_keep_dx_spacing
    (tree : Tree) (keepRoot : Bool) (depthLimit : Int) (rankdir : String)
    (piQ : Q) (cosQ sinQ : Q → Q)
    (hrd : rankdir = "TB" ∨ rankdir = "BT" ∨ rankdir = "LR" ∨ rankdir = "RL")
    (p : Path) (i j : Nat) (hij : i < j)
    (hj : j < cnt (rawLT tree keepRoot depthLimit) p)
    (hleafi : cnt (rawLT tree keepRoot depthLimit) (i :: p) = 0)
    (hleafj : cnt (rawLT tree keepRoot depthLimit) (j :: p) = 0) :
    ∃ a b : Q × Q,
      lookupPos (renderTree tree keepRoot depthLimit rankdir
        (fun q : Path => q) piQ cosQ sinQ) (i :: p) = some a ∧
      lookupPos (renderTree tree keepRoot depthLimit rankdir
        (fun q : Path => q) piQ cosQ sinQ) (j :: p) = some b ∧
      (axisCoord rankdir a).val + 1 ≤ (axisCoord rankdir b).val := by
  have hgX : (getX (rawSt tree keepRoot depthLimit) (i :: p)).val
      + ((j : ℚ) - (i : ℚ)) ≤
      (getX (rawSt tree keepRoot depthLimit) (j :: p)).val :=
    buchheim_sibling_gaps (limitFuel depthLimit)
      (rawLT tree keepRoot depthLimit) (rawRootLevel keepRoot)
      (heightF_rawLT_lt tree keepRoot depthLimit) p i j hij hj
  have hvi : (getLT (rawLT tree keepRoot depthLimit) (i :: p)).isSome :=
    valid_child_of_lt (lt_trans hij hj)
  have hvj : (getLT (rawLT tree keepRoot depthLimit) (j :: p)).isSome :=
    valid_child_of_lt hj
  have hmi := rawExtract_mem_child tree keepRoot depthLimit i p hvi
  have hmj := rawExtract_mem_child tree keepRoot depthLimit j p hvj
  have hfi := find?_rawExtract tree keepRoot depthLimit (i :: p) hmi
  have hfj := find?_rawExtract tree keepRoot depthLimit (j :: p) hmj
  have h1 : (1 : ℚ) ≤ (j : ℚ) - (i : ℚ) := by
    have hc : (i : ℚ) + 1 ≤ (j : ℚ) := by exact_mod_cast hij
    linarith
  have hnn : ∀ a : Q, (-(-a)).val = a.val := by
    intro a
    rw [Q.val_neg, Q.val_neg, neg_neg]
  rcases hrd with rfl | rfl | rfl | rfl
  · rw [renderTree_raw, if_pos (by decide)]
    have hti := lookupPos_transformed (fun v : Q × Q => (v.1, -v.2))
      (rawExtract tree keepRoot depthLimit)
      (transformAxes piQ cosQ sinQ "TB"
        (rawExtract tree keepRoot depthLimit).positions) (i :: p) _
      (by unfold transformAxes; rw [if_pos rfl]) hfi
    have htj := lookupPos_transformed (fun v : Q × Q => (v.1, -v.2))
      (rawExtract tree keepRoot depthLimit)
      (transformAxes piQ cosQ sinQ "TB"
        (rawExtract tree keepRoot depthLimit).positions) (j :: p) _
      (by unfold transformAxes; rw [if_pos rfl]) hfj
    refine ⟨_, _, hti, htj, ?_⟩
    have hax : ∀ v w : Q, axisCoord "TB" (v, w) = v := by
      intro v w
      unfold axisCoord
      rw [if_neg (by decide)]
    rw [hax, hax]
    linarith [hgX, h1]
  · rw [renderTree_raw, if_neg (by decide)]
    have hti := lookupPos_rawExtract tree keepRoot depthLimit (i :: p) hmi
    have htj := lookupPos_rawExtract tree keepRoot depthLimit (j :: p) hmj
    refine ⟨_, _, hti, htj, ?_⟩
    have hax : ∀ v w : Q, axisCoord "BT" (v, w) = v := by
      intro v w
      unfold axisCoord
      rw [if_neg (by decide)]
    rw [hax, hax]
    linarith [hgX, h1]
  · rw [renderTree_raw, if_pos (by decide)]
    have hti := lookupPos_transformed (fun v : Q × Q => (v.2, -v.1))
      (rawExtract tree keepRoot depthLimit)
      (transformAxes piQ cosQ sinQ "LR"
        (rawExtract tree keepRoot depthLimit).positions) (i :: p) _
      (by unfold transformAxes; rw [if_neg (by decide), if_pos rfl]) hfi
    have htj := lookupPos_transformed (fun v : Q × Q => (v.2, -v.1))
      (rawExtract tree keepRoot depthLimit)
      (transformAxes piQ cosQ sinQ "LR"
        (rawExtract tree keepRoot depthLimit).positions) (j :: p) _
      (by unfold transformAxes; rw [if_neg (by decide), if_pos rfl]) hfj
    refine ⟨_, _, hti, htj, ?_⟩
    have hax : ∀ v w : Q, axisCoord "LR" (v, w) = -w := by
      intro v w
      unfold axisCoord
      rw [if_pos (Or.inl rfl)]
    rw [hax, hax, hnn, hnn]
    linarith [hgX, h1]
  · rw [renderTree_raw, if_pos (by decide)]
    have hti := lookupPos_transformed (fun v : Q × Q => (-v.2, -v.1))
      (rawExtract tree keepRoot depthLimit)
      (transformAxes piQ cosQ sinQ "RL"
        (rawExtract tree keepRoot depthLimit).positions) (i :: p) _
      (by unfold transformAxes;
          rw [if_neg (by decide), if_neg (by decide), if_pos rfl]) hfi
    have htj := lookupPos_transformed (fun v : Q × Q => (-v.2, -v.1))
      (rawExtract tree keepRoot depthLimit)
      (transformAxes piQ cosQ sinQ "RL"
        (rawExtract tree keepRoot depthLimit).positions) (j :: p) _
      (by unfold transformAxes;
          rw [if_neg (by decide), if_neg (by decide), if_pos rfl]) hfj
    refine ⟨_, _, hti, htj, ?_⟩
    have hax : ∀ v w : Q, axisCoord "RL" (v, w) = -w := by
      intro v w
      unfold axisCoord
      rw [if_pos (Or.inr rfl)]
    rw [hax, hax, hnn, hnn]
    linarith [hgX, h1]

theorem sibling_leaves_keep_dx_spacing_witness :
    ∃ a b : Q × Q,
      lookupPos (renderTree (buildTree ["ab", "ac"]) false 10 "TB"
        (fun q : Path => q) 0 zeroF zeroF) [0, 0] = some a ∧
      lookupPos (renderTree (buildTree ["ab", "ac"]) false 10 "TB"
        (fun q : Path => q) 0 zeroF zeroF) [1, 0] = some b ∧
      (axisCoord "TB" a).val + 1 ≤ (axisCoord "TB" b).val :=
  sibling_leaves_keep_dx_spacing (buildTree ["ab", "ac"]) false 10 "TB"
    0 zeroF zeroF (Or.inl rfl) [0] 0 1 (by decide) (by decide) (by decide)
    (by decide)

end DictGraph
